import Mathlib

/-!
Verification of the configuration reconciliation engine of
`ble-config-service/ble_config.py` (zero-stock-screen).

The file content is modelled as `List Char`; the `readlines` view of a file
is a `List Line` where every element keeps its trailing newline, exactly as
Python's `readlines` produces it.  The two regular expressions of the source
(`\s*\[(.+?)\]\s*$` for section headers and
`^(\s*KEY\s*[:=]\s*)([^#;\n]*)(\s*(#.*)?)$` for key lines) are embedded as
deterministic parsers; Python's backtracking regex engine is deterministic
on these patterns (greedy/lazy quantifiers whose character classes make
backtracking fruitless), so the parsers compute exactly the groups the
source obtains.
-/

namespace ZeroStock


abbrev Line := List Char

/-- Coerce a string literal to the `List Char` representation used throughout. -/
def chars (s : String) : Line := s.data

/-- Python's `\s` / `str.strip()` whitespace on ASCII text. -/
def isPySpace (c : Char) : Bool :=
  c = ' ' || c = '\t' || c = '\n' || c = '\r' || c = '\x0b' || c = '\x0c'

/-- Python `str.strip()` on a character list. -/
def trimChars (l : Line) : Line :=
  ((l.dropWhile isPySpace).reverse.dropWhile isPySpace).reverse

/-- Python `line.rstrip("\n")`: remove all trailing newline characters. -/
def rstripNl (l : Line) : Line :=
  (l.reverse.dropWhile (fun c => c = '\n')).reverse

/-- Does the line end with a newline (`line.endswith("\n")`)? -/
def endsNl (l : Line) : Bool :=
  match l.getLast? with
  | some c => c = '\n'
  | none => false

/-- Helper for `splitAfterNl`; `acc` holds the current (reversed) partial line. -/
def splitAux : List Char → List Char → List Line
  | [], acc => if acc = [] then [] else [acc.reverse]
  | c :: rest, acc =>
    if c = '\n' then (c :: acc).reverse :: splitAux rest []
    else splitAux rest (c :: acc)

/-- Python `readlines` on a file content: split after each newline, keeping it. -/
def splitAfterNl (cs : List Char) : List Line := splitAux cs []

/-- Inverse of `readlines`: `writelines` concatenates the lines verbatim. -/
def joinLines (L : List Line) : List Char := L.flatten

/-- A line as produced by `readlines` from a newline-terminated file:
nonempty, ends with a newline and has no interior newline. -/
def WfNlLine (l : Line) : Prop := ∃ b, l = b ++ ['\n'] ∧ '\n' ∉ b

/-- The file content is empty or ends with a newline character. -/
def EndsNlC (cs : List Char) : Prop := cs = [] ∨ cs.getLast? = some '\n'

/-! ## Section headers: the regex `\s*\[(.+?)\]\s*$` of `_section_ranges`.

`hdrScan` mirrors the lazy group `(.+?)` followed by `\]\s*$`: scanning left
to right, it closes the name at the first `]` whose tail is all whitespace
(the lazy quantifier tries the shortest name first); `.` does not match a
newline, so a newline before a viable `]` kills the match. -/

def hdrScan : List Char → List Char → Option Line
  | [], _ => none
  | c :: rest, acc =>
    if c = ']' ∧ acc ≠ [] ∧ rest.all isPySpace then some acc.reverse
    else if c = '\n' then none
    else hdrScan rest (c :: acc)

/-- `re.match(r"\s*\[(.+?)\]\s*$", line)` followed by `.group(1).strip()`. -/
def headerName? (l : Line) : Option Line :=
  match l.dropWhile isPySpace with
  | '[' :: rest => (hdrScan rest []).map trimChars
  | _ => none

/-! ## `_section_ranges`: one pass over the lines, collecting a dict from
section name to `(start, end)` line ranges; a later duplicate header
overwrites the dict entry of an earlier one. -/

/-- Lookup in the assoc-list model of a Python dict (most recent insert first). -/
def alookup : List (Line × Nat × Nat) → Line → Option (Nat × Nat)
  | [], _ => none
  | (k, v) :: rest, s => if k = s then some v else alookup rest s

/-- The loop of `_section_ranges`, operating on the per-line header-match
results.  `n` is the absolute index of the next line, `cur` the currently
open section (name and start index), `d` the dict built so far. -/
def srAux : List (Option Line) → Nat → Option (Line × Nat) → List (Line × Nat × Nat) →
    List (Line × Nat × Nat)
  | [], n, cur, d =>
    match cur with
    | some (name, st) => (name, st, n) :: d
    | none => d
  | o :: rest, n, cur, d =>
    match o with
    | some name =>
      srAux rest (n + 1) (some (name, n))
        (match cur with
         | some (cn, st) => (cn, st, n) :: d
         | none => d)
    | none => srAux rest (n + 1) cur d

/-- `_section_ranges(lines)` as a dict. -/
def sectionRanges (L : List Line) : List (Line × Nat × Nat) :=
  srAux (L.map headerName?) 0 none []

/-- `_section_ranges(lines)[section]` (with `None` for a missing key). -/
def lookupRange (L : List Line) (s : Line) : Option (Nat × Nat) :=
  alookup (sectionRanges L) s

/-! ### Characterisation of `lookupRange`:
the recorded range of `s` starts at the last header named `s` and ends at
the next header of any name (or at the end of the file). -/

/-- Index of the last element equal to `some s`. -/
def lastHdrIdx : List (Option Line) → Line → Option Nat
  | [], _ => none
  | o :: rest, s =>
    match lastHdrIdx rest s with
    | some j => some (j + 1)
    | none => if o = some s then some 0 else none

/-- Index of the first `some` entry, or the length if there is none. -/
def firstHdrIdx : List (Option Line) → Nat
  | [] => 0
  | o :: rest => if o.isSome then 0 else firstHdrIdx rest + 1

/-! ## Key lines: the regex `^(\s*KEY\s*[:=]\s*)([^#;\n]*)(\s*(#.*)?)$` of
`_find_key`, matched against `line.rstrip("\n")`.

All quantifiers are taken greedily; on these character classes the Python
engine's backtracking can never turn an overall failure into a success nor
produce different groups, so the greedy parse below is exact (for keys that
contain no whitespace and do not start with `[`, which holds for every key
the program uses). -/

/-- The class `[^#;\n]` of the value group. -/
def isValChar (c : Char) : Bool := !(c = '#' || c = ';' || c = '\n')

/-- The tail regex `(\s*(#.*)?)$` (where `$` means end of string, the input
having been stripped of trailing newlines). -/
def tailMatch (r : Line) : Option Line :=
  let w := r.takeWhile isPySpace
  let rest := r.dropWhile isPySpace
  match rest with
  | [] => some w
  | c :: _ => if c = '#' ∧ '\n' ∉ rest then some (w ++ rest) else none

/-- The full key-line match, producing the three captured groups:
prefix through separator and following whitespace, value, trailing
whitespace-and-comment. -/
def keyMatch (k : Line) (l : Line) : Option (Line × Line × Line) :=
  let ws1 := l.takeWhile isPySpace
  let r1 := l.dropWhile isPySpace
  if k.isPrefixOf r1 then
    let r2 := r1.drop k.length
    let ws2 := r2.takeWhile isPySpace
    match r2.dropWhile isPySpace with
    | [] => none
    | sep :: r4 =>
      if sep = ':' ∨ sep = '=' then
        let ws3 := r4.takeWhile isPySpace
        let r5 := r4.dropWhile isPySpace
        match tailMatch (r5.dropWhile isValChar) with
        | some g3 => some (ws1 ++ k ++ ws2 ++ sep :: ws3, r5.takeWhile isValChar, g3)
        | none => none
      else none
  else none

/-- The scan of `for idx in range(start + 1, end)` in `_find_key`; `cnt` is
the number of indices left to try. -/
def scanKey (L : List Line) (k : Line) : Nat → Nat → Option (Nat × (Line × Line × Line))
  | _, 0 => none
  | i, cnt + 1 =>
    match L[i]? with
    | none => none
    | some l =>
      match keyMatch k (rstripNl l) with
      | some g => some (i, g)
      | none => scanKey L k (i + 1) cnt

/-- `_find_key(lines, section, key)`. -/
def findKey (L : List Line) (s k : Line) : Option (Nat × (Line × Line × Line)) :=
  match lookupRange L s with
  | none => none
  | some (st, en) => scanKey L k (st + 1) (en - (st + 1))

/-- The first statement of `_ensure_section`: give the last line a newline
if it lacks one. -/
def fixLastNl (L : List Line) : List Line :=
  match L.getLast? with
  | none => L
  | some last => if endsNl last then L else L.dropLast ++ [last ++ ['\n']]

/-- The second statement of `_ensure_section`: append a blank separator line
if the last line is non-blank. -/
def maybeBlank (L : List Line) : List Line :=
  match L.getLast? with
  | none => L
  | some last => if trimChars last ≠ [] then L ++ [['\n']] else L

/-- `_ensure_section(lines, section)`. -/
def ensureSection (L : List Line) (s : Line) : List Line :=
  if (lookupRange L s).isSome then L
  else maybeBlank (fixLastNl L) ++ ['[' :: (s ++ [']', '\n'])]

/-- The new line `f"{key} : {value}\n"` inserted by `_set_key`. -/
def mkKeyLine (k v : Line) : Line := k ++ (' ' :: ':' :: ' ' :: v) ++ ['\n']

/-- The loop `for idx in range(end - 1, start, -1)` of `_set_key`, looking
for the last non-blank line of the section; `fuel` is the number of indices
left, `idx` the current one. -/
def insertPosLoop (L : List Line) (st : Nat) : Nat → Nat → Nat
  | _, 0 => st + 1
  | idx, fuel + 1 =>
    match L[idx]? with
    | some l => if trimChars l ≠ [] then idx + 1 else insertPosLoop L st (idx - 1) fuel
    | none => insertPosLoop L st (idx - 1) fuel

/-- The insertion index computed by `_set_key` when the key is absent. -/
def insertPos (L : List Line) (st en : Nat) : Nat :=
  insertPosLoop L st (en - 1) (en - 1 - st)

/-- `_set_key(lines, section, key, value)`.  The final fallthrough branch is
unreachable (after `_ensure_section` the section is always present). -/
def setKey (L : List Line) (s k v : Line) : List Line :=
  let L1 := ensureSection L s
  match findKey L1 s k with
  | some (idx, g1, _, g3) =>
    let nl : Line := if endsNl ((L1[idx]?).getD []) then ['\n'] else []
    L1.set idx (g1 ++ v ++ g3 ++ nl)
  | none =>
    match lookupRange L1 s with
    | some (st, en) => L1.insertIdx (insertPos L1 st en) (mkKeyLine k v)
    | none => L1

/-- `_get_value(lines, section, key)`. -/
def getValue (L : List Line) (s k : Line) : Option Line :=
  match findKey L s k with
  | none => none
  | some (_, _, g2, _) => some (trimChars g2)

/-! ## Typed update values and `_write_config`. -/

/-- `str(n)` for a Python int. -/
def pyStrInt (n : ℤ) : Line :=
  if n < 0 then '-' :: Nat.toDigits 10 n.natAbs else Nat.toDigits 10 n.natAbs

/-- Fractional decimal digits of a rational in `[0, 1)`, with `fuel` digits
at most. -/
def fracDigits : ℚ → Nat → List Char
  | _, 0 => []
  | q, fuel + 1 =>
    if q = 0 then []
    else
      let d := (⌊q * 10⌋).toNat
      Char.ofNat (48 + d) :: fracDigits (q * 10 - ⌊q * 10⌋) fuel

/-- Modelled rendering of `str(x)` for a Python float: sign, integer part,
dot, fractional digits (`.0` when the value is integral).  CPython's
shortest-round-trip repr agrees with this on every value with a short
decimal expansion, which covers all values this program renders. -/
def pyStrFloat (q : ℚ) : Line :=
  let sign : Line := if q < 0 then ['-'] else []
  let aq : ℚ := |q|
  let frac := fracDigits (aq - ⌊aq⌋) 17
  sign ++ Nat.toDigits 10 (⌊aq⌋).toNat ++ '.' :: (if frac = [] then ['0'] else frac)

/-- A typed value as held in an update set (Python `bool` is kept distinct
from `int` because `str()` renders it as `True`/`False`). -/
inductive UVal where
  | int (n : ℤ)
  | bool (b : Bool)
  | float (q : ℚ)
  | str (s : Line)
deriving DecidableEq

/-- Python `str(value)` as used by `_write_config`. -/
def pyStr : UVal → Line
  | .int n => pyStrInt n
  | .bool true => chars "True"
  | .bool false => chars "False"
  | .float q => pyStrFloat q
  | .str s => s

def baseS : Line := chars "base"
def epdS : Line := chars "epd2in13v3"
def refreshK : Line := chars "refresh_interval_minutes"
def dataRangeK : Line := chars "data_range_days"
def baseUrlK : Line := chars "data_api_base_url"
def tickerK : Line := chars "ticker"
def modeK : Line := chars "mode"

/-- The `base` part of an update set produced by `_validate_updates`. -/
structure BaseUpdates where
  refresh : Option UVal
  dataRange : Option UVal
  baseUrl : Option UVal
  ticker : Option UVal
deriving DecidableEq

/-- The `epd2in13v3` part of an update set. -/
structure EpdUpdates where
  mode : Option UVal
deriving DecidableEq

/-- An update set: section -> key -> typed value, with absent entries
modelled as `none`. -/
structure UpdateSet where
  base : Option BaseUpdates
  epd : Option EpdUpdates
deriving DecidableEq

/-- The `base` branch of `_write_config`'s mutation phase. -/
def applyBase (L : List Line) (bu : BaseUpdates) : List Line :=
  let L1 := match bu.refresh with
    | none => L
    | some v => setKey L baseS refreshK (pyStr v)
  let L2 := match bu.dataRange with
    | none => L1
    | some v => setKey L1 baseS dataRangeK (pyStr v)
  let L3 := match bu.baseUrl with
    | none => L2
    | some v => setKey L2 baseS baseUrlK (pyStr v)
  match bu.ticker with
  | none => L3
  | some v => setKey L3 baseS tickerK (pyStr v)

/-- The full mutation phase of `_write_config` on the line list. -/
def applyUpdates (L : List Line) (u : UpdateSet) : List Line :=
  let L1 := match u.base with
    | none => L
    | some bu => applyBase L bu
  match u.epd with
  | none => L1
  | some eu =>
    match eu.mode with
    | none => L1
    | some v => setKey L1 epdS modeK (pyStr v)

/-- `_write_config` at the file-content level: read (`readlines`, with a
missing file treated as no lines), mutate, `writelines`. -/
def writeConfigContent (content : Option (List Char)) (u : UpdateSet) : List Char :=
  let L := match content with
    | none => []
    | some cs => splitAfterNl cs
  joinLines (applyUpdates L u)

/-! ## The request payload model and `_validate_updates`.

A decoded JSON value as Python sees it.  `bool` is separate from `int`
because `isinstance(value, int)` is true for both (bool is a subclass)
while `str()` renders them differently. -/

inductive PyVal where
  | none
  | bool (b : Bool)
  | int (n : ℤ)
  | float (q : ℚ)
  | str (s : Line)
  | list (xs : List PyVal)
  | dict (d : List (Line × PyVal))

/-- Python dict lookup (`d.get(k)` / `d[k]`); keys are unique in a parsed
JSON object, so first-match lookup is exact. -/
def dlookup : List (Line × PyVal) → Line → Option PyVal
  | [], _ => Option.none
  | (k, v) :: rest, s => if k = s then some v else dlookup rest s

/-- `isinstance(v, int)`: true for ints and bools (bool is a subclass). -/
def isInstInt : PyVal → Bool
  | .int _ => true
  | .bool _ => true
  | _ => false

/-- The integer value used by comparisons when `isinstance(v, int)` holds. -/
def intOf : PyVal → ℤ
  | .int n => n
  | .bool b => if b then 1 else 0
  | _ => 0

/-- `isinstance(v, (int, float))`. -/
def isInstNum : PyVal → Bool
  | .int _ => true
  | .bool _ => true
  | .float _ => true
  | _ => false

/-- `float(v)` on a numeric value. -/
def floatOf : PyVal → ℚ
  | .int n => (n : ℚ)
  | .bool b => if b then 1 else 0
  | .float q => q
  | _ => 0

def isInstStr : PyVal → Bool
  | .str _ => true
  | _ => false

def strOf : PyVal → Line
  | .str s => s
  | _ => []

/-- Python truthiness of an optional value (`if x:` with `x` possibly absent). -/
def pyTruthy : Option PyVal → Bool
  | Option.none => false
  | some PyVal.none => false
  | some (.bool b) => b
  | some (.int n) => n != 0
  | some (.float q) => q != 0
  | some (.str s) => !s.isEmpty
  | some (.list xs) => !xs.isEmpty
  | some (.dict d) => !d.isEmpty

/-- ASCII lower-casing, `str.lower()`. -/
def lowerChars (l : Line) : Line := l.map Char.toLower

def emptyBase : BaseUpdates :=
  { refresh := Option.none, dataRange := Option.none, baseUrl := Option.none,
    ticker := Option.none }

/-- The `refresh_interval_minutes` check of `_validate_updates`. -/
def checkRefresh (d : List (Line × PyVal)) : Except Line (Option UVal) :=
  match dlookup d refreshK with
  | Option.none => .ok Option.none
  | some v =>
    if !isInstInt v then .error (chars "refresh_interval_minutes must be int")
    else if intOf v < 1 ∨ 1440 < intOf v then
      .error (chars "refresh_interval_minutes out of range")
    else .ok (some (match v with
      | .bool b => UVal.bool b
      | .int n => UVal.int n
      | _ => UVal.int 0))

/-- The `data_range_days` check of `_validate_updates`. -/
def checkDataRange (d : List (Line × PyVal)) : Except Line (Option UVal) :=
  match dlookup d dataRangeK with
  | Option.none => .ok Option.none
  | some v =>
    if !isInstNum v then .error (chars "data_range_days must be number")
    else if floatOf v < 1 / 10 ∨ 365 < floatOf v then
      .error (chars "data_range_days out of range")
    else .ok (some (UVal.float (floatOf v)))

/-- A non-empty-after-trim string check (`data_api_base_url` / `ticker`). -/
def checkTrimmedStr (d : List (Line × PyVal)) (key : Line) (eType eEmpty : Line) :
    Except Line (Option UVal) :=
  match dlookup d key with
  | Option.none => .ok Option.none
  | some v =>
    if !isInstStr v then .error eType
    else if trimChars (strOf v) = [] then .error eEmpty
    else .ok (some (UVal.str (trimChars (strOf v))))

/-- The `base` sub-object checks of `_validate_updates`, in source order;
the first failing field raises. -/
def validateBaseDict (d : List (Line × PyVal)) : Except Line BaseUpdates :=
  match checkRefresh d with
  | .error e => .error e
  | .ok refresh =>
    match checkDataRange d with
    | .error e => .error e
    | .ok dataRange =>
      match checkTrimmedStr d baseUrlK (chars "data_api_base_url must be string")
          (chars "data_api_base_url cannot be empty") with
      | .error e => .error e
      | .ok baseUrl =>
        match checkTrimmedStr d tickerK (chars "ticker must be string")
            (chars "ticker cannot be empty") with
        | .error e => .error e
        | .ok ticker =>
          .ok { refresh := refresh, dataRange := dataRange, baseUrl := baseUrl,
                ticker := ticker }

/-- The `epd2in13v3` sub-object checks of `_validate_updates`. -/
def validateEpdDict (d : List (Line × PyVal)) : Except Line EpdUpdates :=
  match dlookup d modeK with
  | Option.none => .ok { mode := Option.none }
  | some v =>
    if !isInstStr v then .error (chars "mode must be string")
    else
      let trimmed := lowerChars (trimChars (strOf v))
      if trimmed = chars "candle" ∨ trimmed = chars "line" then
        .ok { mode := some (UVal.str trimmed) }
      else .error (chars "mode must be candle or line")

/-- `_validate_updates(payload)`: returns the typed update set or the
message of the first `ValueError` raised.  A present-but-empty sub-dict
contributes nothing (`if base_updates:`). -/
def validateUpdates (payload : List (Line × PyVal)) : Except Line UpdateSet :=
  match
    (match dlookup payload baseS with
     | Option.none => .ok Option.none
     | some (.dict d) =>
       (match validateBaseDict d with
        | .error e => .error e
        | .ok b => .ok (if b = emptyBase then Option.none else some b))
     | some _ => .error (chars "base must be an object") :
      Except Line (Option BaseUpdates)) with
  | .error e => .error e
  | .ok bu =>
    match
      (match dlookup payload epdS with
       | Option.none => .ok Option.none
       | some (.dict d) =>
         (match validateEpdDict d with
          | .error e => .error e
          | .ok ep => .ok (if ep = { mode := Option.none } then Option.none else some ep))
       | some _ => .error (chars "epd2in13v3 must be an object") :
        Except Line (Option EpdUpdates)) with
    | .error e => .error e
    | .ok eu => .ok { base := bu, epd := eu }

/-! ## The `_on_write` orchestration.

External effects (wifi provisioning, service restart) are modelled by an
environment of state transformers over an abstract network-state type; the
config file content is part of the system state.  JSON decoding happens
before `_on_write`'s logic proper, so the model takes the decoded value.
A config-write `OSError` is not modelled (the write is modelled as the pure
content transformation). -/

structure ProvEnv (σ : Type) where
  provision : Line → Line → σ → Bool × Line × σ
  restart : σ → Bool × Line × σ

structure SysState (σ : Type) where
  config : Option (List Char)
  net : σ

def wifiS : Line := chars "wifi"
def ssidK : Line := chars "ssid"
def pskK : Line := chars "psk"
def restartK : Line := chars "restart"

/-- `wifi is not None and not isinstance(wifi, dict)`. -/
def wifiShapeBad : Option PyVal → Bool
  | Option.none => false
  | some PyVal.none => false
  | some (.dict _) => false
  | some _ => true

/-- Does the update set carry any key (`if updates:` truthiness)? -/
def UpdateSet.nonempty (u : UpdateSet) : Bool :=
  u.base.isSome || u.epd.isSome

/-- `BleConfigServer._on_write` after JSON decoding: returns the notified
reply string and the resulting system state. -/
def onWrite {σ : Type} (env : ProvEnv σ) (payload : PyVal) (st : SysState σ) :
    Line × SysState σ :=
  match payload with
  | .dict d =>
    let wifiOpt := dlookup d wifiS
    if wifiShapeBad wifiOpt then (chars "error: wifi must be an object", st)
    else
      match validateUpdates d with
      | .error e => (chars "error: " ++ e, st)
      | .ok updates =>
        let wifiStep : (Line × SysState σ) ⊕ SysState σ :=
          if pyTruthy wifiOpt then
            match wifiOpt with
            | some (.dict wd) =>
              let ssid := dlookup wd ssidK
              let psk := dlookup wd pskK
              if !pyTruthy ssid || !pyTruthy psk then
                Sum.inl (chars "error: wifi ssid and psk are required", st)
              else if !(isInstStr (ssid.getD PyVal.none)) ||
                  !(isInstStr (psk.getD PyVal.none)) then
                Sum.inl (chars "error: wifi ssid and psk must be strings", st)
              else
                let ssidT := trimChars (strOf (ssid.getD PyVal.none))
                if ssidT = [] then
                  Sum.inl (chars "error: wifi ssid cannot be empty", st)
                else
                  match env.provision ssidT (strOf (psk.getD PyVal.none)) st.net with
                  | (false, out, net2) =>
                    Sum.inl
                      ((chars "error: wifi provisioning failed (" ++ out ++ [')']),
                        { st with net := net2 })
                  | (true, _, net2) => Sum.inr { st with net := net2 }
            | _ => Sum.inr st
          else Sum.inr st
        match wifiStep with
        | Sum.inl r => r
        | Sum.inr st2 =>
          let st3 : SysState σ :=
            if updates.nonempty then
              { st2 with config := some (writeConfigContent st2.config updates) }
            else st2
          let wantRestart := match dlookup d restartK with
            | some (.bool true) => true
            | _ => false
          if wantRestart then
            match env.restart st3.net with
            | (false, out, net4) =>
              (chars "error: restart failed (" ++ out ++ [')'], { st3 with net := net4 })
            | (true, _, net4) => (chars "ok", { st3 with net := net4 })
          else (chars "ok", st3)
  | _ => (chars "error: payload must be a JSON object", st)

/-! ## The wireless state reader.

External tools are modelled by an environment recording, for each command
the code can run, whether the tool is present and what `_run_command`
returns (success flag and stripped stdout). -/

structure WifiEnv where
  nmcli : Bool
  iwgetid : Bool
  connShow : Bool × Line
  devWifi : Bool × Line
  iwgetidOut : Bool × Line
  pskQuery : Line → Bool × Line
  supplicant : Option (List Char)
  devWifiSignal : Bool × Line
  devStatus : Bool × Line

/-- Python `str.splitlines()` on text without exotic line separators. -/
def splitlinesPy (cs : List Char) : List Line :=
  (splitAfterNl cs).map rstripNl

/-- `line.rsplit(":", 2)` when it yields three parts (at least two colons);
`none` models the `ValueError` of unpacking fewer parts. -/
def rsplit2 (l : Line) : Option (Line × Line × Line) :=
  let r := l.reverse
  let p3 := r.takeWhile (fun c => c ≠ ':')
  let r2 := r.dropWhile (fun c => c ≠ ':')
  match r2 with
  | [] => Option.none
  | _ :: r3 =>
    let p2 := r3.takeWhile (fun c => c ≠ ':')
    let r4 := r3.dropWhile (fun c => c ≠ ':')
    match r4 with
    | [] => Option.none
    | _ :: r5 => some (r5.reverse, p2.reverse, p3.reverse)

/-- `line.split(":", 2)` when it yields three parts. -/
def split2 (l : Line) : Option (Line × Line × Line) :=
  let p1 := l.takeWhile (fun c => c ≠ ':')
  let r1 := l.dropWhile (fun c => c ≠ ':')
  match r1 with
  | [] => Option.none
  | _ :: r2 =>
    let p2 := r2.takeWhile (fun c => c ≠ ':')
    let r3 := r2.dropWhile (fun c => c ≠ ':')
    match r3 with
    | [] => Option.none
    | _ :: r4 => some (p1, p2, r4)

/-- `line.split(":", 1)[1]`, assuming a colon is present. -/
def afterFirstColon (l : Line) : Line :=
  match l.dropWhile (fun c => c ≠ ':') with
  | [] => []
  | _ :: r => r

/-- Python `str.isdigit()` on ASCII text. -/
def isdigitPy (l : Line) : Bool := !l.isEmpty && l.all Char.isDigit

/-- Python `str.title()` on ASCII text: a letter is upper-cased when not
preceded by a letter, lower-cased otherwise. -/
def titleAux : List Char → Bool → List Char
  | [], _ => []
  | c :: rest, prevAlpha =>
    (if c.isAlpha then (if prevAlpha then c.toLower else c.toUpper) else c) ::
      titleAux rest c.isAlpha

def titlePy (l : Line) : Line := titleAux l false

/-- The loop of `_get_active_wifi_connection` over the output lines. -/
def connScan : List Line → Option Line × Option Line
  | [] => (Option.none, Option.none)
  | l :: rest =>
    if trimChars l = [] then connScan rest
    else
      match rsplit2 l with
      | Option.none => connScan rest
      | some (name, ctype, device) =>
        if ctype = chars "wifi" then (some name, some device) else connScan rest

/-- `_get_active_wifi_connection()`. -/
def getActiveWifiConnection (env : WifiEnv) : Option Line × Option Line :=
  if !env.nmcli then (Option.none, Option.none)
  else
    match env.connShow with
    | (false, _) => (Option.none, Option.none)
    | (true, out) => connScan (splitlinesPy out)

/-- The loop of `_get_active_ssid` over `nmcli dev wifi` lines: the first
line starting with `yes:` returns (its ssid or `None`). -/
def ssidScan : List Line → Option (Option Line)
  | [] => Option.none
  | l :: rest =>
    if (chars "yes:").isPrefixOf l then
      let ssid := trimChars (afterFirstColon l)
      some (if ssid = [] then Option.none else some ssid)
    else ssidScan rest

/-- `_get_active_ssid()`. -/
def getActiveSsid (env : WifiEnv) : Option Line :=
  let viaNmcli : Option (Option Line) :=
    if env.nmcli then
      match env.devWifi with
      | (true, out) => ssidScan (splitlinesPy out)
      | (false, _) => Option.none
    else Option.none
  match viaNmcli with
  | some r => r
  | Option.none =>
    if env.iwgetid then
      match env.iwgetidOut with
      | (true, out) =>
        let ssid := trimChars out
        if ssid = [] then Option.none else some ssid
      | (false, _) => Option.none
    else Option.none

/-- The tail `\s*=\s*"(.+)"` of the supplicant-field regexes, matched as a
prefix of the text after the field name: the greedy `.+` backtracks to the
last `"` of the line, so the captured group runs from the first quote to the
last quote (at least one character in between). -/
def quotedVal (r : Line) : Option Line :=
  match r.dropWhile isPySpace with
  | '=' :: r2 =>
    match r2.dropWhile isPySpace with
    | '"' :: r3 =>
      let afterQ := r3.reverse.dropWhile (fun c => c ≠ '"')
      match afterQ with
      | [] => Option.none
      | _ :: core => if core = [] then Option.none else some core.reverse
    | _ => Option.none
  | _ => Option.none

/-- `re.match(r'ssid\s*=\s*"(.+)"', stripped)`. -/
def ssidLineVal (l : Line) : Option Line :=
  if (chars "ssid").isPrefixOf l then quotedVal (l.drop 4) else Option.none

/-- The part of the psk regex after the optional leading `#`. -/
def pskLineValCore (l : Line) : Option Line :=
  if (chars "psk").isPrefixOf l then quotedVal (l.drop 3) else Option.none

/-- `re.match(r'#?psk\s*=\s*"(.+)"', stripped)`. -/
def pskLineVal (l : Line) : Option Line :=
  match l with
  | '#' :: r => pskLineValCore r
  | _ => pskLineValCore l

/-- The state machine of `_get_active_psk` over the supplicant file lines:
`inNet` is `in_network`, `curSsid`/`curPsk` the current block's fields. -/
def supplicantScan (ssid : Line) :
    List Line → Bool → Option Line → Option Line → Option Line
  | [], _, _, _ => Option.none
  | l :: rest, inNet, curSsid, curPsk =>
    let stripped := trimChars l
    if (chars "network=\x7b").isPrefixOf stripped then
      supplicantScan ssid rest true Option.none Option.none
    else if inNet ∧ (chars "\x7d").isPrefixOf stripped then
      if curSsid = some ssid ∧ (curPsk.getD []) ≠ [] then curPsk
      else supplicantScan ssid rest false Option.none Option.none
    else if !inNet then supplicantScan ssid rest inNet curSsid curPsk
    else
      match ssidLineVal stripped with
      | some v => supplicantScan ssid rest inNet (some v) curPsk
      | Option.none =>
        match pskLineVal stripped with
        | some v => supplicantScan ssid rest inNet curSsid (some v)
        | Option.none => supplicantScan ssid rest inNet curSsid curPsk

/-- `_get_active_psk(connection_name, ssid)`. -/
def getActivePsk (env : WifiEnv) (connName : Option Line) (ssid : Option Line) :
    Option Line :=
  let viaNmcli : Option Line :=
    match connName with
    | some name =>
      if env.nmcli then
        match env.pskQuery name with
        | (true, out) =>
          let psk := trimChars out
          if psk = [] then Option.none else some psk
        | (false, _) => Option.none
      else Option.none
    | Option.none => Option.none
  match viaNmcli with
  | some psk => some psk
  | Option.none =>
    match ssid with
    | Option.none => Option.none
    | some sv =>
      match env.supplicant with
      | Option.none => Option.none
      | some content =>
        supplicantScan sv (splitAfterNl content) false Option.none Option.none

/-- The first loop of `_get_wifi_status` (`IN-USE,SSID,SIGNAL`). -/
def statusScan1 : List Line → Option Line
  | [] => Option.none
  | l :: rest =>
    if trimChars l = [] then statusScan1 rest
    else
      match split2 l with
      | Option.none => statusScan1 rest
      | some (inUse, ssid, signal) =>
        if inUse ≠ chars "*" then statusScan1 rest
        else
          let readable := trimChars ssid
          let sig := trimChars signal
          if isdigitPy sig then
            if readable ≠ [] then
              some (chars "Connected to " ++ readable ++ chars " (signal " ++ sig ++ chars "%)")
            else some (chars "Connected (signal " ++ sig ++ chars "%)")
          else if readable ≠ [] then some (chars "Connected to " ++ readable)
          else some (chars "Connected")

/-- The second loop of `_get_wifi_status` (`DEVICE,STATE,TYPE`). -/
def statusScan2 : List Line → Option Line
  | [] => Option.none
  | l :: rest =>
    if trimChars l = [] then statusScan2 rest
    else
      match split2 l with
      | Option.none => statusScan2 rest
      | some (_, state, dtype) =>
        if dtype = chars "wifi" then
          if state = chars "connected" then some (chars "Connected")
          else if state = chars "disconnected" then some (chars "Disconnected")
          else some (titlePy (state.map (fun c => if c = '-' then ' ' else c)))
        else statusScan2 rest

/-- `_get_wifi_status()`: always a string (`"Unknown"` when nothing applies). -/
def getWifiStatus (env : WifiEnv) : Line :=
  if !env.nmcli then chars "Unknown"
  else
    let try1 : Option Line :=
      match env.devWifiSignal with
      | (true, out) => statusScan1 (splitlinesPy out)
      | (false, _) => Option.none
    match try1 with
    | some r => r
    | Option.none =>
      let try2 : Option Line :=
        match env.devStatus with
        | (true, out) => statusScan2 (splitlinesPy out)
        | (false, _) => Option.none
      match try2 with
      | some r => r
      | Option.none => chars "Unknown"

/-- `_load_wifi_details()`: the `wifi` sub-dict of the read snapshot, with
fields added only when truthy, in source order. -/
def loadWifiDetails (env : WifiEnv) : List (Line × Line) :=
  let (connName, _) := getActiveWifiConnection env
  let ssid := getActiveSsid env
  let psk := getActivePsk env connName ssid
  let status := getWifiStatus env
  (match ssid with
   | some s => if s ≠ [] then [(ssidK, s)] else []
   | Option.none => []) ++
  (match psk with
   | some p => if p ≠ [] then [(pskK, p)] else []
   | Option.none => []) ++
  (if status ≠ [] then [(chars "status", status)] else [])

/-! ## The read path `_load_config_values`. -/

/-- A value of the read snapshot: `int()`, `float()` or the raw string. -/
inductive CfgVal where
  | int (n : ℤ)
  | float (q : ℚ)
  | str (s : Line)
deriving DecidableEq

/-- Decimal digit accumulation. -/
def digitsVal : List Char → Option Nat
  | [] => Option.none
  | ds =>
    if ds.all Char.isDigit then
      some (ds.foldl (fun acc c => 10 * acc + (c.toNat - 48)) 0)
    else Option.none

/-- CPython `int(s)` on an ASCII decimal literal (underscore separators and
non-ASCII digits are not modelled); `none` models the `ValueError`. -/
def pyIntParse? (s : Line) : Option ℤ :=
  let t := trimChars s
  match t with
  | '-' :: ds => (digitsVal ds).map (fun n => -(n : ℤ))
  | '+' :: ds => (digitsVal ds).map (fun n => (n : ℤ))
  | ds => (digitsVal ds).map (fun n => (n : ℤ))

/-- Split at the first occurrence of a character. -/
def splitAtChar (c : Char) (l : Line) : Line × Option Line :=
  match l.dropWhile (fun x => x ≠ c) with
  | [] => (l.takeWhile (fun x => x ≠ c), Option.none)
  | _ :: r => (l.takeWhile (fun x => x ≠ c), some r)

/-- Mantissa `digits[.digits]` with at least one digit overall. -/
def mantissaVal : Line → Option ℚ
  | m =>
    let (ip, fpOpt) := splitAtChar '.' m
    match fpOpt with
    | Option.none =>
      (digitsVal ip).map (fun n => (n : ℚ))
    | some fp =>
      if ip = [] ∧ fp = [] then Option.none
      else if !(ip.all Char.isDigit) ∨ !(fp.all Char.isDigit) then Option.none
      else
        let ipv : ℚ := ((ip.foldl (fun acc c => 10 * acc + (c.toNat - 48)) 0 : Nat) : ℚ)
        let fpv : ℚ := ((fp.foldl (fun acc c => 10 * acc + (c.toNat - 48)) 0 : Nat) : ℚ)
        some (ipv + fpv / (10 : ℚ) ^ fp.length)

/-- CPython `float(s)` on an ASCII decimal literal with optional exponent
(`inf`/`nan` and underscores are not modelled); `none` models the
`ValueError`. -/
def pyFloatParse? (s : Line) : Option ℚ :=
  let t := trimChars s
  let (sign, t2) : ℚ × Line :=
    match t with
    | '-' :: r => (-1, r)
    | '+' :: r => (1, r)
    | r => (1, r)
  let (mant, expOpt) := splitAtChar 'e' (lowerChars t2)
  let expVal : Option ℤ :=
    match expOpt with
    | Option.none => some 0
    | some ex =>
      match ex with
      | '-' :: ds => (digitsVal ds).map (fun n => -(n : ℤ))
      | '+' :: ds => (digitsVal ds).map (fun n => (n : ℤ))
      | ds => (digitsVal ds).map (fun n => (n : ℤ))
  match mantissaVal mant, expVal with
  | some mv, some ev => some (sign * mv * (10 : ℚ) ^ ev)
  | _, _ => Option.none

/-- The read snapshot: top-level keys are present exactly when their
sub-dict is nonempty (`if base: result["base"] = base`). -/
structure Snapshot where
  base : List (Line × CfgVal)
  epd : List (Line × CfgVal)
  wifi : List (Line × Line)
deriving DecidableEq

/-- The `base` sub-dict of `_load_config_values`, in source order. -/
def loadBaseDict (L : List Line) : List (Line × CfgVal) :=
  (match getValue L baseS refreshK with
   | Option.none => []
   | some r =>
     [(refreshK, match pyIntParse? r with
       | some n => CfgVal.int n
       | Option.none => CfgVal.str r)]) ++
  (match getValue L baseS dataRangeK with
   | Option.none => []
   | some r =>
     [(dataRangeK, match pyFloatParse? r with
       | some q => CfgVal.float q
       | Option.none => CfgVal.str r)]) ++
  (match getValue L baseS baseUrlK with
   | Option.none => []
   | some r => [(baseUrlK, CfgVal.str r)]) ++
  (match getValue L baseS tickerK with
   | Option.none => []
   | some r => [(tickerK, CfgVal.str r)])

/-- The `epd2in13v3` sub-dict of `_load_config_values`. -/
def loadEpdDict (L : List Line) : List (Line × CfgVal) :=
  match getValue L epdS modeK with
  | Option.none => []
  | some r => [(modeK, CfgVal.str r)]

/-- `_load_config_values(path)`: a missing file is read as no lines. -/
def loadConfigValues (content : Option (List Char)) (env : WifiEnv) : Snapshot :=
  let L := match content with
    | Option.none => []
    | some cs => splitAfterNl cs
  { base := loadBaseDict L, epd := loadEpdDict L, wifi := loadWifiDetails env }

/-- Assoc-list lookup in a snapshot sub-dict. -/
def cfgLookup : List (Line × CfgVal) → Line → Option CfgVal
  | [], _ => Option.none
  | (k, v) :: rest, s => if k = s then some v else cfgLookup rest s

/-! ## Supporting concrete instances for the claims. -/

/-- The environment in which no external network tool is installed and the
credential file is absent. -/
def wifiEnvNone : WifiEnv :=
  { nmcli := false, iwgetid := false, connShow := (false, []), devWifi := (false, []),
    iwgetidOut := (false, []), pskQuery := fun _ => (false, []),
    supplicant := Option.none, devWifiSignal := (false, []), devStatus := (false, []) }

/-- The update set `{"base": {"refresh_interval_minutes": 10}}`. -/
def updRefresh10 : UpdateSet :=
  ⟨some ⟨some (UVal.int 10), Option.none, Option.none, Option.none⟩, Option.none⟩

/-- The update set `{"base": {"refresh_interval_minutes": True}}` as the
validator produces it from the boolean payload. -/
def updRefreshTrue : UpdateSet :=
  ⟨some ⟨some (UVal.bool true), Option.none, Option.none, Option.none⟩, Option.none⟩

/-- An update set whose only entry is `base.ticker`. -/
def updTicker (v : Line) : UpdateSet :=
  ⟨some ⟨Option.none, Option.none, Option.none, some (UVal.str v)⟩, Option.none⟩

/-- An update set whose only entry is `epd2in13v3.mode`. -/
def updMode (v : Line) : UpdateSet :=
  ⟨Option.none, some ⟨some (UVal.str v)⟩⟩

/-- The duplicate-header file of the C10 witness. -/
def dupFile : List Line := splitAfterNl (chars "[a]\nx = 1\n[a]\ny = 2\n")

/-! ## Claim C5. -/

/-- Did validation succeed? -/
def vOk {α : Type} (r : Except Line α) : Bool :=
  match r with
  | .ok _ => true
  | .error _ => false

def provEnvTrivial : ProvEnv Unit :=
  ⟨fun _ _ u => (true, [], u), fun u => (true, [], u)⟩

def stC6 : SysState Unit := ⟨some (chars "[base]\nticker : A\n"), ()⟩

/-! ## The fallback credential-file rewrite of `_provision_wifi`.

`re.sub(rf"network=\{{[^\}}]*{ssid_pattern}[^\}}]*\}}\s*", "", existing)`:
the engine scans positions left to right; at a position the pattern matches
iff the text starts with `network={`, a `}` occurs later, and the escaped
literal `ssid="<ssid>"` occurs inside the brace-free span after `network={`
(both `[^}]*` pieces cannot cross a `}`, so `\}` always consumes the first
`}` after the opening); the greedy `\s*` then extends the span over the
following whitespace.  Matches are removed, non-overlapping, and scanning
resumes after each removed span. -/

def netPrefix : Line := chars "network=\x7b"

/-- The literal `ssid="<ssid>"` (`re.escape` makes it literal). -/
def ssidLit (ssid : Line) : Line := chars "ssid=" ++ '"' :: (ssid ++ ['"'])

/-- Does `X` occur as a contiguous substring? -/
def containsSub (X : Line) : List Char → Bool
  | [] => X.isEmpty
  | c :: rest => X.isPrefixOf (c :: rest) || containsSub X rest

/-- Length of the match of the block pattern at the start of `cs`, if any. -/
def blockMatchLen (X : Line) (cs : List Char) : Option Nat :=
  if netPrefix.isPrefixOf cs then
    let rest := cs.drop 9
    let chunk := rest.takeWhile (fun c => c ≠ '}')
    match rest.dropWhile (fun c => c ≠ '}') with
    | [] => Option.none
    | _ :: tail =>
      if containsSub X chunk then
        some (9 + chunk.length + 1 + (tail.takeWhile isPySpace).length)
      else Option.none
  else Option.none

/-- The `re.sub(..., "", ...)` scan; `fuel` bounds the number of steps (one
step always consumes at least one character, so `content.length` suffices). -/
def subScan (X : Line) : Nat → List Char → List Char
  | 0, cs => cs
  | fuel + 1, cs =>
    match cs with
    | [] => []
    | c :: rest =>
      match blockMatchLen X cs with
      | some len => subScan X fuel (cs.drop len)
      | Option.none => c :: subScan X fuel rest

/-- The same scan, counting matches instead of removing them. -/
def countScan (X : Line) : Nat → List Char → Nat
  | 0, _ => 0
  | fuel + 1, cs =>
    match cs with
    | [] => 0
    | _ :: rest =>
      match blockMatchLen X cs with
      | some len => 1 + countScan X fuel (cs.drop len)
      | Option.none => countScan X fuel rest

/-- The `re.sub` call of `_provision_wifi`'s fallback path. -/
def removeSsidBlocks (content : List Char) (ssid : Line) : List Char :=
  subScan (ssidLit ssid) content.length content

/-- How many positions of `content` start a block-pattern match for `ssid`
(non-overlapping, leftmost-first): the number of `network={...}` blocks
carrying that SSID. -/
def countBlocks (content : List Char) (ssid : Line) : Nat :=
  countScan (ssidLit ssid) content.length content

/-- The full content transformation of the fallback path: remove matching
blocks, ensure a trailing newline, append a blank line and the derived
block. -/
def fallbackApply (existing : List Char) (ssid : Line) (netBlock : List Char) :
    List Char :=
  let e1 := removeSsidBlocks existing ssid
  let e2 := if e1 ≠ [] ∧ ¬(endsNl e1 = true) then e1 ++ ['\n'] else e1
  e2 ++ '\n' :: (netBlock ++ ['\n'])

/-! ## Lemmas about line endings and `rstripNl`. -/

/-- Every line ends with a newline character. -/
def AllEndNl (L : List Line) : Prop := ∀ l ∈ L, endsNl l = true

/-! ## Keys, sections and value strings as the write path assumes them. -/

/-- A key as the config schema uses them: nonempty, starting with a
non-space non-bracket character, made of value characters. -/
def goodKey (k : Line) : Bool :=
  match k with
  | [] => false
  | c :: _ => !isPySpace c && !(c = '[') && k.all isValChar

/-- A section name whose generated header line parses back to the name. -/
def goodSection (s : Line) : Bool :=
  (headerName? ('[' :: (s ++ [']', '\n'])) == some s) && s.all isValChar

/-- A rendered value string that survives a key-line re-match intact:
nonempty, no leading whitespace, no comment or newline characters. -/
def cleanVal (v : Line) : Bool :=
  match v with
  | [] => false
  | c :: _ => !isPySpace c && v.all isValChar

/-- The first matching key line of a section together with its match groups
(the index projected away, so the value is stable under line shifts). -/
def keyLineG (L : List Line) (s k : Line) : Option (Line × (Line × Line × Line)) :=
  match findKey L s k with
  | Option.none => Option.none
  | some (idx, g) => some ((L[idx]?).getD [], g)

/-- Every line is newline-terminated with no interior newline, as
`readlines` produces from a newline-terminated file. -/
def WfLines (L : List Line) : Prop := ∀ l ∈ L, WfNlLine l

/-! ## Write-normalisation: after `_set_key`, the key's first match is the
written line, and rewriting it with the same value is the identity. -/

/-- The first `(section, key)` match of `M` is a line of the exact shape the
write path produces for value `v`. -/
def WriteNorm (M : List Line) (s k v : Line) : Prop :=
  ∃ idx g1 g2 g3, findKey M s k = some (idx, (g1, g2, g3)) ∧
    M[idx]? = some (g1 ++ v ++ g3 ++ ['\n'])

/-! ## The write path as a fold over `(section, key, value)` actions. -/

/-- Sequential application of `_set_key` actions. -/
def applyActs (L : List Line) : List (Line × Line × Line) → List Line
  | [] => L
  | a :: rest => applyActs (setKey L a.1 a.2.1 a.2.2) rest

/-- The action of one optional update entry. -/
def optAct (s k : Line) : Option UVal → List (Line × Line × Line)
  | Option.none => []
  | some x => [(s, k, pyStr x)]

/-- The actions of the `base` section, in `_write_config` order. -/
def baseActions : Option BaseUpdates → List (Line × Line × Line)
  | Option.none => []
  | some bu =>
    optAct baseS refreshK bu.refresh ++ optAct baseS dataRangeK bu.dataRange ++
      optAct baseS baseUrlK bu.baseUrl ++ optAct baseS tickerK bu.ticker

/-- The actions of the `epd2in13v3` section. -/
def epdActions : Option EpdUpdates → List (Line × Line × Line)
  | Option.none => []
  | some eu => optAct epdS modeK eu.mode

/-- All `_set_key` calls performed by `_write_config`, in order. -/
def updActions (u : UpdateSet) : List (Line × Line × Line) :=
  baseActions u.base ++ epdActions u.epd

/-- Every value the update set renders is a clean value string. -/
def cleanUpdates (u : UpdateSet) : Bool :=
  (updActions u).all (fun a => cleanVal a.2.2)

/-- The five whitelisted (section, key) pairs. -/
def fivePairs : List (Line × Line) :=
  [(baseS, refreshK), (baseS, dataRangeK), (baseS, baseUrlK), (baseS, tickerK),
    (epdS, modeK)]

theorem alookup_srAux (s : Line) :
    ∀ (hl : List (Option Line)) (n : Nat) (cur : Option (Line × Nat))
      (d : List (Line × Nat × Nat)),
    alookup (srAux hl n cur d) s =
      match lastHdrIdx hl s with
      | some j => some (n + j, n + j + 1 + firstHdrIdx (hl.drop (j + 1)))
      | none =>
        match cur with
        | some (cn, st) => if cn = s then some (st, n + firstHdrIdx hl) else alookup d s
        | none => alookup d s := by
  intro hl
  induction hl with
  | nil =>
    intro n cur d
    cases cur with
    | none => simp [srAux, lastHdrIdx]
    | some p =>
      obtain ⟨cn, st⟩ := p
      by_cases h : cn = s <;> simp [srAux, lastHdrIdx, alookup, firstHdrIdx, h]
  | cons o rest ih =>
    intro n cur d
    cases o with
    | some name =>
      show alookup (srAux rest (n + 1) (some (name, n)) _) s = _
      rw [ih]
      cases hrec : lastHdrIdx rest s with
      | some j =>
        simp only [lastHdrIdx, hrec]
        have h1 : n + 1 + j = n + (j + 1) := by omega
        have h2 : n + 1 + j + 1 = n + (j + 1) + 1 := by omega
        simp [h1, h2, List.drop_succ_cons]
      | none =>
        by_cases hn : name = s
        · subst hn
          simp only [lastHdrIdx, hrec]
          simp [firstHdrIdx, Option.isSome]
        · have hns : (some name = some s) = False := by simp [hn]
          simp only [lastHdrIdx, hrec, hns, if_false]
          cases cur with
          | none => simp [hn]
          | some p =>
            obtain ⟨cn, st⟩ := p
            by_cases hc : cn = s <;>
              simp [hn, hc, alookup, firstHdrIdx, Option.isSome]
    | none =>
      show alookup (srAux rest (n + 1) cur _) s = _
      rw [ih]
      cases hrec : lastHdrIdx rest s with
      | some j =>
        simp only [lastHdrIdx, hrec]
        have h1 : n + 1 + j = n + (j + 1) := by omega
        have h2 : n + 1 + j + 1 = n + (j + 1) + 1 := by omega
        simp [h1, h2, List.drop_succ_cons]
      | none =>
        have hns : ((none : Option Line) = some s) = False := by simp
        simp only [lastHdrIdx, hrec, hns, if_false]
        cases cur with
        | none => rfl
        | some p =>
          obtain ⟨cn, st⟩ := p
          by_cases hc : cn = s
          · simp only [hc, if_true]
            simp [firstHdrIdx, Option.isSome]
            omega
          · simp [hc, firstHdrIdx, Option.isSome]

/-- `lookupRange` computes the elementary interval of the last header named `s`. -/
theorem lookupRange_eq (L : List Line) (s : Line) :
    lookupRange L s =
      match lastHdrIdx (L.map headerName?) s with
      | some j => some (j, j + 1 + firstHdrIdx ((L.map headerName?).drop (j + 1)))
      | none => none := by
  unfold lookupRange sectionRanges
  rw [alookup_srAux]
  cases lastHdrIdx (L.map headerName?) s with
  | some j => simp
  | none => simp [alookup]

/-! ### Scanning lemmas for `lastHdrIdx` and `firstHdrIdx`. -/

theorem lastHdrIdx_append (A B : List (Option Line)) (s : Line) :
    lastHdrIdx (A ++ B) s =
      match lastHdrIdx B s with
      | some j => some (A.length + j)
      | none => lastHdrIdx A s := by
  induction A with
  | nil => cases h : lastHdrIdx B s <;> simp [lastHdrIdx, h]
  | cons o A ih =>
    show lastHdrIdx (o :: (A ++ B)) s = _
    rw [lastHdrIdx, ih]
    cases hB : lastHdrIdx B s with
    | some j => simp [lastHdrIdx, Nat.add_right_comm]
    | none => cases hA : lastHdrIdx A s <;> simp [lastHdrIdx, hA]

theorem lastHdrIdx_lt_length {hl : List (Option Line)} {s : Line} {j : Nat}
    (h : lastHdrIdx hl s = some j) : j < hl.length := by
  induction hl generalizing j with
  | nil => simp [lastHdrIdx] at h
  | cons o rest ih =>
    rw [lastHdrIdx] at h
    cases hr : lastHdrIdx rest s with
    | some j0 =>
      rw [hr] at h
      cases h
      have := ih hr
      simp only [List.length_cons]
      omega
    | none =>
      rw [hr] at h
      by_cases ho : o = some s
      · simp [ho] at h
        simp only [List.length_cons]
        omega
      · simp [ho] at h

theorem lastHdrIdx_getElem {hl : List (Option Line)} {s : Line} {j : Nat}
    (h : lastHdrIdx hl s = some j) : hl[j]? = some (some s) := by
  induction hl generalizing j with
  | nil => simp [lastHdrIdx] at h
  | cons o rest ih =>
    rw [lastHdrIdx] at h
    cases hr : lastHdrIdx rest s with
    | some j0 =>
      rw [hr] at h
      cases h
      simpa using ih hr
    | none =>
      rw [hr] at h
      by_cases ho : o = some s
      · simp [ho] at h
        subst h
        simp [ho]
      · simp [ho] at h

theorem lastHdrIdx_none_aux {hl : List (Option Line)} {s : Line}
    (h : lastHdrIdx hl s = none) : ∀ i, (hi : i < hl.length) → hl[i] ≠ some s := by
  induction hl with
  | nil => simp
  | cons o rest ih =>
    rw [lastHdrIdx] at h
    cases hr : lastHdrIdx rest s with
    | some j0 => simp [hr] at h
    | none =>
      rw [hr] at h
      by_cases ho : o = some s
      · simp [ho] at h
      · intro i hi
        cases i with
        | zero => simpa using ho
        | succ i0 => exact ih hr i0 (by simpa using hi)

theorem lastHdrIdx_is_last {hl : List (Option Line)} {s : Line} {j : Nat}
    (h : lastHdrIdx hl s = some j) : ∀ o ∈ hl.drop (j + 1), o ≠ some s := by
  induction hl generalizing j with
  | nil => simp
  | cons o rest ih =>
    rw [lastHdrIdx] at h
    cases hr : lastHdrIdx rest s with
    | some j0 =>
      rw [hr] at h
      cases h
      intro x hx
      exact ih hr x (by simpa using hx)
    | none =>
      rw [hr] at h
      by_cases ho : o = some s
      · simp [ho] at h
        subst h
        intro x hx hxs
        subst hxs
        have hmem : some s ∈ rest := by
          have : (o :: rest).drop (0 + 1) = rest := by simp
          rw [this] at hx
          exact hx
        obtain ⟨i, hi, hget⟩ := List.getElem_of_mem hmem
        exact lastHdrIdx_none_aux hr i hi hget
      · simp [ho] at h

theorem lastHdrIdx_of_getElem {hl : List (Option Line)} {s : Line} {i : Nat}
    (hi : i < hl.length) (h : hl[i] = some s) :
    ∃ j, lastHdrIdx hl s = some j ∧ i ≤ j := by
  induction hl generalizing i with
  | nil => simp at hi
  | cons o rest ih =>
    cases i with
    | zero =>
      simp at h
      rw [lastHdrIdx]
      cases hr : lastHdrIdx rest s with
      | some j0 => exact ⟨j0 + 1, rfl, by omega⟩
      | none => exact ⟨0, by simp [h], le_refl 0⟩
    | succ i0 =>
      obtain ⟨j0, hj0, hle⟩ := ih (by simpa using hi) (by simpa using h)
      rw [lastHdrIdx, hj0]
      exact ⟨j0 + 1, rfl, by omega⟩

theorem firstHdrIdx_le_length (hl : List (Option Line)) : firstHdrIdx hl ≤ hl.length := by
  induction hl with
  | nil => simp [firstHdrIdx]
  | cons o rest ih =>
    rw [firstHdrIdx]
    by_cases ho : o.isSome
    · simp [ho]
    · simp only [ho, Bool.false_eq_true, if_false, List.length_cons]
      omega

theorem firstHdrIdx_take_none (hl : List (Option Line)) :
    ∀ o ∈ hl.take (firstHdrIdx hl), o = none := by
  induction hl with
  | nil => simp
  | cons o rest ih =>
    rw [firstHdrIdx]
    by_cases ho : o.isSome
    · simp [ho]
    · intro x hx
      rw [if_neg ho] at hx
      simp at hx
      rcases hx with hx | hx
      · subst hx
        simpa using ho
      · exact ih x hx

theorem firstHdrIdx_append_none (A B : List (Option Line)) (hA : ∀ o ∈ A, o = none) :
    firstHdrIdx (A ++ B) = A.length + firstHdrIdx B := by
  induction A with
  | nil => simp
  | cons o A ih =>
    have ho : o = none := hA o (by simp)
    subst ho
    show firstHdrIdx (none :: (A ++ B)) = _
    rw [firstHdrIdx]
    simp only [Option.isSome_none, Bool.false_eq_true, if_false]
    rw [ih (fun x hx => hA x (by simp [hx]))]
    simp
    omega

theorem firstHdrIdx_append_some (A B : List (Option Line))
    (hA : firstHdrIdx A < A.length) : firstHdrIdx (A ++ B) = firstHdrIdx A := by
  induction A with
  | nil => simp [firstHdrIdx] at hA
  | cons o A ih =>
    show firstHdrIdx (o :: (A ++ B)) = firstHdrIdx (o :: A)
    rw [firstHdrIdx, firstHdrIdx]
    by_cases ho : o.isSome
    · simp [ho]
    · rw [firstHdrIdx] at hA
      rw [if_neg ho] at hA ⊢
      rw [if_neg ho]
      rw [ih (by simp at hA; omega)]

theorem firstHdrIdx_all_none (hl : List (Option Line)) (h : ∀ o ∈ hl, o = none) :
    firstHdrIdx hl = hl.length := by
  have := firstHdrIdx_append_none hl [] h
  simpa using this

/-! ### Facts about a recorded section range. -/

theorem mem_of_getElem? {α : Type} {l : List α} {n : Nat} {a : α} (h : l[n]? = some a) :
    a ∈ l := by
  obtain ⟨hlt, he⟩ := List.getElem?_eq_some_iff.mp h
  exact he ▸ List.getElem_mem hlt

theorem lookupRange_shape {L : List Line} {s : Line} {a b : Nat}
    (h : lookupRange L s = some (a, b)) :
    lastHdrIdx (L.map headerName?) s = some a ∧
      b = a + 1 + firstHdrIdx ((L.map headerName?).drop (a + 1)) := by
  rw [lookupRange_eq] at h
  cases hj : lastHdrIdx (L.map headerName?) s with
  | none => rw [hj] at h; simp at h
  | some j =>
    rw [hj] at h
    simp at h
    obtain ⟨h1, h2⟩ := h
    subst h1
    exact ⟨rfl, h2.symm⟩

theorem lookupRange_start_lt {L : List Line} {s : Line} {a b : Nat}
    (h : lookupRange L s = some (a, b)) : a < b ∧ b ≤ L.length := by
  obtain ⟨hj, hb⟩ := lookupRange_shape h
  have hlt := lastHdrIdx_lt_length hj
  have hfl := firstHdrIdx_le_length ((L.map headerName?).drop (a + 1))
  rw [List.length_drop] at hfl
  rw [List.length_map] at hlt hfl
  omega

theorem lookupRange_header {L : List Line} {s : Line} {a b : Nat}
    (h : lookupRange L s = some (a, b)) :
    ∃ la, L[a]? = some la ∧ headerName? la = some s := by
  obtain ⟨hj, _⟩ := lookupRange_shape h
  have hget := lastHdrIdx_getElem hj
  rw [List.getElem?_map] at hget
  cases hla : L[a]? with
  | none => rw [hla] at hget; simp at hget
  | some la =>
    rw [hla] at hget
    simp at hget
    exact ⟨la, rfl, hget⟩

theorem lookupRange_interior {L : List Line} {s : Line} {a b : Nat}
    (h : lookupRange L s = some (a, b)) :
    ∀ t lt, a < t → t < b → L[t]? = some lt → headerName? lt = none := by
  obtain ⟨hj, hb⟩ := lookupRange_shape h
  intro t lt hat htb hget
  set hl := L.map headerName? with hhl
  set f := firstHdrIdx (hl.drop (a + 1)) with hf
  have hkf : t - (a + 1) < f := by omega
  have hdrop : (hl.drop (a + 1))[t - (a + 1)]? = hl[t]? := by
    rw [List.getElem?_drop]
    congr 1
    omega
  have hhlt : hl[t]? = some (headerName? lt) := by
    rw [hhl, List.getElem?_map, hget]
    rfl
  have htake : (((hl.drop (a + 1)).take f))[t - (a + 1)]? = some (headerName? lt) := by
    rw [List.getElem?_take]
    simp only [hkf, if_true]
    rw [hdrop, hhlt]
  exact firstHdrIdx_take_none (hl.drop (a + 1)) _ (mem_of_getElem? htake)

theorem lookupRange_is_last {L : List Line} {s : Line} {a b : Nat}
    (h : lookupRange L s = some (a, b)) :
    ∀ t lt, a < t → L[t]? = some lt → headerName? lt ≠ some s := by
  obtain ⟨hj, _⟩ := lookupRange_shape h
  intro t lt hat hget hso
  set hl := L.map headerName? with hhl
  have hhlt : hl[t]? = some (headerName? lt) := by
    rw [hhl, List.getElem?_map, hget]
    rfl
  have hdrop : (hl.drop (a + 1))[t - (a + 1)]? = hl[t]? := by
    rw [List.getElem?_drop]
    congr 1
    omega
  have hmem : headerName? lt ∈ hl.drop (a + 1) := by
    apply mem_of_getElem?
    rw [hdrop, hhlt]
  exact lastHdrIdx_is_last hj _ hmem hso

theorem lookupRange_none_no_header {L : List Line} {s : Line}
    (h : lookupRange L s = none) : ∀ l ∈ L, headerName? l ≠ some s := by
  rw [lookupRange_eq] at h
  cases hj : lastHdrIdx (L.map headerName?) s with
  | some j => rw [hj] at h; simp at h
  | none =>
    intro l hl hso
    obtain ⟨i, hi, hget⟩ := List.getElem_of_mem hl
    have hlen : i < (L.map headerName?).length := by simpa using hi
    apply lastHdrIdx_none_aux hj i hlen
    simp [hget, hso]

theorem lookupRange_of_header {L : List Line} {s : Line} {i : Nat} {li : Line}
    (hget : L[i]? = some li) (hh : headerName? li = some s) :
    ∃ a b, lookupRange L s = some (a, b) ∧ i ≤ a := by
  obtain ⟨hi, he⟩ := List.getElem?_eq_some_iff.mp hget
  have hlen : i < (L.map headerName?).length := by simpa using hi
  have hmapget : (L.map headerName?)[i] = some s := by
    rw [List.getElem_map]
    rw [he, hh]
  obtain ⟨j, hj, hij⟩ := lastHdrIdx_of_getElem hlen hmapget
  refine ⟨j, j + 1 + firstHdrIdx ((L.map headerName?).drop (j + 1)), ?_, hij⟩
  rw [lookupRange_eq, hj]

theorem lookupRange_disjoint {L : List Line} {s s' : Line} {a b a' b' : Nat}
    (h : lookupRange L s = some (a, b)) (h' : lookupRange L s' = some (a', b'))
    (hne : s ≠ s') : b ≤ a' ∨ b' ≤ a := by
  obtain ⟨la, hla, hha⟩ := lookupRange_header h
  obtain ⟨la', hla', hha'⟩ := lookupRange_header h'
  have hne2 : a ≠ a' := by
    intro he
    rw [he, hla'] at hla
    cases hla
    rw [hha'] at hha
    exact hne (Option.some.inj hha).symm
  rcases Nat.lt_or_ge a a' with hlt | hge
  · left
    by_contra hcon
    push_neg at hcon
    have hint := lookupRange_interior h a' la' hlt hcon hla'
    rw [hint] at hha'
    cases hha'
  · right
    have hlt' : a' < a := by omega
    by_contra hcon
    push_neg at hcon
    have hint := lookupRange_interior h' a la hlt' hcon hla
    rw [hint] at hha
    cases hha

/-! ## Structure lemmas about `scanKey`, `insertPos` and list surgery. -/

theorem scanKey_some {L : List Line} {k : Line} {i cnt t : Nat} {g : Line × Line × Line}
    (h : scanKey L k i cnt = some (t, g)) :
    i ≤ t ∧ t < i + cnt ∧
      (∃ lt, L[t]? = some lt ∧ keyMatch k (rstripNl lt) = some g) ∧
      (∀ u lu, i ≤ u → u < t → L[u]? = some lu → keyMatch k (rstripNl lu) = Option.none) := by
  induction cnt generalizing i with
  | zero => simp [scanKey] at h
  | succ cnt ih =>
    rw [scanKey] at h
    cases hL : L[i]? with
    | none => rw [hL] at h; simp at h
    | some l =>
      rw [hL] at h
      dsimp only at h
      cases hm : keyMatch k (rstripNl l) with
      | some g0 =>
        rw [hm] at h
        dsimp only at h
        simp at h
        obtain ⟨h1, h2⟩ := h
        subst h1
        subst h2
        exact ⟨le_refl i, by omega, ⟨l, hL, hm⟩, fun u lu hu1 hu2 _ => by omega⟩
      | none =>
        rw [hm] at h
        dsimp only at h
        obtain ⟨ht1, ht2, hmt, hbefore⟩ := ih h
        refine ⟨by omega, by omega, hmt, ?_⟩
        intro u lu hu1 hu2 hgu
        rcases Nat.eq_or_lt_of_le hu1 with he | hlt
        · subst he
          rw [hgu] at hL
          cases hL
          exact hm
        · exact hbefore u lu hlt hu2 hgu

theorem scanKey_none {L : List Line} {k : Line} {i cnt : Nat}
    (h : scanKey L k i cnt = Option.none) :
    ∀ u lu, i ≤ u → u < i + cnt → L[u]? = some lu →
      keyMatch k (rstripNl lu) = Option.none := by
  induction cnt generalizing i with
  | zero => intro u lu h1 h2; omega
  | succ cnt ih =>
    rw [scanKey] at h
    cases hL : L[i]? with
    | none =>
      intro u lu hu1 _ hgu
      have hil : L.length ≤ i := by
        by_contra hcon
        push_neg at hcon
        rw [List.getElem?_eq_getElem hcon] at hL
        cases hL
      have : u < L.length := (List.getElem?_eq_some_iff.mp hgu).1
      omega
    | some l =>
      rw [hL] at h
      dsimp only at h
      cases hm : keyMatch k (rstripNl l) with
      | some g0 => rw [hm] at h; simp at h
      | none =>
        rw [hm] at h
        dsimp only at h
        intro u lu hu1 hu2 hgu
        rcases Nat.eq_or_lt_of_le hu1 with he | hlt
        · subst he
          rw [hgu] at hL
          cases hL
          exact hm
        · exact ih h u lu hlt (by omega) hgu

theorem scanKey_first {L : List Line} {k : Line} {i cnt t : Nat} {lt : Line}
    {g : Line × Line × Line} (ht1 : i ≤ t) (ht2 : t < i + cnt)
    (hget : L[t]? = some lt) (hm : keyMatch k (rstripNl lt) = some g)
    (hbefore : ∀ u lu, i ≤ u → u < t → L[u]? = some lu →
      keyMatch k (rstripNl lu) = Option.none) :
    scanKey L k i cnt = some (t, g) := by
  induction cnt generalizing i with
  | zero => omega
  | succ cnt ih =>
    rw [scanKey]
    rcases Nat.eq_or_lt_of_le ht1 with he | hlt
    · subst he
      rw [hget]
      dsimp only
      rw [hm]
    · have hil : i < L.length := by
        have : t < L.length := (List.getElem?_eq_some_iff.mp hget).1
        omega
      cases hL : L[i]? with
      | none => rw [List.getElem?_eq_getElem hil] at hL; cases hL
      | some l =>
        dsimp only
        rw [hbefore i l (le_refl i) hlt hL]
        dsimp only
        exact ih (by omega) (by omega) (fun u lu hu1 hu2 hgu => hbefore u lu (by omega) hu2 hgu)

theorem insertPosLoop_ge {L : List Line} {st : Nat} :
    ∀ (fuel idx : Nat), st + fuel ≤ idx → st + 1 ≤ insertPosLoop L st idx fuel := by
  intro fuel
  induction fuel with
  | zero => intro idx _; rw [insertPosLoop]
  | succ fuel ih =>
    intro idx hidx
    rw [insertPosLoop]
    cases hL : L[idx]? with
    | none =>
      dsimp only
      exact ih (idx - 1) (by omega)
    | some l =>
      dsimp only
      by_cases hb : trimChars l ≠ []
      · rw [if_pos hb]
        omega
      · rw [if_neg hb]
        exact ih (idx - 1) (by omega)

theorem insertPosLoop_le {L : List Line} {st : Nat} :
    ∀ (fuel idx : Nat), insertPosLoop L st idx fuel ≤ max (st + 1) (idx + 1) := by
  intro fuel
  induction fuel generalizing st with
  | zero => intro idx; rw [insertPosLoop]; omega
  | succ fuel ih =>
    intro idx
    rw [insertPosLoop]
    cases hL : L[idx]? with
    | none =>
      dsimp only
      have := @ih st (idx - 1)
      omega
    | some l =>
      dsimp only
      by_cases hb : trimChars l ≠ []
      · rw [if_pos hb]
        omega
      · rw [if_neg hb]
        have := @ih st (idx - 1)
        omega

theorem insertPos_ge {L : List Line} {st en : Nat} : st + 1 ≤ insertPos L st en := by
  unfold insertPos
  cases hf : en - 1 - st with
  | zero => rw [insertPosLoop]
  | succ f => exact insertPosLoop_ge _ (en - 1) (by omega)

theorem insertPos_le {L : List Line} {st en : Nat} (h : st + 1 ≤ en) :
    insertPos L st en ≤ en := by
  unfold insertPos
  have := @insertPosLoop_le L st (en - 1 - st) (en - 1)
  omega

/-- `insertIdx` as an explicit decomposition (for `p` within bounds). -/
theorem insertIdx_eq_take_drop (x : Line) :
    ∀ (p : Nat) (L : List Line), p ≤ L.length →
      L.insertIdx p x = L.take p ++ x :: L.drop p := by
  intro p
  induction p with
  | zero => intro L _; simp
  | succ p ih =>
    intro L hp
    cases L with
    | nil => simp at hp
    | cons a L =>
      simp only [List.insertIdx_succ_cons, List.take_succ_cons, List.drop_succ_cons,
        List.cons_append]
      rw [ih L (by simpa using hp)]

theorem take_set_of_le {L : List Line} {t m : Nat} {x : Line} (h : m ≤ t) :
    (L.set t x).take m = L.take m := by
  apply List.ext_getElem?
  intro n
  rw [List.getElem?_take, List.getElem?_take]
  by_cases hn : n < m
  · simp only [hn, if_true]
    rw [List.getElem?_set_ne (by omega)]
  · simp [hn]

theorem take_insertIdx_of_le {L : List Line} {p m : Nat} {x : Line} (h : m ≤ p) :
    (L.insertIdx p x).take m = L.take m := by
  by_cases hp : p ≤ L.length
  · rw [insertIdx_eq_take_drop x p L hp]
    rw [List.take_append_of_le_length (by rw [List.length_take]; omega)]
    rw [List.take_take, Nat.min_eq_left h]
  · rw [List.insertIdx_of_length_lt L x p (by omega)]

theorem ensureSection_of_isSome {L : List Line} {s : Line}
    (h : (lookupRange L s).isSome) : ensureSection L s = L := by
  unfold ensureSection
  simp [h]

theorem findKey_some {L : List Line} {s k : Line} {t : Nat} {g : Line × Line × Line}
    (h : findKey L s k = some (t, g)) :
    ∃ a b, lookupRange L s = some (a, b) ∧ a < t ∧ t < b ∧
      (∃ lt, L[t]? = some lt ∧ keyMatch k (rstripNl lt) = some g) ∧
      (∀ u lu, a < u → u < t → L[u]? = some lu →
        keyMatch k (rstripNl lu) = Option.none) := by
  unfold findKey at h
  cases hr : lookupRange L s with
  | none => rw [hr] at h; cases h
  | some p =>
    obtain ⟨st, en⟩ := p
    rw [hr] at h
    dsimp only at h
    obtain ⟨h1, h2, hmt, hbefore⟩ := scanKey_some h
    exact ⟨st, en, rfl, by omega, by omega, hmt,
      fun u lu hu1 hu2 hgu => hbefore u lu (by omega) hu2 hgu⟩

theorem findKey_none {L : List Line} {s k : Line} {a b : Nat}
    (h : findKey L s k = Option.none) (hr : lookupRange L s = some (a, b)) :
    ∀ u lu, a < u → u < b → L[u]? = some lu →
      keyMatch k (rstripNl lu) = Option.none := by
  unfold findKey at h
  rw [hr] at h
  dsimp only at h
  intro u lu hu1 hu2 hgu
  exact scanKey_none h u lu (by omega) (by omega) hgu

/-! ## Claim C10. -/

/-- C10: if a config file has two header lines `i < j` with the same
section name, the recorded range of that section starts no earlier than
`j` (the last duplicate wins), every key lookup in the section returns an
index strictly inside that range, and `_set_key` leaves every line up to
and including the recorded header — in particular all key lines under the
earlier duplicate header — unchanged. -/
theorem c10_duplicate_sections (L : List Line) (s k v : Line) (i j : Nat) (li lj : Line)
    (hij : i < j) (hgi : L[i]? = some li) (hgj : L[j]? = some lj)
    (hhi : headerName? li = some s) (hhj : headerName? lj = some s) :
    ∃ a b, lookupRange L s = some (a, b) ∧ j ≤ a ∧
      (∀ t g, findKey L s k = some (t, g) → a < t ∧ t < b) ∧
      (setKey L s k v).take (a + 1) = L.take (a + 1) := by
  obtain ⟨a, b, hr, hja⟩ := lookupRange_of_header hgj hhj
  refine ⟨a, b, hr, hja, ?_, ?_⟩
  · intro t g hf
    obtain ⟨a', b', hr', h1, h2, _, _⟩ := findKey_some hf
    rw [hr] at hr'
    have he : (a, b) = (a', b') := Option.some.inj hr'
    have he1 : a = a' := congrArg Prod.fst he
    have he2 : b = b' := congrArg Prod.snd he
    omega
  · unfold setKey
    rw [ensureSection_of_isSome (by rw [hr]; rfl)]
    dsimp only
    cases hf : findKey L s k with
    | some p =>
      obtain ⟨t, g⟩ := p
      obtain ⟨a', b', hr', h1, h2, _, _⟩ := findKey_some hf
      rw [hr] at hr'
      have he : (a, b) = (a', b') := Option.some.inj hr'
      have he1 : a = a' := congrArg Prod.fst he
      obtain ⟨g1, g2, g3⟩ := g
      dsimp only
      exact take_set_of_le (by omega)
    | none =>
      rw [hr]
      dsimp only
      exact take_insertIdx_of_le (le_trans (by omega) insertPos_ge)

/-- Witness for C10 on a concrete duplicate-header file. -/
theorem c10_witness :
    ∃ a b, lookupRange dupFile (chars "a") = some (a, b) ∧ 2 ≤ a ∧
      (∀ t g, findKey dupFile (chars "a") (chars "x") = some (t, g) → a < t ∧ t < b) ∧
      (setKey dupFile (chars "a") (chars "x") (chars "9")).take (a + 1) =
        dupFile.take (a + 1) :=
  c10_duplicate_sections dupFile (chars "a") (chars "x") (chars "9") 0 2
    (chars "[a]\n") (chars "[a]\n") (by omega) (by decide) (by decide) (by decide) (by decide)

/-! ## Claim C1. -/

/-- C1 (amended): reading the two-line file `[base]` / `ticker=ABC` yields a
snapshot whose `base` object is exactly `{"ticker": "ABC"}` and which has no
`epd2in13v3` object, while a `wifi` object carrying whatever fields the
network-state reader resolves is also part of the snapshot (its `status`
field is always attempted and is `"Unknown"` when the primary tool is
absent, so the snapshot is not limited to the `base` object). -/
theorem c1_read_isolation (env : WifiEnv) :
    loadConfigValues (some (chars "[base]\nticker=ABC")) env =
      { base := [(tickerK, CfgVal.str (chars "ABC"))], epd := [],
        wifi := loadWifiDetails env } := by
  rfl

/-- C1 counterexample: in the environment with no network tools at all, the
snapshot of that file contains a `wifi` object (`{"status": "Unknown"}`), so
it is not equal to `{"base": {"ticker": "ABC"}}` alone. -/
theorem c1_counterexample :
    loadConfigValues (some (chars "[base]\nticker=ABC")) wifiEnvNone ≠
      { base := [(tickerK, CfgVal.str (chars "ABC"))], epd := [], wifi := [] } := by
  decide

/-! ## Claim C4. -/

/-- C4 (amended): updating `refresh_interval_minutes : 5  # every 5 min` to
10 rewrites the matched value span, which includes the whitespace between
the value token and the `#` comment (the greedy value group `[^#;\n]*`
captures it), so the result is `refresh_interval_minutes : 10# every 5 min`
— prefix, comment text and newline are preserved, but the spacing before
the comment is not. -/
theorem c4_value_span :
    writeConfigContent
        (some (chars "[base]\nrefresh_interval_minutes : 5  # every 5 min\n"))
        updRefresh10 =
      chars "[base]\nrefresh_interval_minutes : 10# every 5 min\n" := by
  rfl

/-- C4 counterexample: the output claimed by the spec (with the two spaces
before the comment preserved) is not what the write path produces. -/
theorem c4_counterexample :
    writeConfigContent
        (some (chars "[base]\nrefresh_interval_minutes : 5  # every 5 min\n"))
        updRefresh10 ≠
      chars "[base]\nrefresh_interval_minutes : 10  # every 5 min\n" := by
  decide

/-! ## Claim C9. -/

/-- C9: the boolean payload `{"base": {"refresh_interval_minutes": true}}`
passes the `isinstance(int)` check and the 1..1440 range check (True
compares as 1), the produced update set stores the boolean itself, and the
write path renders it into the file as the text `True`. -/
theorem c9_bool_accepted :
    validateUpdates [(baseS, PyVal.dict [(refreshK, PyVal.bool true)])] =
      Except.ok updRefreshTrue ∧
    writeConfigContent Option.none updRefreshTrue =
      chars "[base]\nrefresh_interval_minutes : True\n" := by
  exact ⟨rfl, rfl⟩

/-- C5: `refresh_interval_minutes` is accepted exactly for integers in
[1, 1440]; `data_range_days` is accepted exactly for numeric values (float
or int) in [0.1, 365.0]; the string `"abc"` is rejected. -/
theorem c5_range_validation :
    (∀ n : ℤ, vOk (validateUpdates [(baseS, PyVal.dict [(refreshK, PyVal.int n)])]) = true ↔
      1 ≤ n ∧ n ≤ 1440) ∧
    (∀ q : ℚ, vOk (validateUpdates [(baseS, PyVal.dict [(dataRangeK, PyVal.float q)])]) =
        true ↔ 1 / 10 ≤ q ∧ q ≤ 365) ∧
    (∀ m : ℤ, vOk (validateUpdates [(baseS, PyVal.dict [(dataRangeK, PyVal.int m)])]) =
        true ↔ 1 / 10 ≤ (m : ℚ) ∧ (m : ℚ) ≤ 365) ∧
    vOk (validateUpdates [(baseS, PyVal.dict [(dataRangeK, PyVal.str (chars "abc"))])]) =
      false := by
  refine ⟨?_, ?_, ?_, ?_⟩
  · intro n
    have h1 : dlookup [(baseS, PyVal.dict [(refreshK, PyVal.int n)])] baseS =
        some (PyVal.dict [(refreshK, PyVal.int n)]) := rfl
    have h2 : dlookup [(baseS, PyVal.dict [(refreshK, PyVal.int n)])] epdS = Option.none := rfl
    have h3 : dlookup [(refreshK, PyVal.int n)] refreshK = some (PyVal.int n) := rfl
    have h4 : dlookup [(refreshK, PyVal.int n)] dataRangeK = Option.none := rfl
    have h5 : dlookup [(refreshK, PyVal.int n)] baseUrlK = Option.none := rfl
    have h6 : dlookup [(refreshK, PyVal.int n)] tickerK = Option.none := rfl
    simp only [validateUpdates, validateBaseDict, checkRefresh, checkDataRange,
      checkTrimmedStr, validateEpdDict, h1, h2, h3, h4, h5, h6, isInstInt, intOf,
      Bool.not_true, Bool.false_eq_true, if_false]
    by_cases h : n < 1 ∨ 1440 < n
    · rw [if_pos h]
      constructor
      · intro hc
        exact absurd (show (false : Bool) = true from hc) (by simp)
      · intro hc
        exfalso
        omega
    · rw [if_neg h]
      constructor
      · intro _
        omega
      · intro _
        rfl
  · intro q
    have h1 : dlookup [(baseS, PyVal.dict [(dataRangeK, PyVal.float q)])] baseS =
        some (PyVal.dict [(dataRangeK, PyVal.float q)]) := rfl
    have h2 : dlookup [(baseS, PyVal.dict [(dataRangeK, PyVal.float q)])] epdS =
        Option.none := rfl
    have h3 : dlookup [(dataRangeK, PyVal.float q)] refreshK = Option.none := rfl
    have h4 : dlookup [(dataRangeK, PyVal.float q)] dataRangeK =
        some (PyVal.float q) := rfl
    have h5 : dlookup [(dataRangeK, PyVal.float q)] baseUrlK = Option.none := rfl
    have h6 : dlookup [(dataRangeK, PyVal.float q)] tickerK = Option.none := rfl
    simp only [validateUpdates, validateBaseDict, checkRefresh, checkDataRange,
      checkTrimmedStr, validateEpdDict, h1, h2, h3, h4, h5, h6, isInstNum, floatOf,
      Bool.not_true, Bool.false_eq_true, if_false]
    by_cases h : q < 1 / 10 ∨ 365 < q
    · rw [if_pos h]
      constructor
      · intro hc
        exact absurd (show (false : Bool) = true from hc) (by simp)
      · intro hc
        exfalso
        rcases h with h | h
        · linarith [hc.1]
        · linarith [hc.2]
    · rw [if_neg h]
      constructor
      · intro _
        push_neg at h
        exact ⟨h.1, h.2⟩
      · intro _
        rfl
  · intro m
    have h1 : dlookup [(baseS, PyVal.dict [(dataRangeK, PyVal.int m)])] baseS =
        some (PyVal.dict [(dataRangeK, PyVal.int m)]) := rfl
    have h2 : dlookup [(baseS, PyVal.dict [(dataRangeK, PyVal.int m)])] epdS =
        Option.none := rfl
    have h3 : dlookup [(dataRangeK, PyVal.int m)] refreshK = Option.none := rfl
    have h4 : dlookup [(dataRangeK, PyVal.int m)] dataRangeK = some (PyVal.int m) := rfl
    have h5 : dlookup [(dataRangeK, PyVal.int m)] baseUrlK = Option.none := rfl
    have h6 : dlookup [(dataRangeK, PyVal.int m)] tickerK = Option.none := rfl
    simp only [validateUpdates, validateBaseDict, checkRefresh, checkDataRange,
      checkTrimmedStr, validateEpdDict, h1, h2, h3, h4, h5, h6, isInstNum, floatOf,
      Bool.not_true, Bool.false_eq_true, if_false]
    by_cases h : (m : ℚ) < 1 / 10 ∨ 365 < (m : ℚ)
    · rw [if_pos h]
      constructor
      · intro hc
        exact absurd (show (false : Bool) = true from hc) (by simp)
      · intro hc
        exfalso
        rcases h with h | h
        · linarith [hc.1]
        · linarith [hc.2]
    · rw [if_neg h]
      constructor
      · intro _
        push_neg at h
        exact ⟨h.1, h.2⟩
      · intro _
        rfl
  · rfl

/-! ## Claim C6. -/

/-- C6: when `_validate_updates` raises, `_on_write` notifies exactly
`error: <message>` and performs no mutation at all: the config content and
the network state are returned unchanged (provisioning, config write and
restart are all skipped).  The hypothesis `hw` states that the `wifi` entry
passed the earlier shape check (absent, null, or an object). -/
theorem c6_validation_short_circuit {σ : Type} (env : ProvEnv σ) (st : SysState σ)
    (d : List (Line × PyVal)) (e : Line)
    (hw : wifiShapeBad (dlookup d wifiS) = false)
    (hv : validateUpdates d = Except.error e) :
    onWrite env (PyVal.dict d) st = (chars "error: " ++ e, st) := by
  unfold onWrite
  dsimp only
  rw [hw, hv]
  rfl

/-- Witness for C6 at the payload `{"base": {"refresh_interval_minutes": 0}}`. -/
theorem c6_witness :
    onWrite provEnvTrivial (PyVal.dict [(baseS, PyVal.dict [(refreshK, PyVal.int 0)])])
        stC6 =
      (chars "error: refresh_interval_minutes out of range", stC6) :=
  c6_validation_short_circuit provEnvTrivial stC6
    [(baseS, PyVal.dict [(refreshK, PyVal.int 0)])]
    (chars "refresh_interval_minutes out of range") rfl rfl

/-! ## Claim C7. -/

theorem keyNe1 : refreshK ≠ dataRangeK := by decide
theorem keyNe2 : refreshK ≠ baseUrlK := by decide
theorem keyNe3 : refreshK ≠ tickerK := by decide
theorem keyNe4 : dataRangeK ≠ baseUrlK := by decide
theorem keyNe5 : dataRangeK ≠ tickerK := by decide
theorem keyNe6 : baseUrlK ≠ tickerK := by decide

/-- C7: the read path is total and never defaults: a missing file reads
like an empty one; when `refresh_interval_minutes` (resp. `data_range_days`)
is present, a failed `int()` (resp. `float()`) parse falls back to the raw
string instead of raising; and each whitelisted key that is absent from its
section is simply omitted from the snapshot. -/
theorem c7_read_totality :
    (∀ env, loadConfigValues Option.none env = loadConfigValues (some []) env) ∧
    (∀ L r, getValue L baseS refreshK = some r →
      cfgLookup (loadBaseDict L) refreshK =
        some (match pyIntParse? r with
          | some n => CfgVal.int n
          | Option.none => CfgVal.str r)) ∧
    (∀ L r, getValue L baseS dataRangeK = some r →
      cfgLookup (loadBaseDict L) dataRangeK =
        some (match pyFloatParse? r with
          | some q => CfgVal.float q
          | Option.none => CfgVal.str r)) ∧
    (∀ L, getValue L baseS refreshK = Option.none →
      cfgLookup (loadBaseDict L) refreshK = Option.none) ∧
    (∀ L, getValue L baseS dataRangeK = Option.none →
      cfgLookup (loadBaseDict L) dataRangeK = Option.none) ∧
    (∀ L, getValue L baseS baseUrlK = Option.none →
      cfgLookup (loadBaseDict L) baseUrlK = Option.none) ∧
    (∀ L, getValue L baseS tickerK = Option.none →
      cfgLookup (loadBaseDict L) tickerK = Option.none) ∧
    (∀ L, getValue L epdS modeK = Option.none → loadEpdDict L = []) := by
  refine ⟨fun _ => rfl, ?_, ?_, ?_, ?_, ?_, ?_, ?_⟩
  · intro L r hg
    cases h2 : getValue L baseS dataRangeK <;>
      cases h3 : getValue L baseS baseUrlK <;>
        cases h4 : getValue L baseS tickerK <;>
          simp [loadBaseDict, hg, h2, h3, h4, cfgLookup]
  · intro L r hg
    cases h1 : getValue L baseS refreshK <;>
      cases h3 : getValue L baseS baseUrlK <;>
        cases h4 : getValue L baseS tickerK <;>
          simp [loadBaseDict, hg, h1, h3, h4, cfgLookup, keyNe1, keyNe1.symm]
  · intro L hg
    cases h2 : getValue L baseS dataRangeK <;>
      cases h3 : getValue L baseS baseUrlK <;>
        cases h4 : getValue L baseS tickerK <;>
          simp [loadBaseDict, hg, h2, h3, h4, cfgLookup, keyNe1, keyNe2, keyNe3,
            keyNe1.symm, keyNe2.symm, keyNe3.symm]
  · intro L hg
    cases h1 : getValue L baseS refreshK <;>
      cases h3 : getValue L baseS baseUrlK <;>
        cases h4 : getValue L baseS tickerK <;>
          simp [loadBaseDict, hg, h1, h3, h4, cfgLookup, keyNe1, keyNe4, keyNe5,
            keyNe1.symm, keyNe4.symm, keyNe5.symm]
  · intro L hg
    cases h1 : getValue L baseS refreshK <;>
      cases h2 : getValue L baseS dataRangeK <;>
        cases h4 : getValue L baseS tickerK <;>
          simp [loadBaseDict, hg, h1, h2, h4, cfgLookup, keyNe2, keyNe4, keyNe6,
            keyNe2.symm, keyNe4.symm, keyNe6.symm]
  · intro L hg
    cases h1 : getValue L baseS refreshK <;>
      cases h2 : getValue L baseS dataRangeK <;>
        cases h3 : getValue L baseS baseUrlK <;>
          simp [loadBaseDict, hg, h1, h2, h3, cfgLookup, keyNe3, keyNe5, keyNe6,
            keyNe3.symm, keyNe5.symm, keyNe6.symm]
  · intro L hg
    simp [loadEpdDict, hg]

/-- Witness for C7 on a file whose `data_range_days` does not parse as a
float and whose other keys are absent. -/
theorem c7_witness :
    cfgLookup (loadBaseDict (splitAfterNl (chars "[base]\ndata_range_days : abc\n")))
        dataRangeK = some (CfgVal.str (chars "abc")) ∧
    cfgLookup (loadBaseDict (splitAfterNl (chars "[base]\ndata_range_days : abc\n")))
        refreshK = Option.none := by
  constructor
  · exact c7_read_totality.2.2.1 (splitAfterNl (chars "[base]\ndata_range_days : abc\n"))
      (chars "abc") (by decide)
  · exact c7_read_totality.2.2.2.1 (splitAfterNl (chars "[base]\ndata_range_days : abc\n"))
      (by decide)

/-! ### Lemmas about the block matcher and the sub scan. -/

theorem isPrefixOf_getElem? {p s : List Char} (h : p.isPrefixOf s = true) :
    ∀ i, i < p.length → s[i]? = p[i]? := by
  induction p generalizing s with
  | nil => intro i hi; simp at hi
  | cons a p ih =>
    cases s with
    | nil => simp [List.isPrefixOf] at h
    | cons b s =>
      rw [List.isPrefixOf] at h
      simp only [Bool.and_eq_true, beq_iff_eq] at h
      obtain ⟨hab, hps⟩ := h
      subst hab
      intro i hi
      cases i with
      | zero => simp
      | succ i0 =>
        simp only [List.getElem?_cons_succ]
        exact ih hps i0 (by simpa using hi)

theorem isPrefixOf_append_self (p t : List Char) : p.isPrefixOf (p ++ t) = true := by
  rw [List.isPrefixOf_iff_prefix]
  exact ⟨t, rfl⟩

theorem netPrefix_no_newline : ∀ j, j < 9 → netPrefix[j]? ≠ some '\n' := by decide

theorem netPrefix_brace : netPrefix[8]? = some '{' := by decide

theorem blockMatchLen_none_of_junction (X : Line) (pre rest0 : List Char)
    (h1 : '{' ∉ pre) (hne : pre ≠ []) (h2 : pre.getLast? = some '\n') :
    blockMatchLen X (pre ++ rest0) = Option.none := by
  unfold blockMatchLen
  rw [if_neg]
  intro hp
  by_cases hlen : 9 ≤ pre.length
  · have h8 : (pre ++ rest0)[8]? = some '{' := by
      rw [isPrefixOf_getElem? hp 8 (by decide)]
      exact netPrefix_brace
    rw [List.getElem?_append_left (by omega)] at h8
    exact h1 (mem_of_getElem? h8)
  · push_neg at hlen
    have hlp : 0 < pre.length := List.length_pos.mpr hne
    have hj : (pre ++ rest0)[pre.length - 1]? = some '\n' := by
      rw [List.getElem?_append_left (by omega)]
      rw [← List.getLast?_eq_getElem? pre]
      exact h2
    rw [isPrefixOf_getElem? hp (pre.length - 1) (by
      have : netPrefix.length = 9 := by decide
      omega)] at hj
    exact netPrefix_no_newline (pre.length - 1) (by omega) hj

theorem blockMatchLen_none_of_noBrace {X : Line} {s : List Char} (h : '{' ∉ s) :
    blockMatchLen X s = Option.none := by
  unfold blockMatchLen
  rw [if_neg]
  intro hp
  have h8 : s[8]? = some '{' := by
    rw [isPrefixOf_getElem? hp 8 (by decide)]
    exact netPrefix_brace
  exact h (mem_of_getElem? h8)

theorem containsSub_of_isPrefixOf {X s : List Char} (h : X.isPrefixOf s = true) :
    containsSub X s = true := by
  cases s with
  | nil =>
    cases X with
    | nil => rfl
    | cons a as => simp [List.isPrefixOf] at h
  | cons c rest =>
    rw [containsSub, h]
    rfl

theorem containsSub_middle (X A B : List Char) :
    containsSub X (A ++ (X ++ B)) = true := by
  induction A with
  | nil =>
    rw [List.nil_append]
    exact containsSub_of_isPrefixOf (isPrefixOf_append_self X B)
  | cons a A ih =>
    rw [List.cons_append, containsSub, ih]
    simp

theorem takeWhile_append_all {p : Char → Bool} {A : List Char} (B : List Char)
    (h : ∀ a ∈ A, p a = true) : (A ++ B).takeWhile p = A ++ B.takeWhile p := by
  induction A with
  | nil => simp
  | cons a A ih =>
    rw [List.cons_append, List.takeWhile_cons, h a (by simp),
      ih (fun x hx => h x (by simp [hx])), List.cons_append]
    simp

theorem dropWhile_append_all {p : Char → Bool} {A : List Char} (B : List Char)
    (h : ∀ a ∈ A, p a = true) : (A ++ B).dropWhile p = B.dropWhile p := by
  induction A with
  | nil => simp
  | cons a A ih =>
    rw [List.cons_append, List.dropWhile_cons, h a (by simp)]
    simp only [if_true]
    exact ih (fun x hx => h x (by simp [hx]))

theorem blockMatchLen_block {X b1 b2 : Line} (post : List Char)
    (hb1 : '}' ∉ b1) (hbX : '}' ∉ X) (hb2 : '}' ∉ b2) :
    blockMatchLen X (netPrefix ++ (b1 ++ (X ++ (b2 ++ '}' :: post)))) =
      some (9 + (b1.length + X.length + b2.length) + 1 +
        (post.takeWhile isPySpace).length) := by
  unfold blockMatchLen
  rw [if_pos (isPrefixOf_append_self netPrefix _)]
  dsimp only
  have hdrop : (netPrefix ++ (b1 ++ (X ++ (b2 ++ '}' :: post)))).drop 9 =
      b1 ++ (X ++ (b2 ++ '}' :: post)) := by
    have h9 : (9 : Nat) = netPrefix.length := by decide
    rw [h9, List.drop_left]
  rw [hdrop]
  have hall : ∀ a ∈ b1 ++ (X ++ b2), (fun c => decide (c ≠ '}')) a = true := by
    intro a ha
    simp only [decide_eq_true_eq]
    intro hcon
    subst hcon
    simp at ha
    rcases ha with ha | ha | ha
    · exact hb1 ha
    · exact hbX ha
    · exact hb2 ha
  have hshape : b1 ++ (X ++ (b2 ++ '}' :: post)) = (b1 ++ (X ++ b2)) ++ '}' :: post := by
    simp
  have htake : (b1 ++ (X ++ (b2 ++ '}' :: post))).takeWhile (fun c => c ≠ '}') =
      b1 ++ (X ++ b2) := by
    rw [hshape, takeWhile_append_all _ hall, List.takeWhile_cons]
    simp
  have hdropw : (b1 ++ (X ++ (b2 ++ '}' :: post))).dropWhile (fun c => c ≠ '}') =
      '}' :: post := by
    rw [hshape, dropWhile_append_all _ hall, List.dropWhile_cons]
    simp
  rw [htake, hdropw]
  dsimp only
  have hsub : containsSub X (b1 ++ (X ++ b2)) = true := by
    have := containsSub_middle X b1 b2
    simpa using this
  rw [if_pos hsub]
  simp [Nat.add_assoc]

theorem subScan_skip (X : Line) (rest0 : List Char) :
    ∀ (pre : List Char) (fuel : Nat), '{' ∉ pre →
      (pre = [] ∨ pre.getLast? = some '\n') →
      (pre ++ rest0).length ≤ fuel →
      subScan X fuel (pre ++ rest0) = pre ++ subScan X (fuel - pre.length) rest0 := by
  intro pre
  induction pre with
  | nil => intro fuel _ _ _; simp
  | cons c pre ih =>
    intro fuel h1 h2 hf
    have hlast : (c :: pre).getLast? = some '\n' := by
      rcases h2 with h2 | h2
      · cases h2
      · exact h2
    cases fuel with
    | zero => simp at hf
    | succ f =>
      have hnone := blockMatchLen_none_of_junction X (c :: pre) rest0 h1 (by simp) hlast
      rw [List.cons_append] at hnone
      rw [List.cons_append, subScan, hnone]
      dsimp only
      have hpre' : '{' ∉ pre := fun hm => h1 (by simp [hm])
      have hlast' : pre = [] ∨ pre.getLast? = some '\n' := by
        cases hpre : pre with
        | nil => exact Or.inl rfl
        | cons d pre2 =>
          right
          rw [← hpre]
          rw [hpre] at hlast ⊢
          rw [List.getLast?_cons_cons] at hlast
          exact hlast
      rw [ih f hpre' hlast' (by simp only [List.length_cons, List.length_append] at hf ⊢; omega)]
      have harith : f + 1 - (c :: pre).length = f - pre.length := by
        simp only [List.length_cons]
        omega
      rw [harith]
      simp

theorem subScan_noBrace (X : Line) :
    ∀ (t : List Char) (fuel : Nat), '{' ∉ t → t.length ≤ fuel →
      subScan X fuel t = t := by
  intro t
  induction t with
  | nil => intro fuel _ _; cases fuel <;> rfl
  | cons c t ih =>
    intro fuel h1 hf
    cases fuel with
    | zero => simp at hf
    | succ f =>
      rw [subScan, blockMatchLen_none_of_noBrace h1]
      dsimp only
      rw [ih f (fun hm => h1 (by simp [hm])) (by simp at hf; omega)]

theorem countScan_skip (X : Line) (rest0 : List Char) :
    ∀ (pre : List Char) (fuel : Nat), '{' ∉ pre →
      (pre = [] ∨ pre.getLast? = some '\n') →
      (pre ++ rest0).length ≤ fuel →
      countScan X fuel (pre ++ rest0) = countScan X (fuel - pre.length) rest0 := by
  intro pre
  induction pre with
  | nil => intro fuel _ _ _; simp
  | cons c pre ih =>
    intro fuel h1 h2 hf
    have hlast : (c :: pre).getLast? = some '\n' := by
      rcases h2 with h2 | h2
      · cases h2
      · exact h2
    cases fuel with
    | zero => simp at hf
    | succ f =>
      have hnone := blockMatchLen_none_of_junction X (c :: pre) rest0 h1 (by simp) hlast
      rw [List.cons_append] at hnone
      rw [List.cons_append, countScan, hnone]
      dsimp only
      have hpre' : '{' ∉ pre := fun hm => h1 (by simp [hm])
      have hlast' : pre = [] ∨ pre.getLast? = some '\n' := by
        cases hpre : pre with
        | nil => exact Or.inl rfl
        | cons d pre2 =>
          right
          rw [← hpre]
          rw [hpre] at hlast ⊢
          rw [List.getLast?_cons_cons] at hlast
          exact hlast
      rw [ih f hpre' hlast' (by simp only [List.length_cons, List.length_append] at hf ⊢; omega)]
      have harith : f + 1 - (c :: pre).length = f - pre.length := by
        simp only [List.length_cons]
        omega
      rw [harith]

theorem countScan_noBrace (X : Line) :
    ∀ (t : List Char) (fuel : Nat), '{' ∉ t → t.length ≤ fuel →
      countScan X fuel t = 0 := by
  intro t
  induction t with
  | nil => intro fuel _ _; cases fuel <;> rfl
  | cons c t ih =>
    intro fuel h1 hf
    cases fuel with
    | zero => simp at hf
    | succ f =>
      rw [countScan, blockMatchLen_none_of_noBrace h1]
      dsimp only
      exact ih f (fun hm => h1 (by simp [hm])) (by simp at hf; omega)

theorem subScan_match_step (X : Line) (cs : List Char) (fuel len : Nat)
    (h : blockMatchLen X cs = some len) (hcs : cs ≠ []) :
    subScan X (fuel + 1) cs = subScan X fuel (cs.drop len) := by
  cases cs with
  | nil => cases hcs rfl
  | cons c rest =>
    rw [subScan, h]

theorem countScan_match_step (X : Line) (cs : List Char) (fuel len : Nat)
    (h : blockMatchLen X cs = some len) (hcs : cs ≠ []) :
    countScan X (fuel + 1) cs = 1 + countScan X fuel (cs.drop len) := by
  cases cs with
  | nil => cases hcs rfl
  | cons c rest =>
    rw [countScan, h]

theorem countScan_nil (X : Line) (fuel : Nat) : countScan X fuel [] = 0 := by
  cases fuel <;> rfl

theorem drop_append_plus (A B : List Char) (m : Nat) :
    (A ++ B).drop (A.length + m) = B.drop m := by
  rw [List.drop_append_eq_append_drop]
  simp

theorem drop_length_takeWhile (p : Char → Bool) (l : List Char) :
    l.drop (l.takeWhile p).length = l.dropWhile p := by
  have h := @List.takeWhile_append_dropWhile _ p l
  nth_rewrite 2 [← h]
  exact List.drop_left _ _

theorem ssidLit_no_brace {ssid : List Char} (h : '}' ∉ ssid) : '}' ∉ ssidLit ssid := by
  intro hm
  rw [ssidLit] at hm
  simp only [List.mem_append, List.mem_cons, List.mem_singleton, List.not_mem_nil,
    or_false] at hm
  rcases hm with h1 | h1 | h1 | h1
  · exact (by decide : ('}' : Char) ∉ chars "ssid=") h1
  · exact absurd h1 (by decide)
  · exact h h1
  · exact absurd h1 (by decide)

/-! ## Claim C8. -/

/-- C8: when the fallback provisioning path rewrites the credential file for
an SSID that already has a (well-formed, single-level) block, the matching
block is excised in full — the surviving old content contains no block for
that SSID — and the newly derived block is appended, so the resulting file
contains exactly one network block for that SSID.  `pre`/`post` are the
file content around the old block (brace-free outside blocks, `pre` ending
at a line boundary), `b1`/`b2` the old block's body around its `ssid=`
line, and `nb1`/`nb2` the body of the freshly derived block. -/
theorem c8_fallback_replace
    (ssid pre b1 b2 post nb1 nb2 : List Char)
    (hpre1 : '{' ∉ pre) (hpre2 : pre = [] ∨ pre.getLast? = some '\n')
    (hb1 : '}' ∉ b1) (hb2 : '}' ∉ b2) (hS : '}' ∉ ssid)
    (hpost : '{' ∉ post) (hnb1 : '}' ∉ nb1) (hnb2 : '}' ∉ nb2) :
    removeSsidBlocks
        (pre ++ (netPrefix ++ (b1 ++ (ssidLit ssid ++ (b2 ++ '}' :: post))))) ssid =
      pre ++ post.dropWhile isPySpace ∧
    countBlocks (pre ++ post.dropWhile isPySpace) ssid = 0 ∧
    countBlocks
      (fallbackApply
        (pre ++ (netPrefix ++ (b1 ++ (ssidLit ssid ++ (b2 ++ '}' :: post))))) ssid
        (netPrefix ++ (nb1 ++ (ssidLit ssid ++ (nb2 ++ ['}']))))) ssid = 1 := by
  set X := ssidLit ssid with hX
  have hXb : '}' ∉ X := ssidLit_no_brace hS
  set rest0 := netPrefix ++ (b1 ++ (X ++ (b2 ++ '}' :: post))) with hrest0
  have hpost' : '{' ∉ post.dropWhile isPySpace :=
    fun hm => hpost ((List.dropWhile_sublist _).mem hm)
  have hblock := blockMatchLen_block post hb1 hXb hb2
  set len := 9 + (b1.length + X.length + b2.length) + 1 +
    (post.takeWhile isPySpace).length with hlen
  have hrlen : rest0.length = 9 + (b1.length + X.length + b2.length + (1 + post.length)) := by
    rw [hrest0]
    simp [netPrefix, chars]
    omega
  have hdroplen : rest0.drop len = post.dropWhile isPySpace := by
    have hsh : rest0 = (netPrefix ++ (b1 ++ (X ++ (b2 ++ ['}'])))) ++ post := by
      rw [hrest0]
      simp
    have hlsh : (netPrefix ++ (b1 ++ (X ++ (b2 ++ ['}'])))).length =
        9 + (b1.length + X.length + b2.length) + 1 := by
      simp [netPrefix, chars]
      omega
    rw [hsh, hlen, ← hlsh]
    rw [drop_append_plus]
    exact drop_length_takeWhile isPySpace post
  have hremove : removeSsidBlocks (pre ++ rest0) ssid = pre ++ post.dropWhile isPySpace := by
    unfold removeSsidBlocks
    rw [← hX]
    rw [subScan_skip X rest0 pre (pre ++ rest0).length hpre1 hpre2 (le_refl _)]
    have hfuel : (pre ++ rest0).length - pre.length = rest0.length := by
      simp
    rw [hfuel]
    have hpos : rest0.length = (rest0.length - 1) + 1 := by
      rw [hrlen]
      omega
    rw [hpos, subScan_match_step X rest0 (rest0.length - 1) len hblock
      (by rw [hrest0]; simp [netPrefix, chars])]
    rw [hdroplen]
    rw [subScan_noBrace X (post.dropWhile isPySpace) (rest0.length - 1) hpost'
      (by
        have hle : (post.dropWhile isPySpace).length ≤ post.length :=
          (List.dropWhile_sublist _).length_le
        rw [hrlen]
        omega)]
  refine ⟨hremove, ?_, ?_⟩
  · unfold countBlocks
    rw [← hX]
    rw [countScan_skip X (post.dropWhile isPySpace) pre
      (pre ++ post.dropWhile isPySpace).length hpre1 hpre2 (le_refl _)]
    have hf2 : (pre ++ post.dropWhile isPySpace).length - pre.length =
        (post.dropWhile isPySpace).length := by simp
    rw [hf2]
    exact countScan_noBrace X (post.dropWhile isPySpace)
      (post.dropWhile isPySpace).length hpost' (le_refl _)
  · set netBlock := netPrefix ++ (nb1 ++ (X ++ (nb2 ++ ['}']))) with hnetBlock
    have hRb : '{' ∉ pre ++ post.dropWhile isPySpace := by
      intro hm
      rcases List.mem_append.mp hm with hm | hm
      · exact hpre1 hm
      · exact hpost' hm
    have hcount : ∀ E2 : List Char, '{' ∉ E2 →
        countBlocks (E2 ++ '\n' :: (netBlock ++ ['\n'])) ssid = 1 := by
      intro E2 hE2
      unfold countBlocks
      rw [← hX]
      have hsh : E2 ++ '\n' :: (netBlock ++ ['\n']) =
          (E2 ++ ['\n']) ++ (netBlock ++ ['\n']) := by simp
      rw [hsh]
      have hE2n : '{' ∉ E2 ++ ['\n'] := by
        intro hm
        rcases List.mem_append.mp hm with hm | hm
        · exact hE2 hm
        · simp at hm
      rw [countScan_skip X (netBlock ++ ['\n']) (E2 ++ ['\n'])
        ((E2 ++ ['\n']) ++ (netBlock ++ ['\n'])).length hE2n
        (Or.inr (List.getLast?_concat E2)) (le_refl _)]
      have hf3 : ((E2 ++ ['\n']) ++ (netBlock ++ ['\n'])).length - (E2 ++ ['\n']).length =
          (netBlock ++ ['\n']).length := by
        simp only [List.length_append, List.length_cons, List.length_nil]
        omega
      rw [hf3]
      have hsh2 : netBlock ++ ['\n'] = netPrefix ++ (nb1 ++ (X ++ (nb2 ++ '}' :: ['\n']))) := by
        rw [hnetBlock]
        simp
      have hblock2 := blockMatchLen_block ['\n'] hnb1 hXb hnb2
      have hnblen : (netBlock ++ ['\n']).length =
          9 + (nb1.length + X.length + nb2.length) + 1 + 1 := by
        rw [hnetBlock]
        simp [netPrefix, chars]
        omega
      have hpos2 : (netBlock ++ ['\n']).length = ((netBlock ++ ['\n']).length - 1) + 1 := by
        rw [hnblen]
        omega
      rw [hpos2, countScan_match_step X (netBlock ++ ['\n'])
        ((netBlock ++ ['\n']).length - 1)
        (9 + (nb1.length + X.length + nb2.length) + 1 +
          ((['\n'] : List Char).takeWhile isPySpace).length)
        (by rw [hsh2]; exact hblock2) (by simp)]
      have hdrop2 : (netBlock ++ ['\n']).drop
          (9 + (nb1.length + X.length + nb2.length) + 1 +
            ((['\n'] : List Char).takeWhile isPySpace).length) = [] := by
        apply List.drop_eq_nil_of_le
        rw [hnblen]
        have : ((['\n'] : List Char).takeWhile isPySpace).length = 1 := rfl
        omega
      rw [hdrop2, countScan_nil]
    unfold fallbackApply
    rw [hremove]
    dsimp only
    by_cases hcase : pre ++ post.dropWhile isPySpace ≠ [] ∧
        ¬(endsNl (pre ++ post.dropWhile isPySpace) = true)
    · rw [if_pos hcase]
      apply hcount
      intro hm
      rcases List.mem_append.mp hm with hm | hm
      · exact hRb hm
      · simp at hm
    · rw [if_neg hcase]
      exact hcount _ hRb

/-- Witness for C8 on a concrete credential file holding a `HomeNet` block
(to be replaced) and surrounding plain content. -/
theorem c8_witness :
    removeSsidBlocks
        (chars "ctrl_interface=x\n" ++ (netPrefix ++ (chars "\n\t" ++
          (ssidLit (chars "HomeNet") ++ (chars "\n\tpsk=\"old\"\n" ++ '}' :: chars "\n")))))
        (chars "HomeNet") =
      chars "ctrl_interface=x\n" ++ (chars "\n").dropWhile isPySpace ∧
    countBlocks (chars "ctrl_interface=x\n" ++ (chars "\n").dropWhile isPySpace)
      (chars "HomeNet") = 0 ∧
    countBlocks
      (fallbackApply
        (chars "ctrl_interface=x\n" ++ (netPrefix ++ (chars "\n\t" ++
          (ssidLit (chars "HomeNet") ++ (chars "\n\tpsk=\"old\"\n" ++ '}' :: chars "\n")))))
        (chars "HomeNet")
        (netPrefix ++ (chars "\n\t" ++ (ssidLit (chars "HomeNet") ++
          (chars "\n\tpsk=abc\n" ++ ['}'])))))
      (chars "HomeNet") = 1 :=
  c8_fallback_replace (chars "HomeNet") (chars "ctrl_interface=x\n") (chars "\n\t")
    (chars "\n\tpsk=\"old\"\n") (chars "\n") (chars "\n\t") (chars "\n\tpsk=abc\n")
    (by decide) (by decide) (by decide) (by decide) (by decide) (by decide)
    (by decide) (by decide)

/-! ## Generic list-surgery lemmas for the frame and idempotence proofs. -/

theorem insertIdx_eq_take_drop_gen {α : Type} (x : α) :
    ∀ (p : Nat) (l : List α), p ≤ l.length →
      l.insertIdx p x = l.take p ++ x :: l.drop p := by
  intro p
  induction p with
  | zero => intro l _; simp
  | succ p ih =>
    intro l hp
    cases l with
    | nil => simp at hp
    | cons a l =>
      simp only [List.insertIdx_succ_cons, List.take_succ_cons, List.drop_succ_cons,
        List.cons_append]
      rw [ih l (by simpa using hp)]

theorem set_getElem?_self {α : Type} {l : List α} {i : Nat} {x : α}
    (h : l[i]? = some x) : l.set i x = l := by
  induction l generalizing i with
  | nil => simp at h
  | cons a t ih =>
    cases i with
    | zero =>
      simp at h
      subst h
      simp
    | succ i0 =>
      simp only [List.getElem?_cons_succ] at h
      simp only [List.set_cons_succ]
      rw [ih h]

theorem getElem?_insertIdx_lt {α : Type} {l : List α} {p i : Nat} {x : α}
    (hp : p ≤ l.length) (hi : i < p) : (l.insertIdx p x)[i]? = l[i]? := by
  rw [insertIdx_eq_take_drop_gen x p l hp]
  rw [List.getElem?_append_left (by rw [List.length_take]; omega)]
  rw [List.getElem?_take]
  simp [hi]

theorem getElem?_insertIdx_ge {α : Type} {l : List α} {p i : Nat} {x : α}
    (hp : p ≤ l.length) (hi : p ≤ i) : (l.insertIdx p x)[i + 1]? = l[i]? := by
  rw [insertIdx_eq_take_drop_gen x p l hp]
  rw [List.getElem?_append_right (by rw [List.length_take]; omega)]
  have h1 : i + 1 - (List.take p l).length = (i - p) + 1 := by
    rw [List.length_take]
    omega
  rw [h1, List.getElem?_cons_succ, List.getElem?_drop]
  congr 1
  omega

theorem map_insertIdx_gen {α β : Type} (f : α → β) (x : α) :
    ∀ (p : Nat) (l : List α), (l.insertIdx p x).map f = (l.map f).insertIdx p (f x) := by
  intro p
  induction p with
  | zero => intro l; simp
  | succ p ih =>
    intro l
    cases l with
    | nil => simp
    | cons a t =>
      simp only [List.insertIdx_succ_cons, List.map_cons]
      rw [ih t]

theorem drop_insertIdx_le {α : Type} (x : α) (p n : Nat) (l : List α)
    (hn : n ≤ p) (hp : p ≤ l.length) :
    (l.insertIdx p x).drop n = (l.drop n).insertIdx (p - n) x := by
  rw [insertIdx_eq_take_drop_gen x p l hp,
    insertIdx_eq_take_drop_gen x (p - n) (l.drop n) (by rw [List.length_drop]; omega)]
  rw [List.drop_append_eq_append_drop]
  have h1 : (l.take p).drop n = (l.drop n).take (p - n) := by
    rw [List.drop_take]
  have h2 : n - (l.take p).length = 0 := by
    rw [List.length_take]
    omega
  rw [h1, h2, List.drop_zero]
  have h3 : (l.drop n).drop (p - n) = l.drop p := by
    rw [List.drop_drop]
    congr 1
    omega
  rw [h3]

theorem drop_insertIdx_ge {α : Type} (x : α) (p n : Nat) (l : List α)
    (hn : p < n) (hp : p ≤ l.length) :
    (l.insertIdx p x).drop n = l.drop (n - 1) := by
  rw [insertIdx_eq_take_drop_gen x p l hp]
  rw [List.drop_append_eq_append_drop]
  have h1 : (l.take p).drop n = [] := by
    apply List.drop_eq_nil_of_le
    rw [List.length_take]
    omega
  have h2 : n - (l.take p).length = (n - p - 1) + 1 := by
    rw [List.length_take]
    omega
  rw [h1, h2, List.nil_append, List.drop_succ_cons, List.drop_drop]
  congr 1
  omega

theorem endsNl_append_newline (b : Line) : endsNl (b ++ ['\n']) = true := by
  unfold endsNl
  rw [List.getLast?_concat]
  rfl

theorem endsNl_decomp {l : Line} (h : endsNl l = true) : ∃ b, l = b ++ ['\n'] := by
  unfold endsNl at h
  cases hl : l.getLast? with
  | none => rw [hl] at h; cases h
  | some c =>
    rw [hl] at h
    simp at h
    subst h
    obtain ⟨b, hb⟩ := List.getLast?_eq_some_iff.mp hl
    exact ⟨b, hb⟩

theorem rstripNl_append_newline {b : Line} (h : '\n' ∉ b) :
    rstripNl (b ++ ['\n']) = b := by
  unfold rstripNl
  have hb : (b ++ ['\n']).reverse = '\n' :: b.reverse := by
    rw [List.reverse_append]
    rfl
  rw [hb, List.dropWhile_cons, if_pos (by decide)]
  have hself : List.dropWhile (fun c => decide (c = '\n')) b.reverse = b.reverse := by
    cases hrev : b.reverse with
    | nil => rfl
    | cons c t =>
      rw [List.dropWhile_cons, if_neg]
      simp only [decide_eq_true_eq]
      intro hc
      apply h
      have hcmem : c ∈ b.reverse := by rw [hrev]; simp
      rw [List.mem_reverse] at hcmem
      rwa [hc] at hcmem
  rw [hself, List.reverse_reverse]

theorem rstripNl_decomp (l : Line) : ∃ m, l = rstripNl l ++ List.replicate m '\n' := by
  unfold rstripNl
  refine ⟨(l.reverse.takeWhile (fun c => c = '\n')).length, ?_⟩
  have h := @List.takeWhile_append_dropWhile _ (fun c => decide (c = '\n')) l.reverse
  have hrep : l.reverse.takeWhile (fun c => c = '\n') =
      List.replicate (l.reverse.takeWhile (fun c => c = '\n')).length '\n' := by
    apply List.eq_replicate_of_mem
    intro a ha
    have := List.takeWhile_subset (fun c => decide (c = '\n')) ha
    have hp := List.mem_takeWhile_imp ha
    simpa using hp
  calc l = l.reverse.reverse := by rw [List.reverse_reverse]
    _ = ((l.reverse.takeWhile (fun c => c = '\n')) ++
          (l.reverse.dropWhile (fun c => c = '\n'))).reverse := by rw [h]
    _ = (l.reverse.dropWhile (fun c => c = '\n')).reverse ++
          (l.reverse.takeWhile (fun c => c = '\n')).reverse := by rw [List.reverse_append]
    _ = _ := by
      congr 1
      conv_lhs => rw [hrep]
      rw [List.reverse_replicate]

theorem rstripNl_no_newline_end (l : Line) : endsNl (rstripNl l) = false := by
  unfold endsNl rstripNl
  cases hd : l.reverse.dropWhile (fun c => c = '\n') with
  | nil => simp
  | cons c t =>
    have hhead : (l.reverse.dropWhile (fun c => c = '\n')).head? = some c := by
      rw [hd]; rfl
    have hc : decide (c = '\n') = false := by
      have h2 := List.head?_dropWhile_not (fun c => decide (c = '\n')) l.reverse
      rw [hhead] at h2
      simpa using h2
    simp only [List.reverse_cons]
    rw [List.getLast?_concat]
    exact hc

theorem goodKey_cons {k : Line} (hk : goodKey k = true) :
    ∃ c t, k = c :: t ∧ isPySpace c = false ∧ c ≠ '[' ∧ ∀ d ∈ k, isValChar d = true := by
  cases k with
  | nil => simp [goodKey] at hk
  | cons c t =>
    simp only [goodKey, Bool.and_eq_true, Bool.not_eq_true', List.all_eq_true,
      decide_eq_true_eq] at hk
    refine ⟨c, t, rfl, hk.1.1, ?_, ?_⟩
    · intro he
      rw [he] at hk
      simp at hk
    · intro d hd
      exact hk.2 d hd

theorem cleanVal_cons {v : Line} (hv : cleanVal v = true) :
    ∃ c t, v = c :: t ∧ isPySpace c = false ∧ ∀ d ∈ v, isValChar d = true := by
  cases v with
  | nil => simp [cleanVal] at hv
  | cons c t =>
    simp only [cleanVal, Bool.and_eq_true, Bool.not_eq_true', List.all_eq_true] at hv
    exact ⟨c, t, rfl, hv.1, hv.2⟩

theorem no_newline_of_allVal {l : Line} (h : ∀ d ∈ l, isValChar d = true) : '\n' ∉ l := by
  intro hmem
  have := h _ hmem
  simp [isValChar] at this

/-! ## Prefix comparison lemmas. -/

theorem isPrefixOf_of_getElem? {p s : List Char}
    (h : ∀ i, i < p.length → s[i]? = p[i]?) : p.isPrefixOf s = true := by
  induction p generalizing s with
  | nil => cases s <;> rfl
  | cons a p ih =>
    cases s with
    | nil =>
      have := h 0 (by simp)
      simp at this
    | cons b s =>
      have h0 : b = a := by
        have := h 0 (by simp)
        simpa using this
      show (a == b && p.isPrefixOf s) = true
      rw [h0]
      simp only [beq_self_eq_true, Bool.true_and]
      apply ih
      intro i hi
      have := h (i + 1) (by simpa using Nat.succ_lt_succ hi)
      simpa using this

theorem prefix_append_cases {k k' R : List Char} (h : k'.isPrefixOf (k ++ R) = true) :
    k.isPrefixOf k' = true ∨ k'.isPrefixOf k = true := by
  by_cases hle : k'.length ≤ k.length
  · right
    apply isPrefixOf_of_getElem?
    intro i hi
    have h1 := isPrefixOf_getElem? h i hi
    rw [List.getElem?_append_left (by omega)] at h1
    exact h1
  · left
    apply isPrefixOf_of_getElem?
    intro i hi
    have h1 := isPrefixOf_getElem? h i (by omega)
    rw [List.getElem?_append_left (by omega)] at h1
    exact h1.symm

theorem keyMatch_none_of_other {k k' R l : Line}
    (hl : l.dropWhile isPySpace = k ++ R)
    (h1 : k.isPrefixOf k' = false) (h2 : k'.isPrefixOf k = false) :
    keyMatch k' l = Option.none := by
  have hfalse : k'.isPrefixOf (l.dropWhile isPySpace) = false := by
    rw [hl]
    cases hp : k'.isPrefixOf (k ++ R) with
    | false => rfl
    | true =>
      rcases prefix_append_cases hp with hc | hc
      · rw [hc] at h1; cases h1
      · rw [hc] at h2; cases h2
  unfold keyMatch
  simp [hfalse]

/-! ## More `dropWhile` / `rstripNl` decomposition lemmas. -/

theorem dropWhile_append_of_ne {p : Char → Bool} {A : List Char} (B : List Char)
    (h : A.dropWhile p ≠ []) : (A ++ B).dropWhile p = A.dropWhile p ++ B := by
  rw [List.dropWhile_append]
  cases hA : A.dropWhile p with
  | nil => exact absurd hA h
  | cons c t => simp

theorem dropWhile_space_of_head {k R : Line} (hk : goodKey k = true)
    {ws : Line} (hws : ∀ c ∈ ws, isPySpace c = true) :
    (ws ++ (k ++ R)).dropWhile isPySpace = k ++ R := by
  obtain ⟨c, t, hkc, hcs, _, _⟩ := goodKey_cons hk
  rw [dropWhile_append_all _ hws, hkc, List.cons_append, List.dropWhile_cons]
  simp [hcs]

theorem rstripNl_of_getLast_ne {l : Line} {c : Char} (h : l.getLast? = some c)
    (hc : c ≠ '\n') : rstripNl l = l := by
  obtain ⟨b, hb⟩ := List.getLast?_eq_some_iff.mp h
  subst hb
  unfold rstripNl
  have hrev : (b ++ [c]).reverse = c :: b.reverse := by
    rw [List.reverse_append]
    rfl
  rw [hrev, List.dropWhile_cons, if_neg (by simp [hc])]
  rw [List.reverse_cons, List.reverse_reverse]

theorem rstripNl_append_cases (X Y : Line) :
    rstripNl (X ++ Y) = X ++ rstripNl Y ∨
      (rstripNl Y = [] ∧ rstripNl (X ++ Y) = rstripNl X) := by
  by_cases h : rstripNl Y = []
  · right
    refine ⟨h, ?_⟩
    unfold rstripNl at h ⊢
    have hY : Y.reverse.dropWhile (fun c => c = '\n') = [] := by
      cases hd : Y.reverse.dropWhile (fun c => c = '\n') with
      | nil => rfl
      | cons c t => rw [hd] at h; simp at h
    rw [List.reverse_append, List.dropWhile_append, hY]
    simp
  · left
    unfold rstripNl at h ⊢
    rw [List.reverse_append, List.dropWhile_append]
    cases hd : Y.reverse.dropWhile (fun c => c = '\n') with
    | nil => rw [hd] at h; simp at h
    | cons c t =>
      simp only [List.isEmpty_cons, Bool.false_eq_true, if_false]
      rw [List.reverse_append, List.reverse_reverse]

/-! ## Structure of a successful key-line match. -/

theorem tailMatch_eq {r g : Line} (h : tailMatch r = some g) : g = r := by
  unfold tailMatch at h
  dsimp only at h
  cases hd : r.dropWhile isPySpace with
  | nil =>
    rw [hd] at h
    dsimp only at h
    simp only [Option.some.injEq] at h
    subst h
    conv_rhs => rw [← @List.takeWhile_append_dropWhile _ isPySpace r]
    rw [hd, List.append_nil]
  | cons c t =>
    rw [hd] at h
    dsimp only at h
    by_cases hc : c = '#' ∧ '\n' ∉ c :: t
    · rw [if_pos hc] at h
      simp only [Option.some.injEq] at h
      subst h
      conv_rhs => rw [← @List.takeWhile_append_dropWhile _ isPySpace r]
      rw [hd]
    · rw [if_neg hc] at h
      cases h

theorem keyMatch_struct {k l g1 g2 g3 : Line} (h : keyMatch k l = some (g1, g2, g3)) :
    ∃ ws1 ws2 sep ws3,
      g1 = ws1 ++ k ++ ws2 ++ sep :: ws3 ∧
      ws1 = l.takeWhile isPySpace ∧
      (∀ c ∈ ws1, isPySpace c = true) ∧
      (∀ c ∈ ws2, isPySpace c = true) ∧
      (sep = ':' ∨ sep = '=') ∧
      (∀ c ∈ ws3, isPySpace c = true) ∧
      l = g1 ++ (g2 ++ g3) ∧
      (∀ c ∈ g2, isValChar c = true) ∧
      (g3 = [] ∨ isValChar (g3.headD ' ') = false) ∧
      tailMatch g3 = some g3 := by
  unfold keyMatch at h
  dsimp only at h
  by_cases hpre : k.isPrefixOf (l.dropWhile isPySpace) = true
  · rw [if_pos hpre] at h
    cases hdw : ((l.dropWhile isPySpace).drop k.length).dropWhile isPySpace with
    | nil =>
      rw [hdw] at h
      exact Option.noConfusion h
    | cons sep r4 =>
      rw [hdw] at h
      dsimp only at h
      by_cases hsep : sep = ':' ∨ sep = '='
      · rw [if_pos hsep] at h
        cases htm : tailMatch ((r4.dropWhile isPySpace).dropWhile isValChar) with
        | none =>
          rw [htm] at h
          exact Option.noConfusion h
        | some g3x =>
          rw [htm] at h
          dsimp only at h
          simp only [Option.some.injEq, Prod.mk.injEq] at h
          obtain ⟨hg1, hg2, hg3⟩ := h
          have hg3r : g3x = (r4.dropWhile isPySpace).dropWhile isValChar := tailMatch_eq htm
          subst hg3
          refine ⟨l.takeWhile isPySpace,
            ((l.dropWhile isPySpace).drop k.length).takeWhile isPySpace, sep,
            r4.takeWhile isPySpace, hg1.symm, rfl, ?_, ?_, hsep, ?_, ?_, ?_, ?_, ?_⟩
          · intro c hc
            exact List.mem_takeWhile_imp hc
          · intro c hc
            exact List.mem_takeWhile_imp hc
          · intro c hc
            exact List.mem_takeWhile_imp hc
          · -- l = g1 ++ (g2 ++ g3)
            have e1 : l = l.takeWhile isPySpace ++ l.dropWhile isPySpace :=
              (List.takeWhile_append_dropWhile isPySpace l).symm
            obtain ⟨t3, ht3⟩ := List.isPrefixOf_iff_prefix.mp hpre
            have hr1k : l.dropWhile isPySpace = k ++ t3 := ht3.symm
            have ht2r : (l.dropWhile isPySpace).drop k.length = t3 := by
              rw [hr1k, List.drop_append_eq_append_drop]
              simp
            have e2 : (l.dropWhile isPySpace).drop k.length =
                ((l.dropWhile isPySpace).drop k.length).takeWhile isPySpace ++
                  (sep :: r4) := by
              conv_lhs =>
                rw [← @List.takeWhile_append_dropWhile _ isPySpace
                  ((l.dropWhile isPySpace).drop k.length)]
              rw [hdw]
            have e3 : r4 = r4.takeWhile isPySpace ++ r4.dropWhile isPySpace :=
              (List.takeWhile_append_dropWhile isPySpace r4).symm
            have e4 : r4.dropWhile isPySpace = g2 ++ g3x := by
              rw [← hg2, hg3r]
              exact (List.takeWhile_append_dropWhile isValChar (r4.dropWhile isPySpace)).symm
            conv_lhs => rw [e1, hr1k, ← ht2r, e2, e3, e4]
            rw [← hg1]
            simp
          · intro c hc
            rw [← hg2] at hc
            exact List.mem_takeWhile_imp hc
          · -- g3 head is not a value character
            rw [hg3r]
            cases hd : (r4.dropWhile isPySpace).dropWhile isValChar with
            | nil => left; rfl
            | cons c t =>
              right
              have hhead : ((r4.dropWhile isPySpace).dropWhile isValChar).head? = some c := by
                rw [hd]
                rfl
              have h2 := List.head?_dropWhile_not isValChar (r4.dropWhile isPySpace)
              rw [hhead] at h2
              simp only [hd, List.headD_cons]
              simpa using h2
          · rw [hg3r] at htm
            rw [hg3r]
            exact htm
      · rw [if_neg hsep] at h
        exact Option.noConfusion h
  · rw [if_neg hpre] at h
    exact Option.noConfusion h

/-! ## Consequences for whole lines: what a matched or written line looks like. -/

theorem headerName?_none_of_strip {l : Line} {c : Char} {t : Line}
    (h : l.dropWhile isPySpace = c :: t) (hc : c ≠ '[') :
    headerName? l = Option.none := by
  unfold headerName?
  rw [h]
  split
  next heq =>
    rw [List.cons.injEq] at heq
    exact absurd heq.1 hc
  next => rfl

theorem takeWhile_all_cons_neg {p : Char → Bool} {A : List Char} {b : Char} (B : List Char)
    (hA : ∀ a ∈ A, p a = true) (hb : p b = false) :
    (A ++ b :: B).takeWhile p = A := by
  rw [takeWhile_append_all _ hA, List.takeWhile_cons, hb]
  simp

theorem dropWhile_all_cons_neg {p : Char → Bool} {A : List Char} {b : Char} (B : List Char)
    (hA : ∀ a ∈ A, p a = true) (hb : p b = false) :
    (A ++ b :: B).dropWhile p = b :: B := by
  rw [dropWhile_append_all _ hA, List.dropWhile_cons, hb]
  simp

theorem dropWhile_space_keyHead {k R : Line} (hk : goodKey k = true) :
    (k ++ R).dropWhile isPySpace = k ++ R := by
  have h := @dropWhile_space_of_head k R hk [] (by simp)
  simpa using h

theorem takeWhile_space_keyHead {k R : Line} (hk : goodKey k = true) :
    (k ++ R).takeWhile isPySpace = [] := by
  obtain ⟨c, t, hkc, hcs, _, _⟩ := goodKey_cons hk
  rw [hkc, List.cons_append, List.takeWhile_cons, hcs]
  simp

theorem strip_of_keyMatch {k l : Line} {g : Line × Line × Line}
    (h : keyMatch k l = some g) (hk : goodKey k = true) :
    ∃ R, l.dropWhile isPySpace = k ++ R := by
  obtain ⟨g1, g2, g3⟩ := g
  obtain ⟨ws1, ws2, sep, ws3, hg1, _, hws1, _, _, _, hl, _, _, _⟩ := keyMatch_struct h
  refine ⟨ws2 ++ sep :: (ws3 ++ (g2 ++ g3)), ?_⟩
  have he : l = ws1 ++ (k ++ (ws2 ++ sep :: (ws3 ++ (g2 ++ g3)))) := by
    rw [hl, hg1]
    simp
  rw [he, dropWhile_space_of_head hk hws1]

theorem headerName?_none_of_keyMatch {k l : Line} {g : Line × Line × Line}
    (h : keyMatch k (rstripNl l) = some g) (hk : goodKey k = true) :
    headerName? l = Option.none := by
  obtain ⟨R, hR⟩ := strip_of_keyMatch h hk
  obtain ⟨c, t, hkc, _, hcb, _⟩ := goodKey_cons hk
  obtain ⟨m, hm⟩ := rstripNl_decomp l
  have hstrip : l.dropWhile isPySpace = c :: (t ++ R ++ List.replicate m '\n') := by
    rw [hm, dropWhile_append_of_ne _ (by rw [hR, hkc]; simp), hR, hkc]
    simp
  exact headerName?_none_of_strip hstrip hcb

theorem strip_g1_append {k ws1 ws2 ws3 : Line} {sep : Char} (hk : goodKey k = true)
    (hws1 : ∀ c ∈ ws1, isPySpace c = true) (T : Line) :
    ∃ R, ((ws1 ++ k ++ ws2 ++ sep :: ws3) ++ T).dropWhile isPySpace = k ++ R := by
  refine ⟨ws2 ++ sep :: (ws3 ++ T), ?_⟩
  have he : (ws1 ++ k ++ ws2 ++ sep :: ws3) ++ T =
      ws1 ++ (k ++ (ws2 ++ sep :: (ws3 ++ T))) := by
    simp
  rw [he, dropWhile_space_of_head hk hws1]

theorem strip_rstrip_g1_append {k ws1 ws2 ws3 : Line} {sep : Char} (hk : goodKey k = true)
    (hws1 : ∀ c ∈ ws1, isPySpace c = true) (hsep : sep = ':' ∨ sep = '=') (T : Line) :
    ∃ R, (rstripNl ((ws1 ++ k ++ ws2 ++ sep :: ws3) ++ T)).dropWhile isPySpace = k ++ R := by
  have hsplit : (ws1 ++ k ++ ws2 ++ sep :: ws3) ++ T =
      (ws1 ++ (k ++ (ws2 ++ [sep]))) ++ (ws3 ++ T) := by
    simp
  have hsepne : sep ≠ '\n' := by
    rcases hsep with h | h <;> simp [h]
  rw [hsplit]
  rcases rstripNl_append_cases (ws1 ++ (k ++ (ws2 ++ [sep]))) (ws3 ++ T) with hcase | ⟨_, hcase⟩
  · rw [hcase]
    refine ⟨ws2 ++ [sep] ++ rstripNl (ws3 ++ T), ?_⟩
    have he : (ws1 ++ (k ++ (ws2 ++ [sep]))) ++ rstripNl (ws3 ++ T) =
        ws1 ++ (k ++ (ws2 ++ [sep] ++ rstripNl (ws3 ++ T))) := by
      simp
    rw [he, dropWhile_space_of_head hk hws1]
  · rw [hcase]
    have hlast : (ws1 ++ (k ++ (ws2 ++ [sep]))).getLast? = some sep := by
      have : ws1 ++ (k ++ (ws2 ++ [sep])) = (ws1 ++ k ++ ws2) ++ [sep] := by simp
      rw [this]
      exact List.getLast?_concat _
    rw [rstripNl_of_getLast_ne hlast hsepne]
    refine ⟨ws2 ++ [sep], ?_⟩
    rw [dropWhile_space_of_head hk hws1]

/-! ## The generated key line `f"{key} : {value}\n"`. -/

theorem mkKeyLine_eq (k v : Line) :
    mkKeyLine k v = (k ++ (' ' :: ':' :: ' ' :: v)) ++ ['\n'] := by
  unfold mkKeyLine
  simp

theorem endsNl_mkKeyLine (k v : Line) : endsNl (mkKeyLine k v) = true := by
  rw [mkKeyLine_eq]
  exact endsNl_append_newline _

theorem strip_mkKeyLine {k : Line} (hk : goodKey k = true) (v : Line) :
    ∃ R, (mkKeyLine k v).dropWhile isPySpace = k ++ R := by
  refine ⟨(' ' :: ':' :: ' ' :: v) ++ ['\n'], ?_⟩
  have he : mkKeyLine k v = k ++ ((' ' :: ':' :: ' ' :: v) ++ ['\n']) := by
    rw [mkKeyLine_eq]
    simp
  rw [he, dropWhile_space_keyHead hk]

theorem strip_rstrip_mkKeyLine {k : Line} (hk : goodKey k = true) (v : Line) :
    ∃ R, (rstripNl (mkKeyLine k v)).dropWhile isPySpace = k ++ R := by
  have he : mkKeyLine k v = (k ++ [' ', ':', ' ']) ++ (v ++ ['\n']) := by
    rw [mkKeyLine_eq]
    simp
  rw [he]
  rcases rstripNl_append_cases (k ++ [' ', ':', ' ']) (v ++ ['\n']) with hcase | ⟨_, hcase⟩
  · rw [hcase]
    refine ⟨[' ', ':', ' '] ++ rstripNl (v ++ ['\n']), ?_⟩
    have he2 : (k ++ [' ', ':', ' ']) ++ rstripNl (v ++ ['\n']) =
        k ++ ([' ', ':', ' '] ++ rstripNl (v ++ ['\n'])) := by
      simp
    rw [he2, dropWhile_space_keyHead hk]
  · have hlast : (k ++ [' ', ':', ' ']).getLast? = some ' ' := by
      have : k ++ [' ', ':', ' '] = (k ++ [' ', ':']) ++ [' '] := by simp
      rw [this]
      exact List.getLast?_concat _
    rw [hcase, rstripNl_of_getLast_ne hlast (by simp)]
    exact ⟨[' ', ':', ' '], dropWhile_space_keyHead hk⟩

theorem headerName?_none_mkKeyLine {k : Line} (hk : goodKey k = true) (v : Line) :
    headerName? (mkKeyLine k v) = Option.none := by
  obtain ⟨R, hR⟩ := strip_mkKeyLine hk v
  obtain ⟨c, t, hkc, _, hcb, _⟩ := goodKey_cons hk
  have hR2 : (mkKeyLine k v).dropWhile isPySpace = c :: (t ++ R) := by
    rw [hR, hkc]
    simp
  exact headerName?_none_of_strip hR2 hcb

theorem keyMatch_none_mkKeyLine {k k' : Line} (hk : goodKey k = true) (v : Line)
    (h1 : k.isPrefixOf k' = false) (h2 : k'.isPrefixOf k = false) :
    keyMatch k' (rstripNl (mkKeyLine k v)) = Option.none := by
  obtain ⟨R, hR⟩ := strip_rstrip_mkKeyLine hk v
  exact keyMatch_none_of_other hR h1 h2

/-! ## Re-matching the rewritten key line (the idempotence core). -/

theorem tailMatch_comment {cmt : List Char} (hn : '\n' ∉ cmt) :
    tailMatch ('#' :: cmt) = some ('#' :: cmt) := by
  unfold tailMatch
  have ht : ('#' :: cmt).takeWhile isPySpace = [] := by
    rw [List.takeWhile_cons]
    simp [isPySpace]
  have hd : ('#' :: cmt).dropWhile isPySpace = '#' :: cmt := by
    rw [List.dropWhile_cons]
    simp [isPySpace]
  rw [ht, hd]
  dsimp only
  rw [if_pos ⟨rfl, by simp [hn]⟩]
  simp

theorem keyMatch_rebuild {k v ws1 ws2 ws3 g3 : Line} {sep : Char}
    (hk : goodKey k = true) (hv : cleanVal v = true)
    (h1 : ∀ c ∈ ws1, isPySpace c = true) (h2 : ∀ c ∈ ws2, isPySpace c = true)
    (h3 : ∀ c ∈ ws3, isPySpace c = true) (hsep : sep = ':' ∨ sep = '=')
    (hg3 : g3 = [] ∨ ∃ cmt, g3 = '#' :: cmt ∧ '\n' ∉ cmt) :
    keyMatch k ((ws1 ++ k ++ ws2 ++ sep :: ws3) ++ v ++ g3) =
      some (ws1 ++ k ++ ws2 ++ sep :: ws3, v, g3) := by
  obtain ⟨cv, tv, hvc, hvs, hvall⟩ := cleanVal_cons hv
  have hsepns : isPySpace sep = false := by
    rcases hsep with h | h <;> simp [h, isPySpace]
  have hsepval : isValChar sep = true := by
    rcases hsep with h | h <;> simp [h, isValChar]
  have hZ : (ws1 ++ k ++ ws2 ++ sep :: ws3) ++ v ++ g3 =
      ws1 ++ (k ++ (ws2 ++ sep :: (ws3 ++ (v ++ g3)))) := by
    simp
  have hstrip : ((ws1 ++ k ++ ws2 ++ sep :: ws3) ++ v ++ g3).dropWhile isPySpace =
      k ++ (ws2 ++ sep :: (ws3 ++ (v ++ g3))) := by
    rw [hZ, dropWhile_space_of_head hk h1]
  have htake1 : ((ws1 ++ k ++ ws2 ++ sep :: ws3) ++ v ++ g3).takeWhile isPySpace = ws1 := by
    rw [hZ, takeWhile_append_all _ h1, takeWhile_space_keyHead hk, List.append_nil]
  have hdrop : (k ++ (ws2 ++ sep :: (ws3 ++ (v ++ g3)))).drop k.length =
      ws2 ++ sep :: (ws3 ++ (v ++ g3)) := List.drop_left _ _
  have htake2 : (ws2 ++ sep :: (ws3 ++ (v ++ g3))).takeWhile isPySpace = ws2 :=
    takeWhile_all_cons_neg _ h2 hsepns
  have hdrop2 : (ws2 ++ sep :: (ws3 ++ (v ++ g3))).dropWhile isPySpace =
      sep :: (ws3 ++ (v ++ g3)) :=
    dropWhile_all_cons_neg _ h2 hsepns
  have htake3 : (ws3 ++ (v ++ g3)).takeWhile isPySpace = ws3 := by
    rw [hvc, List.cons_append]
    exact takeWhile_all_cons_neg _ h3 hvs
  have hdrop3 : (ws3 ++ (v ++ g3)).dropWhile isPySpace = v ++ g3 := by
    rw [hvc, List.cons_append]
    rw [dropWhile_all_cons_neg _ h3 hvs]
  have htake4 : (v ++ g3).takeWhile isValChar = v := by
    rcases hg3 with hg | ⟨cmt, hg, _⟩
    · subst hg
      rw [List.append_nil]
      have := takeWhile_append_all ([] : List Char) hvall
      simpa using this
    · subst hg
      exact takeWhile_all_cons_neg _ hvall (by simp [isValChar])
  have hdrop4 : (v ++ g3).dropWhile isValChar = g3 := by
    rcases hg3 with hg | ⟨cmt, hg, _⟩
    · subst hg
      rw [List.append_nil]
      have := dropWhile_append_all ([] : List Char) hvall
      simpa using this
    · subst hg
      exact dropWhile_all_cons_neg _ hvall (by simp [isValChar])
  have htm : tailMatch g3 = some g3 := by
    rcases hg3 with hg | ⟨cmt, hg, hn⟩
    · subst hg
      rfl
    · subst hg
      exact tailMatch_comment hn
  unfold keyMatch
  dsimp only
  rw [hstrip, htake1, isPrefixOf_append_self, if_pos rfl, hdrop, htake2, hdrop2]
  dsimp only
  rw [if_pos hsep, htake3, hdrop3, hdrop4, htake4, htm]

/-! ## Transport of `lookupRange` under the write path's list surgery. -/

theorem lookupRange_congr {L M : List Line}
    (h : L.map headerName? = M.map headerName?) (s : Line) :
    lookupRange L s = lookupRange M s := by
  unfold lookupRange sectionRanges
  rw [h]

theorem map_headerName_set {L : List Line} {i : Nat} {old x : Line}
    (hget : L[i]? = some old) (hh : headerName? x = headerName? old) :
    (L.set i x).map headerName? = L.map headerName? := by
  rw [List.map_set]
  apply set_getElem?_self
  rw [List.getElem?_map, hget]
  simp [hh]

theorem lastHdrIdx_insertIdx_none (s : Line) :
    ∀ (p : Nat) (hl : List (Option Line)), p ≤ hl.length →
      lastHdrIdx (hl.insertIdx p Option.none) s =
        (lastHdrIdx hl s).map (fun j => if p ≤ j then j + 1 else j) := by
  intro p
  induction p with
  | zero =>
    intro hl _
    show lastHdrIdx (Option.none :: hl) s = _
    rw [lastHdrIdx]
    cases h : lastHdrIdx hl s with
    | some j => simp
    | none => simp [lastHdrIdx]
  | succ p ih =>
    intro hl hp
    cases hl with
    | nil => simp at hp
    | cons o rest =>
      rw [List.insertIdx_succ_cons, lastHdrIdx, ih rest (by simpa using hp), lastHdrIdx]
      cases h : lastHdrIdx rest s with
      | some j =>
        simp only [Option.map_some']
        by_cases hpj : p ≤ j
        · simp only [if_pos hpj, if_pos (show p + 1 ≤ j + 1 by omega), Option.map_some']
        · simp only [if_neg hpj, if_neg (show ¬(p + 1 ≤ j + 1) by omega), Option.map_some']
      | none =>
        simp only [Option.map_none']
        by_cases ho : o = some s
        · simp only [if_pos ho, Option.map_some', if_neg (show ¬(p + 1 ≤ 0) by omega)]
        · simp only [if_neg ho, Option.map_none']

theorem firstHdrIdx_insertIdx_none :
    ∀ (p : Nat) (hl : List (Option Line)), p ≤ hl.length →
      firstHdrIdx (hl.insertIdx p Option.none) =
        if p ≤ firstHdrIdx hl then firstHdrIdx hl + 1 else firstHdrIdx hl := by
  intro p
  induction p with
  | zero =>
    intro hl _
    show firstHdrIdx (Option.none :: hl) = _
    rw [firstHdrIdx]
    simp
  | succ p ih =>
    intro hl hp
    cases hl with
    | nil => simp at hp
    | cons o rest =>
      rw [List.insertIdx_succ_cons, firstHdrIdx, firstHdrIdx]
      by_cases ho : o.isSome
      · simp [ho]
      · rw [ih rest (by simpa using hp)]
        simp only [ho, Bool.false_eq_true, if_false]
        by_cases hpf : p ≤ firstHdrIdx rest
        · rw [if_pos hpf, if_pos (show p + 1 ≤ firstHdrIdx rest + 1 by omega)]
        · rw [if_neg hpf, if_neg (show ¬(p + 1 ≤ firstHdrIdx rest + 1) by omega)]

theorem lookupRange_insertIdx_none {L : List Line} {x : Line} {p : Nat}
    (hx : headerName? x = Option.none) (hp : p ≤ L.length) (s : Line) :
    lookupRange (L.insertIdx p x) s =
      (lookupRange L s).map
        (fun r => (if p ≤ r.1 then r.1 + 1 else r.1, if p ≤ r.2 then r.2 + 1 else r.2)) := by
  rw [lookupRange_eq, lookupRange_eq]
  have hmap : (L.insertIdx p x).map headerName? =
      (L.map headerName?).insertIdx p Option.none := by
    rw [map_insertIdx_gen, hx]
  rw [hmap]
  have hlen : p ≤ (L.map headerName?).length := by simpa using hp
  rw [lastHdrIdx_insertIdx_none s p _ hlen]
  cases hj : lastHdrIdx (L.map headerName?) s with
  | none => simp
  | some j =>
    simp only [Option.map_some']
    by_cases hpj : p ≤ j
    · simp only [if_pos hpj]
      rw [drop_insertIdx_ge Option.none p (j + 1 + 1) _ (by omega) hlen]
      have he : j + 1 + 1 - 1 = j + 1 := by omega
      rw [he]
      simp only [Option.some.injEq, Prod.mk.injEq]
      refine ⟨by trivial, ?_⟩
      rw [if_pos (show p ≤ j + 1 + firstHdrIdx ((L.map headerName?).drop (j + 1)) by omega)]
      omega
    · simp only [if_neg hpj]
      rw [drop_insertIdx_le Option.none p (j + 1) _ (by omega) hlen]
      rw [firstHdrIdx_insertIdx_none (p - (j + 1)) _ (by rw [List.length_drop]; omega)]
      by_cases hpf : p - (j + 1) ≤ firstHdrIdx ((L.map headerName?).drop (j + 1))
      · rw [if_pos hpf]
        simp only [Option.some.injEq, Prod.mk.injEq]
        refine ⟨by trivial, ?_⟩
        rw [if_pos (show p ≤ j + 1 + firstHdrIdx ((L.map headerName?).drop (j + 1)) by omega)]
        omega
      · rw [if_neg hpf]
        simp only [Option.some.injEq, Prod.mk.injEq]
        refine ⟨by trivial, ?_⟩
        rw [if_neg (show ¬(p ≤ j + 1 + firstHdrIdx ((L.map headerName?).drop (j + 1))) by omega)]

theorem lastHdrIdx_eq_none_of_forall {hl : List (Option Line)} {s : Line}
    (h : ∀ o ∈ hl, o ≠ some s) : lastHdrIdx hl s = Option.none := by
  cases hj : lastHdrIdx hl s with
  | none => rfl
  | some j =>
    have hg := lastHdrIdx_getElem hj
    exact absurd rfl (h _ (mem_of_getElem? hg))

theorem lookupRange_append_tail {L : List Line} (T : List Line) {s : Line}
    (hT : ∀ l ∈ T, headerName? l ≠ some s) :
    lookupRange (L ++ T) s =
      match lookupRange L s with
      | Option.none => Option.none
      | some (a, b) =>
          some (a, if b = L.length then L.length + firstHdrIdx (T.map headerName?) else b) := by
  rw [lookupRange_eq, lookupRange_eq]
  rw [List.map_append]
  have hTnone : lastHdrIdx (T.map headerName?) s = Option.none := by
    apply lastHdrIdx_eq_none_of_forall
    intro o ho hos
    rw [List.mem_map] at ho
    obtain ⟨l, hl, hol⟩ := ho
    exact hT l hl (by rw [hol, hos])
  rw [lastHdrIdx_append, hTnone]
  dsimp only
  cases hj : lastHdrIdx (L.map headerName?) s with
  | none => rfl
  | some j =>
    dsimp only
    have hjlen := lastHdrIdx_lt_length hj
    have hdropA : ((L.map headerName?) ++ T.map headerName?).drop (j + 1) =
        (L.map headerName?).drop (j + 1) ++ T.map headerName? :=
      List.drop_append_of_le_length (by omega)
    rw [hdropA]
    have hfle := firstHdrIdx_le_length ((L.map headerName?).drop (j + 1))
    rw [List.length_drop] at hfle
    by_cases hlt : firstHdrIdx ((L.map headerName?).drop (j + 1)) <
        (L.map headerName?).length - (j + 1)
    · rw [firstHdrIdx_append_some _ _ (by rw [List.length_drop]; omega)]
      have hbne : ¬(j + 1 + firstHdrIdx ((L.map headerName?).drop (j + 1)) = L.length) := by
        rw [List.length_map] at hlt hjlen
        omega
      rw [if_neg hbne]
    · have hfeq : firstHdrIdx ((L.map headerName?).drop (j + 1)) =
          ((L.map headerName?).drop (j + 1)).length := by
        rw [List.length_drop]
        omega
      have hallnone : ∀ o ∈ (L.map headerName?).drop (j + 1), o = Option.none := by
        have htk := firstHdrIdx_take_none ((L.map headerName?).drop (j + 1))
        rw [hfeq, List.take_length] at htk
        exact htk
      rw [firstHdrIdx_append_none _ _ hallnone]
      have hbeq : j + 1 + firstHdrIdx ((L.map headerName?).drop (j + 1)) = L.length := by
        rw [List.length_drop] at hfeq
        rw [hfeq]
        rw [List.length_map] at hjlen ⊢
        omega
      rw [if_pos hbeq, List.length_drop]
      simp only [Option.some.injEq, Prod.mk.injEq]
      refine ⟨by trivial, ?_⟩
      rw [List.length_map] at hjlen ⊢
      omega

theorem scanKey_eq_none {L : List Line} {k : Line} :
    ∀ (cnt i : Nat), (∀ u lu, i ≤ u → u < i + cnt → L[u]? = some lu →
      keyMatch k (rstripNl lu) = Option.none) → scanKey L k i cnt = Option.none := by
  intro cnt
  induction cnt with
  | zero => intro i _; rfl
  | succ cnt ih =>
    intro i h
    rw [scanKey]
    cases hg : L[i]? with
    | none => rfl
    | some l =>
      dsimp only
      have hm := h i l (le_refl i) (by omega) hg
      rw [hm]
      exact ih (i + 1) (fun u lu h1 h2 hgu => h u lu (by omega) (by omega) hgu)

theorem getElem?_insertIdx_self {α : Type} {l : List α} {p : Nat} {x : α}
    (hp : p ≤ l.length) : (l.insertIdx p x)[p]? = some x := by
  rw [insertIdx_eq_take_drop_gen x p l hp]
  rw [List.getElem?_append_right (by rw [List.length_take]; omega)]
  rw [List.length_take, Nat.min_eq_left hp, Nat.sub_self]
  exact List.getElem?_cons_zero

/-! ## Well-formedness facts and the shape of `_ensure_section`. -/

theorem endsNl_of_wfLine {l : Line} (h : WfNlLine l) : endsNl l = true := by
  obtain ⟨b, hb, _⟩ := h
  rw [hb]
  exact endsNl_append_newline b

theorem allEndNl_of_wf {L : List Line} (h : WfLines L) : AllEndNl L :=
  fun l hl => endsNl_of_wfLine (h l hl)

theorem fixLastNl_of_allEnd {L : List Line} (h : AllEndNl L) : fixLastNl L = L := by
  unfold fixLastNl
  cases hl : L.getLast? with
  | none => rfl
  | some last =>
    obtain ⟨b, hb⟩ := List.getLast?_eq_some_iff.mp hl
    have hmem : last ∈ L := by
      rw [hb]
      simp
    dsimp only
    rw [h last hmem]
    simp

theorem ensureSection_missing {L : List Line} {s : Line} (h : AllEndNl L)
    (hr : lookupRange L s = Option.none) :
    ∃ E, (E = ([] : List Line) ∨ E = [['\n']]) ∧
      ensureSection L s = (L ++ E) ++ ['[' :: (s ++ [']', '\n'])] := by
  unfold ensureSection
  rw [hr]
  simp only [Option.isSome_none, Bool.false_eq_true, if_false]
  rw [fixLastNl_of_allEnd h]
  unfold maybeBlank
  cases hl : L.getLast? with
  | none =>
    refine ⟨[], Or.inl rfl, ?_⟩
    simp
  | some last =>
    dsimp only
    by_cases ht : trimChars last ≠ []
    · refine ⟨[['\n']], Or.inr rfl, ?_⟩
      rw [if_pos ht]
    · refine ⟨[], Or.inl rfl, ?_⟩
      rw [if_neg ht]
      simp

theorem goodSection_header {s : Line} (hs : goodSection s = true) :
    headerName? ('[' :: (s ++ [']', '\n'])) = some s := by
  unfold goodSection at hs
  simp only [Bool.and_eq_true, beq_iff_eq] at hs
  exact hs.1

theorem goodSection_no_newline {s : Line} (hs : goodSection s = true) : '\n' ∉ s := by
  unfold goodSection at hs
  simp only [Bool.and_eq_true, List.all_eq_true] at hs
  intro hmem
  have := hs.2 '\n' hmem
  simp [isValChar] at this

theorem wf_header {s : Line} (hs : goodSection s = true) :
    WfNlLine ('[' :: (s ++ [']', '\n'])) := by
  refine ⟨'[' :: (s ++ [']']), by simp, ?_⟩
  intro hmem
  rcases List.mem_cons.mp hmem with hc | hc
  · cases hc
  · rcases List.mem_append.mp hc with hc | hc
    · exact goodSection_no_newline hs hc
    · simp at hc

theorem wf_blank : WfNlLine ['\n'] := ⟨[], rfl, by simp⟩

theorem endsNl_header (s : Line) : endsNl ('[' :: (s ++ [']', '\n'])) = true := by
  have he : '[' :: (s ++ [']', '\n']) = ('[' :: (s ++ [']'])) ++ ['\n'] := by simp
  rw [he]
  exact endsNl_append_newline _

theorem keyMatch_nil {k : Line} (hk : goodKey k = true) :
    keyMatch k [] = Option.none := by
  obtain ⟨c, t, hkc, _, _, _⟩ := goodKey_cons hk
  subst hkc
  rfl

theorem rstripNl_blank : rstripNl ['\n'] = [] := by decide

theorem wf_mkKeyLine {k v : Line} (hk : goodKey k = true) (hv : cleanVal v = true) :
    WfNlLine (mkKeyLine k v) := by
  obtain ⟨_, _, _, _, _, hkall⟩ := goodKey_cons hk
  obtain ⟨_, _, _, _, hvall⟩ := cleanVal_cons hv
  refine ⟨k ++ (' ' :: ':' :: ' ' :: v), mkKeyLine_eq k v, ?_⟩
  intro hmem
  rcases List.mem_append.mp hmem with hc | hc
  · exact no_newline_of_allVal hkall hc
  · rcases List.mem_cons.mp hc with hc | hc
    · cases hc
    · rcases List.mem_cons.mp hc with hc | hc
      · cases hc
      · rcases List.mem_cons.mp hc with hc | hc
        · cases hc
        · exact no_newline_of_allVal hvall hc

/-! ## `AllEndNl` and `WfLines` preservation along `_set_key`. -/

theorem allEndNl_ensureSection {L : List Line} (s : Line) (h : AllEndNl L) :
    AllEndNl (ensureSection L s) := by
  by_cases hr : (lookupRange L s).isSome
  · rw [ensureSection_of_isSome hr]
    exact h
  · have hrn : lookupRange L s = Option.none := by
      cases hc : lookupRange L s with
      | none => rfl
      | some r => rw [hc] at hr; simp at hr
    obtain ⟨E, hE, heq⟩ := ensureSection_missing h hrn
    rw [heq]
    intro x hx
    rcases List.mem_append.mp hx with hx | hx
    · rcases List.mem_append.mp hx with hx | hx
      · exact h x hx
      · rcases hE with hE | hE <;> subst hE
        · simp at hx
        · rw [List.mem_singleton.mp hx]
          exact endsNl_of_wfLine wf_blank
    · rw [List.mem_singleton.mp hx]
      exact endsNl_header s

theorem endsNl_rewritten (g1 v g3 : Line) :
    endsNl (g1 ++ v ++ g3 ++ ['\n']) = true := by
  have he : g1 ++ v ++ g3 ++ ['\n'] = (g1 ++ (v ++ g3)) ++ ['\n'] := by simp
  rw [he]
  exact endsNl_append_newline _

theorem insertPos_le_length {L : List Line} {s : Line} {st en : Nat}
    (hr : lookupRange L s = some (st, en)) : insertPos L st en ≤ L.length := by
  obtain ⟨hab, hbl⟩ := lookupRange_start_lt hr
  have h3 := @insertPos_le L st en (by omega)
  omega

theorem allEndNl_setKey {L : List Line} (s k v : Line) (h : AllEndNl L) :
    AllEndNl (setKey L s k v) := by
  have h1 : AllEndNl (ensureSection L s) := allEndNl_ensureSection s h
  unfold setKey
  dsimp only
  cases hfk : findKey (ensureSection L s) s k with
  | some p =>
    obtain ⟨idx, g1, g2, g3⟩ := p
    dsimp only
    obtain ⟨a, b, _, _, _, ⟨lt, hget, _⟩, _⟩ := findKey_some hfk
    intro x hx
    rcases List.mem_or_eq_of_mem_set hx with hx | hx
    · exact h1 x hx
    · subst hx
      rw [hget]
      show endsNl (g1 ++ v ++ g3 ++ (if endsNl lt = true then ['\n'] else [])) = true
      rw [h1 lt (mem_of_getElem? hget), if_pos rfl]
      exact endsNl_rewritten g1 v g3
  | none =>
    dsimp only
    cases hlr : lookupRange (ensureSection L s) s with
    | none => exact h1
    | some r =>
      obtain ⟨st, en⟩ := r
      dsimp only
      intro x hx
      rcases (List.mem_insertIdx (insertPos_le_length hlr)).mp hx with hx | hx
      · subst hx
        exact endsNl_mkKeyLine k v
      · exact h1 x hx

theorem wfLines_ensureSection {L : List Line} {s : Line} (hs : goodSection s = true)
    (h : WfLines L) : WfLines (ensureSection L s) := by
  by_cases hr : (lookupRange L s).isSome
  · rw [ensureSection_of_isSome hr]
    exact h
  · have hrn : lookupRange L s = Option.none := by
      cases hc : lookupRange L s with
      | none => rfl
      | some r => rw [hc] at hr; simp at hr
    obtain ⟨E, hE, heq⟩ := ensureSection_missing (allEndNl_of_wf h) hrn
    rw [heq]
    intro x hx
    rcases List.mem_append.mp hx with hx | hx
    · rcases List.mem_append.mp hx with hx | hx
      · exact h x hx
      · rcases hE with hE | hE <;> subst hE
        · simp at hx
        · rw [List.mem_singleton.mp hx]
          exact wf_blank
    · rw [List.mem_singleton.mp hx]
      exact wf_header hs

theorem wf_rewritten {k lt g1 g2 g3 v : Line} (hlt : WfNlLine lt)
    (hm : keyMatch k (rstripNl lt) = some (g1, g2, g3)) (hv : cleanVal v = true) :
    WfNlLine (g1 ++ v ++ g3 ++ ['\n']) := by
  obtain ⟨bt, hbt, hnt⟩ := hlt
  have hrs : rstripNl lt = bt := by
    rw [hbt]
    exact rstripNl_append_newline hnt
  obtain ⟨_, _, _, _, _, _, _, _, _, _, hl, _, _, _⟩ := keyMatch_struct hm
  rw [hrs] at hl
  obtain ⟨_, _, _, _, hvall⟩ := cleanVal_cons hv
  refine ⟨g1 ++ (v ++ g3), by simp, ?_⟩
  intro hmem
  rcases List.mem_append.mp hmem with hc | hc
  · exact hnt (by rw [hl]; simp [hc])
  · rcases List.mem_append.mp hc with hc | hc
    · exact no_newline_of_allVal hvall hc
    · exact hnt (by rw [hl]; simp [hc])

theorem wfLines_setKey {L : List Line} {s k v : Line} (hs : goodSection s = true)
    (hk : goodKey k = true) (hv : cleanVal v = true) (h : WfLines L) :
    WfLines (setKey L s k v) := by
  have h1 : WfLines (ensureSection L s) := wfLines_ensureSection hs h
  unfold setKey
  dsimp only
  cases hfk : findKey (ensureSection L s) s k with
  | some p =>
    obtain ⟨idx, g1, g2, g3⟩ := p
    dsimp only
    obtain ⟨a, b, _, _, _, ⟨lt, hget, hm⟩, _⟩ := findKey_some hfk
    intro x hx
    rcases List.mem_or_eq_of_mem_set hx with hx | hx
    · exact h1 x hx
    · subst hx
      rw [hget]
      show WfNlLine (g1 ++ v ++ g3 ++ (if endsNl lt = true then ['\n'] else []))
      rw [endsNl_of_wfLine (h1 lt (mem_of_getElem? hget)), if_pos rfl]
      exact wf_rewritten (h1 lt (mem_of_getElem? hget)) hm hv
  | none =>
    dsimp only
    cases hlr : lookupRange (ensureSection L s) s with
    | none => exact h1
    | some r =>
      obtain ⟨st, en⟩ := r
      dsimp only
      intro x hx
      rcases (List.mem_insertIdx (insertPos_le_length hlr)).mp hx with hx | hx
      · subst hx
        exact wf_mkKeyLine hk hv
      · exact h1 x hx

/-! ## Constructing `_find_key` results. -/

theorem findKey_intro {L : List Line} {s k : Line} {a b t : Nat} {lt : Line} {g : Line × Line × Line}
    (hr : lookupRange L s = some (a, b)) (ht1 : a < t) (ht2 : t < b)
    (hget : L[t]? = some lt) (hm : keyMatch k (rstripNl lt) = some g)
    (hbefore : ∀ u lu, a < u → u < t → L[u]? = some lu →
      keyMatch k (rstripNl lu) = Option.none) :
    findKey L s k = some (t, g) := by
  unfold findKey
  rw [hr]
  dsimp only
  exact scanKey_first (by omega) (by omega) hget hm
    (fun u lu h1 h2 hgu => hbefore u lu (by omega) h2 hgu)

theorem findKey_eq_none {L : List Line} {s k : Line} {a b : Nat}
    (hr : lookupRange L s = some (a, b))
    (hall : ∀ u lu, a < u → u < b → L[u]? = some lu →
      keyMatch k (rstripNl lu) = Option.none) :
    findKey L s k = Option.none := by
  unfold findKey
  rw [hr]
  dsimp only
  exact scanKey_eq_none _ _ (fun u lu h1 h2 hgu => hall u lu (by omega) (by omega) hgu)

theorem findKey_none_of_range_none {L : List Line} {s k : Line} (hr : lookupRange L s = Option.none) :
    findKey L s k = Option.none := by
  unfold findKey
  rw [hr]

theorem keyLineG_none_of_range_none {L : List Line} {s k : Line}
    (hr : lookupRange L s = Option.none) : keyLineG L s k = Option.none := by
  unfold keyLineG
  rw [findKey_none_of_range_none hr]

/-! ## `keyLineG` is unchanged by surgery that cannot produce a match. -/

theorem keyLineG_set_other {L : List Line} {s' k' : Line} {idx : Nat} {old nline : Line}
    (hget : L[idx]? = some old)
    (hh : headerName? nline = headerName? old)
    (hold : keyMatch k' (rstripNl old) = Option.none)
    (hnew : keyMatch k' (rstripNl nline) = Option.none) :
    keyLineG (L.set idx nline) s' k' = keyLineG L s' k' := by
  have hlr : ∀ t, lookupRange (L.set idx nline) t = lookupRange L t :=
    fun t => lookupRange_congr (map_headerName_set hget hh) t
  cases hfk : findKey L s' k' with
  | some pr =>
    obtain ⟨t, g⟩ := pr
    obtain ⟨a, b, hr, ht1, ht2, ⟨lt, hgett, hmt⟩, hbef⟩ := findKey_some hfk
    have htne : t ≠ idx := by
      intro he
      subst he
      rw [hget] at hgett
      injection hgett with he2
      rw [← he2] at hmt
      rw [hmt] at hold
      cases hold
    have hget2 : (L.set idx nline)[t]? = L[t]? := List.getElem?_set_ne (fun he => htne he.symm)
    have hfk2 : findKey (L.set idx nline) s' k' = some (t, g) := by
      apply findKey_intro (by rw [hlr]; exact hr) ht1 ht2 (by rw [hget2]; exact hgett) hmt
      intro u lu hu1 hu2 hgu
      by_cases hui : u = idx
      · subst hui
        rw [List.getElem?_set_self', hget] at hgu
        simp only [Option.map_eq_map, Option.map_some', Function.const_apply,
          Option.some.injEq] at hgu
        rw [← hgu]
        exact hnew
      · rw [List.getElem?_set_ne (fun he => hui he.symm)] at hgu
        exact hbef u lu hu1 hu2 hgu
    unfold keyLineG
    rw [hfk, hfk2]
    dsimp only
    rw [hget2]
  | none =>
    cases hr : lookupRange L s' with
    | none =>
      rw [keyLineG_none_of_range_none hr,
        keyLineG_none_of_range_none (by rw [hlr]; exact hr)]
    | some r =>
      obtain ⟨a, b⟩ := r
      have hall := findKey_none hfk hr
      have hfk2 : findKey (L.set idx nline) s' k' = Option.none := by
        apply findKey_eq_none (by rw [hlr]; exact hr)
        intro u lu hu1 hu2 hgu
        by_cases hui : u = idx
        · subst hui
          rw [List.getElem?_set_self', hget] at hgu
          simp only [Option.map_eq_map, Option.map_some', Function.const_apply,
            Option.some.injEq] at hgu
          rw [← hgu]
          exact hnew
        · rw [List.getElem?_set_ne (fun he => hui he.symm)] at hgu
          exact hall u lu hu1 hu2 hgu
      unfold keyLineG
      rw [hfk, hfk2]

theorem keyLineG_insert_other {L : List Line} {s' k' : Line} {p : Nat} {x : Line}
    (hp : p ≤ L.length) (hhx : headerName? x = Option.none)
    (hxm : keyMatch k' (rstripNl x) = Option.none) :
    keyLineG (L.insertIdx p x) s' k' = keyLineG L s' k' := by
  have hlr := lookupRange_insertIdx_none hhx hp s'
  cases hfk : findKey L s' k' with
  | some pr =>
    obtain ⟨t, g⟩ := pr
    obtain ⟨a, b, hr, ht1, ht2, ⟨lt, hgett, hmt⟩, hbef⟩ := findKey_some hfk
    obtain ⟨hab, hbl⟩ := lookupRange_start_lt hr
    have hr2 : lookupRange (L.insertIdx p x) s' =
        some (if p ≤ a then a + 1 else a, if p ≤ b then b + 1 else b) := by
      rw [hlr, hr]
      rfl
    by_cases hpt : p ≤ t
    · have hfk2 : findKey (L.insertIdx p x) s' k' = some (t + 1, g) := by
        apply findKey_intro hr2 ?_ ?_ ?_ hmt ?_
        · split <;> omega
        · rw [if_pos (show p ≤ b by omega)]
          omega
        · rw [getElem?_insertIdx_ge hp hpt]
          exact hgett
        · intro u lu hu1 hu2 hgu
          by_cases hup : u = p
          · subst hup
            rw [getElem?_insertIdx_self hp] at hgu
            injection hgu with he
            rw [← he]
            exact hxm
          · by_cases hul : u < p
            · rw [getElem?_insertIdx_lt hp hul] at hgu
              apply hbef u lu ?_ (by omega) hgu
              split at hu1 <;> omega
            · have hgu2 : L[u - 1]? = some lu := by
                have hge := @getElem?_insertIdx_ge _ L p (u - 1) x hp (by omega)
                rw [show u - 1 + 1 = u by omega] at hge
                rw [hge] at hgu
                exact hgu
              apply hbef (u - 1) lu ?_ (by omega) hgu2
              split at hu1 <;> omega
      unfold keyLineG
      rw [hfk, hfk2]
      dsimp only
      rw [getElem?_insertIdx_ge hp hpt]
    · have hfk2 : findKey (L.insertIdx p x) s' k' = some (t, g) := by
        apply findKey_intro hr2 ?_ ?_ ?_ hmt ?_
        · rw [if_neg (show ¬p ≤ a by omega)]
          omega
        · split <;> omega
        · rw [getElem?_insertIdx_lt hp (by omega)]
          exact hgett
        · intro u lu hu1 hu2 hgu
          rw [if_neg (show ¬p ≤ a by omega)] at hu1
          rw [getElem?_insertIdx_lt hp (by omega)] at hgu
          exact hbef u lu hu1 hu2 hgu
      unfold keyLineG
      rw [hfk, hfk2]
      dsimp only
      rw [getElem?_insertIdx_lt hp (by omega)]
  | none =>
    cases hr : lookupRange L s' with
    | none =>
      have hr2 : lookupRange (L.insertIdx p x) s' = Option.none := by
        rw [hlr, hr]
        rfl
      rw [keyLineG_none_of_range_none hr, keyLineG_none_of_range_none hr2]
    | some r =>
      obtain ⟨a, b⟩ := r
      have hall := findKey_none hfk hr
      obtain ⟨hab, hbl⟩ := lookupRange_start_lt hr
      have hr2 : lookupRange (L.insertIdx p x) s' =
          some (if p ≤ a then a + 1 else a, if p ≤ b then b + 1 else b) := by
        rw [hlr, hr]
        rfl
      have hfk2 : findKey (L.insertIdx p x) s' k' = Option.none := by
        apply findKey_eq_none hr2
        intro u lu hu1 hu2 hgu
        by_cases hup : u = p
        · subst hup
          rw [getElem?_insertIdx_self hp] at hgu
          injection hgu with he
          rw [← he]
          exact hxm
        · by_cases hul : u < p
          · rw [getElem?_insertIdx_lt hp hul] at hgu
            apply hall u lu ?_ ?_ hgu
            · split at hu1 <;> omega
            · split at hu2 <;> omega
          · have hgu2 : L[u - 1]? = some lu := by
              have hge := @getElem?_insertIdx_ge _ L p (u - 1) x hp (by omega)
              rw [show u - 1 + 1 = u by omega] at hge
              rw [hge] at hgu
              exact hgu
            apply hall (u - 1) lu ?_ ?_ hgu2
            · split at hu1 <;> omega
            · split at hu2 <;> omega
      unfold keyLineG
      rw [hfk, hfk2]

theorem keyLineG_append_other {L : List Line} (T : List Line) {s' k' : Line}
    (hT1 : ∀ l ∈ T, headerName? l ≠ some s')
    (hT2 : ∀ u lu, u < firstHdrIdx (T.map headerName?) → T[u]? = some lu →
      keyMatch k' (rstripNl lu) = Option.none) :
    keyLineG (L ++ T) s' k' = keyLineG L s' k' := by
  have hlr := @lookupRange_append_tail L T s' hT1
  cases hfk : findKey L s' k' with
  | some pr =>
    obtain ⟨t, g⟩ := pr
    obtain ⟨a, b, hr, ht1, ht2, ⟨lt, hgett, hmt⟩, hbef⟩ := findKey_some hfk
    obtain ⟨hab, hbl⟩ := lookupRange_start_lt hr
    have hr2 : lookupRange (L ++ T) s' = some (a,
        if b = L.length then L.length + firstHdrIdx (T.map headerName?) else b) := by
      rw [hlr, hr]
    have hfk2 : findKey (L ++ T) s' k' = some (t, g) := by
      apply findKey_intro hr2 ht1 ?_ ?_ hmt ?_
      · split <;> omega
      · rw [List.getElem?_append_left (by omega)]
        exact hgett
      · intro u lu hu1 hu2 hgu
        rw [List.getElem?_append_left (by omega)] at hgu
        exact hbef u lu hu1 hu2 hgu
    unfold keyLineG
    rw [hfk, hfk2]
    dsimp only
    rw [List.getElem?_append_left (by omega)]
  | none =>
    cases hr : lookupRange L s' with
    | none =>
      have hr2 : lookupRange (L ++ T) s' = Option.none := by
        rw [hlr, hr]
      rw [keyLineG_none_of_range_none hr, keyLineG_none_of_range_none hr2]
    | some r =>
      obtain ⟨a, b⟩ := r
      have hall := findKey_none hfk hr
      obtain ⟨hab, hbl⟩ := lookupRange_start_lt hr
      have hr2 : lookupRange (L ++ T) s' = some (a,
          if b = L.length then L.length + firstHdrIdx (T.map headerName?) else b) := by
        rw [hlr, hr]
      have hfk2 : findKey (L ++ T) s' k' = Option.none := by
        apply findKey_eq_none hr2
        intro u lu hu1 hu2 hgu
        by_cases hu : u < L.length
        · rw [List.getElem?_append_left hu] at hgu
          apply hall u lu hu1 ?_ hgu
          split at hu2 <;> omega
        · rw [List.getElem?_append_right (by omega)] at hgu
          apply hT2 (u - L.length) lu ?_ hgu
          split at hu2 <;> omega
      unfold keyLineG
      rw [hfk, hfk2]

/-! ## The shape of `_set_key` when the section is missing. -/

theorem headerName?_blank : headerName? ['\n'] = Option.none := by decide

theorem lookupRange_LEh {L E : List Line} {s : Line} (hs : goodSection s = true)
    (hE : ∀ l ∈ E, headerName? l = Option.none) :
    lookupRange ((L ++ E) ++ ['[' :: (s ++ [']', '\n'])]) s =
      some ((L ++ E).length, (L ++ E).length + 1) := by
  rw [lookupRange_eq]
  have hmap : (((L ++ E) ++ ['[' :: (s ++ [']', '\n'])]).map headerName?) =
      (L ++ E).map headerName? ++ [some s] := by
    rw [List.map_append]
    simp [goodSection_header hs]
  rw [hmap, lastHdrIdx_append]
  have h1 : lastHdrIdx [some s] s = some 0 := by
    simp [lastHdrIdx]
  rw [h1]
  dsimp only
  have hdrop : ((L ++ E).map headerName? ++ [some s]).drop
      (((L ++ E).map headerName?).length + 0 + 1) = [] := by
    apply List.drop_eq_nil_of_le
    simp
    omega
  rw [hdrop]
  simp [firstHdrIdx]

theorem setKey_missing {L : List Line} {s k : Line} (v : Line) (hend : AllEndNl L)
    (hs : goodSection s = true)
    (hrn : lookupRange L s = Option.none) :
    ∃ E, (E = ([] : List Line) ∨ E = [['\n']]) ∧
      setKey L s k v = L ++ (E ++ ('[' :: (s ++ [']', '\n'])) :: [mkKeyLine k v]) := by
  obtain ⟨E, hE, heq⟩ := ensureSection_missing hend hrn
  have hEnone : ∀ l ∈ E, headerName? l = Option.none := by
    intro l hl
    rcases hE with hE | hE <;> subst hE
    · simp at hl
    · rw [List.mem_singleton.mp hl]
      exact headerName?_blank
  have hrA := @lookupRange_LEh L E s hs hEnone
  have hfkA : findKey ((L ++ E) ++ ['[' :: (s ++ [']', '\n'])]) s k = Option.none := by
    apply findKey_eq_none hrA
    intro u lu h1 h2 _
    omega
  refine ⟨E, hE, ?_⟩
  unfold setKey
  dsimp only
  rw [heq, hfkA]
  dsimp only
  rw [hrA]
  dsimp only
  have hip : insertPos ((L ++ E) ++ ['[' :: (s ++ [']', '\n'])]) (L ++ E).length
      ((L ++ E).length + 1) = (L ++ E).length + 1 := by
    unfold insertPos
    rw [Nat.add_sub_cancel, Nat.sub_self]
    rfl
  rw [hip]
  have hlen : (L ++ E).length + 1 = (((L ++ E) ++ ['[' :: (s ++ [']', '\n'])])).length := by
    simp
    omega
  rw [hlen, List.insertIdx_length_self]
  simp

theorem lookupRange_appended_section {L E : List Line} {s k v : Line}
    (hs : goodSection s = true) (hk : goodKey k = true)
    (hE : ∀ l ∈ E, headerName? l = Option.none) :
    lookupRange (L ++ (E ++ ('[' :: (s ++ [']', '\n'])) :: [mkKeyLine k v])) s =
      some (L.length + E.length, L.length + E.length + 2) := by
  rw [lookupRange_eq]
  have hmap : ((L ++ (E ++ ('[' :: (s ++ [']', '\n'])) :: [mkKeyLine k v])).map headerName?) =
      (L.map headerName? ++ (E.map headerName? ++ [some s])) ++ [Option.none] := by
    rw [List.map_append, List.map_append]
    simp [goodSection_header hs, headerName?_none_mkKeyLine hk v]
  rw [hmap, lastHdrIdx_append]
  have h1 : lastHdrIdx [Option.none] s = Option.none := by
    simp [lastHdrIdx]
  rw [h1]
  rw [lastHdrIdx_append]
  have h2 : lastHdrIdx (E.map headerName? ++ [some s]) s = some E.length := by
    rw [lastHdrIdx_append]
    have h3 : lastHdrIdx [some s] s = some 0 := by
      simp [lastHdrIdx]
    rw [h3]
    simp
  rw [h2]
  dsimp only
  have hidx : (L.map headerName?).length + E.length + 1 =
      (L.map headerName? ++ (E.map headerName? ++ [some s])).length := by
    simp
    omega
  have hdrop : ((L.map headerName? ++ (E.map headerName? ++ [some s])) ++
      [Option.none]).drop ((L.map headerName?).length + E.length + 1) = [Option.none] := by
    rw [hidx]
    exact List.drop_left _ _
  rw [hdrop]
  have hf : firstHdrIdx [Option.none] = 1 := by
    simp [firstHdrIdx]
  rw [hf]
  simp only [Option.some.injEq, Prod.mk.injEq]
  constructor <;> simp

theorem getElem?_appended_mk {L E : List Line} {s k v : Line} :
    (L ++ (E ++ ('[' :: (s ++ [']', '\n'])) :: [mkKeyLine k v]))[L.length + E.length + 1]? =
      some (mkKeyLine k v) := by
  have he : L ++ (E ++ ('[' :: (s ++ [']', '\n'])) :: [mkKeyLine k v]) =
      (L ++ (E ++ [('[' :: (s ++ [']', '\n']))])) ++ [mkKeyLine k v] := by
    simp
  have hlen : L.length + E.length + 1 = (L ++ (E ++ [('[' :: (s ++ [']', '\n']))])).length := by
    simp
    omega
  rw [he, hlen]
  rw [List.getElem?_append_right (by omega)]
  rw [Nat.sub_self]
  rfl

/-! ## The frame step: a `_set_key` for one key leaves every other key's line alone. -/

theorem keyLineG_setKey_other {L : List Line} {s s' k k' : Line} (v : Line)
    (hend : AllEndNl L) (hk : goodKey k = true) (hk' : goodKey k' = true)
    (hs : goodSection s = true)
    (hnp1 : k.isPrefixOf k' = false) (hnp2 : k'.isPrefixOf k = false) :
    keyLineG (setKey L s k v) s' k' = keyLineG L s' k' := by
  by_cases hsome : (lookupRange L s).isSome
  · have hL1 : ensureSection L s = L := ensureSection_of_isSome hsome
    unfold setKey
    dsimp only
    rw [hL1]
    cases hfk : findKey L s k with
    | some p =>
      obtain ⟨idx, g1, g2, g3⟩ := p
      dsimp only
      obtain ⟨a, b, hr, hi1, hi2, ⟨lt, hget, hm⟩, _⟩ := findKey_some hfk
      obtain ⟨ws1, ws2, sep, ws3, hg1, _, hws1, hws2, hsep, hws3, _, _, _, _⟩ :=
        keyMatch_struct hm
      have hcond : endsNl ((L[idx]?).getD []) = true := by
        rw [hget]
        exact hend lt (mem_of_getElem? hget)
      rw [hcond, if_pos rfl]
      have hsh : g1 ++ v ++ g3 ++ ['\n'] =
          (ws1 ++ k ++ ws2 ++ sep :: ws3) ++ (v ++ (g3 ++ ['\n'])) := by
        rw [hg1]
        simp
      obtain ⟨R0, hR0⟩ := strip_of_keyMatch hm hk
      apply keyLineG_set_other hget ?_ (keyMatch_none_of_other hR0 hnp1 hnp2) ?_
      · rw [headerName?_none_of_keyMatch hm hk]
        obtain ⟨R1, hR1⟩ := @strip_g1_append k ws1 ws2 ws3 sep hk hws1 (v ++ (g3 ++ ['\n']))
        obtain ⟨c, t0, hkc, _, hcb, _⟩ := goodKey_cons hk
        have hstr : (g1 ++ v ++ g3 ++ ['\n']).dropWhile isPySpace = c :: (t0 ++ R1) := by
          rw [hsh, hR1, hkc]
          rfl
        exact headerName?_none_of_strip hstr hcb
      · obtain ⟨R2, hR2⟩ :=
          @strip_rstrip_g1_append k ws1 ws2 ws3 sep hk hws1 hsep (v ++ (g3 ++ ['\n']))
        rw [hsh]
        exact keyMatch_none_of_other hR2 hnp1 hnp2
    | none =>
      dsimp only
      cases hlr2 : lookupRange L s with
      | none =>
        rw [hlr2] at hsome
      | some r =>
        obtain ⟨st, en⟩ := r
        dsimp only
        exact keyLineG_insert_other (insertPos_le_length hlr2)
          (headerName?_none_mkKeyLine hk v) (keyMatch_none_mkKeyLine hk v hnp1 hnp2)
  · have hrn : lookupRange L s = Option.none := by
      cases hc : lookupRange L s with
      | none => rfl
      | some r => rw [hc] at hsome; simp at hsome
    obtain ⟨E, hE, heq⟩ := setKey_missing v hend hs hrn
    have hEnone : ∀ l ∈ E, headerName? l = Option.none := by
      intro l hl
      rcases hE with hE | hE <;> subst hE
      · simp at hl
      · rw [List.mem_singleton.mp hl]
        exact headerName?_blank
    rw [heq]
    by_cases hss : s' = s
    · subst hss
      rw [keyLineG_none_of_range_none hrn]
      have hr2 := @lookupRange_appended_section L E s' k v hs hk hEnone
      have hfk2 : findKey (L ++ (E ++ ('[' :: (s' ++ [']', '\n'])) :: [mkKeyLine k v]))
          s' k' = Option.none := by
        apply findKey_eq_none hr2
        intro u lu hu1 hu2 hgu
        have hu : u = L.length + E.length + 1 := by omega
        subst hu
        rw [getElem?_appended_mk] at hgu
        injection hgu with he2
        rw [← he2]
        exact keyMatch_none_mkKeyLine hk v hnp1 hnp2
      unfold keyLineG
      rw [hfk2]
    · apply keyLineG_append_other
      · intro l hl
        rcases List.mem_append.mp hl with hl | hl
        · rw [hEnone l hl]
          simp
        · rcases List.mem_cons.mp hl with hl | hl
          · rw [hl, goodSection_header hs]
            intro hcon
            injection hcon with hcon
            exact hss hcon.symm
          · rw [List.mem_singleton.mp hl, headerName?_none_mkKeyLine hk v]
            simp
      · intro u lu hu hgu
        rcases hE with hE | hE <;> subst hE
        · have hf : firstHdrIdx ((([] : List Line) ++ ('[' :: (s ++ [']', '\n'])) ::
              [mkKeyLine k v]).map headerName?) = 0 := by
            simp only [List.nil_append, List.map_cons, goodSection_header hs, firstHdrIdx]
            rfl
          rw [hf] at hu
          omega
        · have hf : firstHdrIdx ((([['\n']] : List Line) ++ ('[' :: (s ++ [']', '\n'])) ::
              [mkKeyLine k v]).map headerName?) = 1 := by
            simp only [List.cons_append, List.nil_append, List.map_cons, headerName?_blank,
              goodSection_header hs, firstHdrIdx]
            rfl
          rw [hf] at hu
          have hu0 : u = 0 := by omega
          subst hu0
          have hlu : lu = ['\n'] := by
            simp at hgu
            exact hgu.symm
          rw [hlu, rstripNl_blank]
          exact keyMatch_nil hk'

theorem setKey_of_writeNorm {M : List Line} {s k v : Line} (h : WriteNorm M s k v) :
    setKey M s k v = M := by
  obtain ⟨idx, g1, g2, g3, hfk, hget⟩ := h
  have hsome : (lookupRange M s).isSome := by
    obtain ⟨a, b, hr, _⟩ := findKey_some hfk
    rw [hr]
    rfl
  unfold setKey
  dsimp only
  rw [ensureSection_of_isSome hsome, hfk]
  dsimp only
  rw [hget]
  have hcond : endsNl ((some (g1 ++ v ++ g3 ++ ['\n']) : Option Line).getD []) = true := by
    show endsNl (g1 ++ v ++ g3 ++ ['\n']) = true
    exact endsNl_rewritten g1 v g3
  rw [hcond, if_pos rfl]
  exact set_getElem?_self hget

theorem writeNorm_iff_keyLineG {M : List Line} {s k v : Line} :
    WriteNorm M s k v ↔
      ∃ g1 g2 g3, keyLineG M s k = some (g1 ++ v ++ g3 ++ ['\n'], (g1, g2, g3)) := by
  constructor
  · rintro ⟨idx, g1, g2, g3, hfk, hget⟩
    refine ⟨g1, g2, g3, ?_⟩
    unfold keyLineG
    rw [hfk]
    dsimp only
    rw [hget]
    rfl
  · rintro ⟨g1, g2, g3, h⟩
    unfold keyLineG at h
    cases hfk : findKey M s k with
    | none =>
      rw [hfk] at h
      cases h
    | some p =>
      obtain ⟨idx, g⟩ := p
      rw [hfk] at h
      dsimp only at h
      simp only [Option.some.injEq, Prod.mk.injEq] at h
      obtain ⟨hline, hg⟩ := h
      obtain ⟨a, b, _, _, _, ⟨lt, hget, _⟩, _⟩ := findKey_some hfk
      refine ⟨idx, g1, g2, g3, ?_, ?_⟩
      · rw [hfk, hg]
      · rw [hget] at hline
        have hlt : lt = g1 ++ v ++ g3 ++ ['\n'] := hline
        rw [hget, hlt]

theorem writeNorm_setKey_other {M : List Line} {s s' k k' v' : Line}
    (hW : WriteNorm M s' k' v') (hend : AllEndNl M) (hk : goodKey k = true)
    (hk' : goodKey k' = true) (hs : goodSection s = true)
    (hnp1 : k.isPrefixOf k' = false) (hnp2 : k'.isPrefixOf k = false) (v : Line) :
    WriteNorm (setKey M s k v) s' k' v' := by
  rw [writeNorm_iff_keyLineG] at hW ⊢
  obtain ⟨g1, g2, g3, h⟩ := hW
  refine ⟨g1, g2, g3, ?_⟩
  rw [keyLineG_setKey_other v hend hk hk' hs hnp1 hnp2]
  exact h

theorem headerName?_none_rewritten {k v g1 g3 : Line} {ws1 ws2 ws3 : List Char} {sep : Char}
    (hk : goodKey k = true) (hg1 : g1 = ws1 ++ k ++ ws2 ++ sep :: ws3)
    (hws1 : ∀ c ∈ ws1, isPySpace c = true) :
    headerName? (g1 ++ v ++ g3 ++ ['\n']) = Option.none := by
  have hsh : g1 ++ v ++ g3 ++ ['\n'] =
      (ws1 ++ k ++ ws2 ++ sep :: ws3) ++ (v ++ (g3 ++ ['\n'])) := by
    rw [hg1]
    simp
  obtain ⟨R1, hR1⟩ := @strip_g1_append k ws1 ws2 ws3 sep hk hws1 (v ++ (g3 ++ ['\n']))
  obtain ⟨c, t0, hkc, _, hcb, _⟩ := goodKey_cons hk
  have hstr : (g1 ++ v ++ g3 ++ ['\n']).dropWhile isPySpace = c :: (t0 ++ R1) := by
    rw [hsh, hR1, hkc]
    rfl
  exact headerName?_none_of_strip hstr hcb

theorem tailMatch_semicolon (t0 : List Char) : tailMatch (';' :: t0) = Option.none := by
  unfold tailMatch
  dsimp only
  have hd : (';' :: t0).dropWhile isPySpace = ';' :: t0 := by
    rw [List.dropWhile_cons]
    simp [isPySpace]
  rw [hd]
  dsimp only
  rw [if_neg]
  simp

theorem keyMatch_mk_self {k v : Line} (hk : goodKey k = true) (hv : cleanVal v = true) :
    keyMatch k (rstripNl (mkKeyLine k v)) = some (k ++ [' ', ':', ' '], v, []) := by
  obtain ⟨c, t, hkc, _, _, hkall⟩ := goodKey_cons hk
  obtain ⟨cv, tv, hvc, _, hvall⟩ := cleanVal_cons hv
  have hnomk : '\n' ∉ k ++ (' ' :: ':' :: ' ' :: v) := by
    intro hc
    rcases List.mem_append.mp hc with hc | hc
    · exact no_newline_of_allVal hkall hc
    · rcases List.mem_cons.mp hc with hc | hc
      · cases hc
      · rcases List.mem_cons.mp hc with hc | hc
        · cases hc
        · rcases List.mem_cons.mp hc with hc | hc
          · cases hc
          · exact no_newline_of_allVal hvall hc
  have hrs : rstripNl (mkKeyLine k v) = k ++ (' ' :: ':' :: ' ' :: v) := by
    rw [mkKeyLine_eq]
    exact rstripNl_append_newline hnomk
  rw [hrs]
  have he : k ++ (' ' :: ':' :: ' ' :: v) =
      (([] : Line) ++ k ++ [' '] ++ ':' :: [' ']) ++ v ++ ([] : Line) := by
    simp
  rw [he, keyMatch_rebuild hk hv (by simp) (by intro x hx; simp at hx; simp [hx, isPySpace])
    (by intro x hx; simp at hx; simp [hx, isPySpace]) (Or.inl rfl) (Or.inl rfl)]
  simp

theorem writeNorm_setKey {L : List Line} {s k v : Line} (hw : WfLines L)
    (hs : goodSection s = true) (hk : goodKey k = true) (hv : cleanVal v = true) :
    WriteNorm (setKey L s k v) s k v := by
  have hend := allEndNl_of_wf hw
  by_cases hsome : (lookupRange L s).isSome
  · have hL1 : ensureSection L s = L := ensureSection_of_isSome hsome
    unfold setKey
    dsimp only
    rw [hL1]
    cases hfk : findKey L s k with
    | some p =>
      obtain ⟨idx, g1, g2, g3⟩ := p
      dsimp only
      obtain ⟨a, b, hr, hi1, hi2, ⟨lt, hget, hm⟩, hbef⟩ := findKey_some hfk
      obtain ⟨ws1, ws2, sep, ws3, hg1, _, hws1, hws2, hsep, hws3, hldec, _, hg3h, htm⟩ :=
        keyMatch_struct hm
      have hcond : endsNl ((L[idx]?).getD []) = true := by
        rw [hget]
        exact hend lt (mem_of_getElem? hget)
      rw [hcond, if_pos rfl]
      obtain ⟨bt, hbt, hnt⟩ := hw lt (mem_of_getElem? hget)

      have hrs : rstripNl lt = bt := by
        rw [hbt]
        exact rstripNl_append_newline hnt
      rw [hrs] at hldec
      have hnog1 : '\n' ∉ g1 := by
        intro hc
        exact hnt (by rw [hldec]; simp [hc])
      have hnog3 : '\n' ∉ g3 := by
        intro hc
        exact hnt (by rw [hldec]; simp [hc])
      obtain ⟨cv, tv, hvc, hvs, hvall⟩ := cleanVal_cons hv
      have hnov : '\n' ∉ v := no_newline_of_allVal hvall
      have hrsn : rstripNl (g1 ++ v ++ g3 ++ ['\n']) = g1 ++ v ++ g3 := by
        have he : g1 ++ v ++ g3 ++ ['\n'] = (g1 ++ v ++ g3) ++ ['\n'] := by simp
        rw [he]
        apply rstripNl_append_newline
        intro hc
        rcases List.mem_append.mp hc with hc | hc
        · rcases List.mem_append.mp hc with hc | hc
          · exact hnog1 hc
          · exact hnov hc
        · exact hnog3 hc
      have hg3 : g3 = [] ∨ ∃ cmt, g3 = '#' :: cmt ∧ '\n' ∉ cmt := by
        cases hg3c : g3 with
        | nil => exact Or.inl rfl
        | cons c0 t0 =>
          right
          have hcv : isValChar c0 = false := by
            rcases hg3h with h0 | h0
            · rw [hg3c] at h0
              cases h0
            · rw [hg3c] at h0
              simpa using h0
          have hc0n : c0 ≠ '\n' := by
            intro he
            exact hnog3 (by rw [hg3c, he]; simp)
          have hc0 : c0 = '#' ∨ c0 = ';' ∨ c0 = '\n' := by
            have h2 := hcv
            simp [isValChar] at h2
            tauto
          rcases hc0 with h | h | h
          · refine ⟨t0, by rw [h], ?_⟩
            intro hmem
            exact hnog3 (by rw [hg3c]; simp [hmem])
          · exfalso
            rw [hg3c, h] at htm
            rw [tailMatch_semicolon t0] at htm
            cases htm
          · exact absurd h hc0n
      have hrematch : keyMatch k (rstripNl (g1 ++ v ++ g3 ++ ['\n'])) = some (g1, v, g3) := by
        rw [hrsn, hg1, keyMatch_rebuild hk hv hws1 hws2 hws3 hsep hg3]
      have hh : headerName? (g1 ++ v ++ g3 ++ ['\n']) = headerName? lt := by
        rw [headerName?_none_of_keyMatch hm hk]
        exact headerName?_none_rewritten hk hg1 hws1
      have hr2 : lookupRange (L.set idx (g1 ++ v ++ g3 ++ ['\n'])) s = some (a, b) := by
        rw [lookupRange_congr (map_headerName_set hget hh) s]
        exact hr
      refine ⟨idx, g1, v, g3, ?_, ?_⟩
      · apply findKey_intro hr2 hi1 hi2 ?_ hrematch ?_
        · rw [List.getElem?_set_self', hget]
          rfl
        · intro u lu hu1 hu2 hgu
          rw [List.getElem?_set_ne (show idx ≠ u by omega)] at hgu
          exact hbef u lu hu1 hu2 hgu
      · rw [List.getElem?_set_self', hget]
        rfl
    | none =>
      dsimp only
      cases hlr2 : lookupRange L s with
      | none =>
        rw [hlr2] at hsome
        simp at hsome
      | some r =>
        obtain ⟨st, en⟩ := r
        dsimp only
        obtain ⟨hab, hbl⟩ := lookupRange_start_lt hlr2
        have hp1 : st + 1 ≤ insertPos L st en := insertPos_ge
        have hp2 : insertPos L st en ≤ en := insertPos_le (by omega)
        have hple : insertPos L st en ≤ L.length := insertPos_le_length hlr2
        have hall := findKey_none hfk hlr2
        have hr2 : lookupRange (L.insertIdx (insertPos L st en) (mkKeyLine k v)) s =
            some (st, en + 1) := by
          rw [lookupRange_insertIdx_none (headerName?_none_mkKeyLine hk v) hple s, hlr2]
          simp only [Option.map_some']
          rw [if_neg (show ¬(insertPos L st en ≤ st) by omega),
            if_pos (show insertPos L st en ≤ en by omega)]
        refine ⟨insertPos L st en, k ++ [' ', ':', ' '], v, [], ?_, ?_⟩
        · apply findKey_intro hr2 (by omega) (by omega) (getElem?_insertIdx_self hple)
            (keyMatch_mk_self hk hv) ?_
          intro u lu hu1 hu2 hgu
          rw [getElem?_insertIdx_lt hple hu2] at hgu
          exact hall u lu hu1 (by omega) hgu
        · rw [getElem?_insertIdx_self hple, mkKeyLine_eq]
          simp
  · have hrn : lookupRange L s = Option.none := by
      cases hc : lookupRange L s with
      | none => rfl
      | some r => rw [hc] at hsome; simp at hsome
    obtain ⟨E, hE, heq⟩ := setKey_missing v hend hs hrn
    have hEnone : ∀ l ∈ E, headerName? l = Option.none := by
      intro l hl
      rcases hE with hE | hE <;> subst hE
      · simp at hl
      · rw [List.mem_singleton.mp hl]
        exact headerName?_blank
    rw [heq]
    have hr2 := @lookupRange_appended_section L E s k v hs hk hEnone
    refine ⟨L.length + E.length + 1, k ++ [' ', ':', ' '], v, [], ?_, ?_⟩
    · apply findKey_intro hr2 (by omega) (by omega) getElem?_appended_mk
        (keyMatch_mk_self hk hv) ?_
      intro u lu hu1 hu2 _
      omega
    · rw [getElem?_appended_mk, mkKeyLine_eq]
      simp

theorem applyUpdates_eq_fold (L : List Line) (u : UpdateSet) :
    applyUpdates L u = applyActs L (updActions u) := by
  obtain ⟨b, e⟩ := u
  cases b with
  | none =>
    cases e with
    | none => rfl
    | some eu =>
      obtain ⟨m⟩ := eu
      cases m <;> rfl
  | some bu =>
    obtain ⟨r, d, bl, t⟩ := bu
    cases e with
    | none => cases r <;> cases d <;> cases bl <;> cases t <;> rfl
    | some eu =>
      obtain ⟨m⟩ := eu
      cases m <;> cases r <;> cases d <;> cases bl <;> cases t <;> rfl

theorem fivePairs_good : ∀ q ∈ fivePairs, goodSection q.1 = true ∧ goodKey q.2 = true := by
  decide

theorem fivePairs_pairwise : fivePairs.Pairwise
    (fun q1 q2 => q1.2.isPrefixOf q2.2 = false ∧ q2.2.isPrefixOf q1.2 = false) := by
  decide

theorem map_optAct (s k : Line) (o : Option UVal) :
    (optAct s k o).map (fun a => (a.1, a.2.1)) =
      match o with
      | Option.none => []
      | some _ => [(s, k)] := by
  cases o <;> rfl

theorem updActions_sub (u : UpdateSet) :
    List.Sublist ((updActions u).map (fun a => (a.1, a.2.1))) fivePairs := by
  obtain ⟨b, e⟩ := u
  show List.Sublist ((baseActions b ++ epdActions e).map (fun a => (a.1, a.2.1))) fivePairs
  rw [List.map_append]
  have h4 : fivePairs = [(baseS, refreshK), (baseS, dataRangeK), (baseS, baseUrlK),
      (baseS, tickerK)] ++ [(epdS, modeK)] := rfl
  rw [h4]
  apply List.Sublist.append
  · cases b with
    | none => exact List.nil_sublist _
    | some bu =>
      obtain ⟨r, d, bl, t⟩ := bu
      simp only [baseActions, List.map_append, map_optAct]
      cases r <;> cases d <;> cases bl <;> cases t <;> (dsimp only; decide)
  · cases e with
    | none => exact List.nil_sublist _
    | some eu =>
      obtain ⟨m⟩ := eu
      simp only [epdActions, map_optAct]
      cases m <;> (dsimp only; decide)

theorem updActions_goodSK (u : UpdateSet) :
    ∀ a ∈ updActions u, goodSection a.1 = true ∧ goodKey a.2.1 = true := by
  intro a ha
  exact fivePairs_good _ ((updActions_sub u).subset (List.mem_map_of_mem _ ha))

theorem updActions_pairwise (u : UpdateSet) :
    (updActions u).Pairwise
      (fun a b => a.2.1.isPrefixOf b.2.1 = false ∧ b.2.1.isPrefixOf a.2.1 = false) := by
  have h1 := List.Pairwise.sublist (updActions_sub u) fivePairs_pairwise
  rw [List.pairwise_map] at h1
  exact h1

theorem updActions_good {u : UpdateSet} (hc : cleanUpdates u = true) :
    ∀ a ∈ updActions u,
      goodSection a.1 = true ∧ goodKey a.2.1 = true ∧ cleanVal a.2.2 = true := by
  intro a ha
  have hsk := updActions_goodSK u a ha
  unfold cleanUpdates at hc
  rw [List.all_eq_true] at hc
  exact ⟨hsk.1, hsk.2, hc a ha⟩

theorem mem_optAct {s k : Line} {o : Option UVal} {a : Line × Line × Line}
    (ha : a ∈ optAct s k o) : ∃ x, o = some x ∧ a = (s, k, pyStr x) := by
  cases o with
  | none => simp [optAct] at ha
  | some x =>
    simp [optAct] at ha
    exact ⟨x, rfl, ha⟩

theorem updActions_source {u : UpdateSet} {a : Line × Line × Line}
    (ha : a ∈ updActions u) :
    (∃ bu x, u.base = some bu ∧ bu.refresh = some x ∧ a = (baseS, refreshK, pyStr x)) ∨
    (∃ bu x, u.base = some bu ∧ bu.dataRange = some x ∧ a = (baseS, dataRangeK, pyStr x)) ∨
    (∃ bu x, u.base = some bu ∧ bu.baseUrl = some x ∧ a = (baseS, baseUrlK, pyStr x)) ∨
    (∃ bu x, u.base = some bu ∧ bu.ticker = some x ∧ a = (baseS, tickerK, pyStr x)) ∨
    (∃ eu x, u.epd = some eu ∧ eu.mode = some x ∧ a = (epdS, modeK, pyStr x)) := by
  unfold updActions at ha
  rcases List.mem_append.mp ha with hb | he
  · cases hub : u.base with
    | none =>
      rw [hub] at hb
      simp [baseActions] at hb
    | some bu =>
      rw [hub] at hb
      unfold baseActions at hb
      rcases List.mem_append.mp hb with hb3 | h4
      · rcases List.mem_append.mp hb3 with hb2 | h3
        · rcases List.mem_append.mp hb2 with h1 | h2
          · obtain ⟨x, hx, hax⟩ := mem_optAct h1
            exact Or.inl ⟨bu, x, rfl, hx, hax⟩
          · obtain ⟨x, hx, hax⟩ := mem_optAct h2
            exact Or.inr (Or.inl ⟨bu, x, rfl, hx, hax⟩)
        · obtain ⟨x, hx, hax⟩ := mem_optAct h3
          exact Or.inr (Or.inr (Or.inl ⟨bu, x, rfl, hx, hax⟩))
      · obtain ⟨x, hx, hax⟩ := mem_optAct h4
        exact Or.inr (Or.inr (Or.inr (Or.inl ⟨bu, x, rfl, hx, hax⟩)))
  · cases hue : u.epd with
    | none =>
      rw [hue] at he
      simp [epdActions] at he
    | some eu =>
      rw [hue] at he
      unfold epdActions at he
      obtain ⟨x, hx, hax⟩ := mem_optAct he
      exact Or.inr (Or.inr (Or.inr (Or.inr ⟨eu, x, rfl, hx, hax⟩)))

/-! ## Transport and establishment along the action fold. -/

theorem keyLineG_applyActs (s' k' : Line) (hk' : goodKey k' = true) :
    ∀ (acts : List (Line × Line × Line)) (L : List Line), AllEndNl L →
      (∀ a ∈ acts, goodSection a.1 = true ∧ goodKey a.2.1 = true ∧
        a.2.1.isPrefixOf k' = false ∧ k'.isPrefixOf a.2.1 = false) →
      keyLineG (applyActs L acts) s' k' = keyLineG L s' k' := by
  intro acts
  induction acts with
  | nil => intro L _ _; rfl
  | cons a rest ih =>
    intro L hend hgood
    obtain ⟨hs, hk, hnp1, hnp2⟩ := hgood a (by simp)
    show keyLineG (applyActs (setKey L a.1 a.2.1 a.2.2) rest) s' k' = _
    rw [ih (setKey L a.1 a.2.1 a.2.2) (allEndNl_setKey _ _ _ hend)
      (fun b hb => hgood b (by simp [hb]))]
    exact keyLineG_setKey_other a.2.2 hend hk hk' hs hnp1 hnp2

theorem writeNorm_applyActs {s' k' v' : Line} (hk' : goodKey k' = true) :
    ∀ (acts : List (Line × Line × Line)) (M : List Line),
      WriteNorm M s' k' v' → AllEndNl M →
      (∀ a ∈ acts, goodSection a.1 = true ∧ goodKey a.2.1 = true ∧
        a.2.1.isPrefixOf k' = false ∧ k'.isPrefixOf a.2.1 = false) →
      WriteNorm (applyActs M acts) s' k' v' := by
  intro acts
  induction acts with
  | nil => intro M hW _ _; exact hW
  | cons a rest ih =>
    intro M hW hend hgood
    obtain ⟨hs, hk, hnp1, hnp2⟩ := hgood a (by simp)
    show WriteNorm (applyActs (setKey M a.1 a.2.1 a.2.2) rest) s' k' v'
    exact ih (setKey M a.1 a.2.1 a.2.2)
      (writeNorm_setKey_other hW hend hk hk' hs hnp1 hnp2 a.2.2)
      (allEndNl_setKey _ _ _ hend)
      (fun b hb => hgood b (by simp [hb]))

theorem wfLines_applyActs :
    ∀ (acts : List (Line × Line × Line)) (L : List Line), WfLines L →
      (∀ a ∈ acts, goodSection a.1 = true ∧ goodKey a.2.1 = true ∧ cleanVal a.2.2 = true) →
      WfLines (applyActs L acts) := by
  intro acts
  induction acts with
  | nil => intro L hw _; exact hw
  | cons a rest ih =>
    intro L hw hgood
    obtain ⟨hs, hk, hv⟩ := hgood a (by simp)
    exact ih (setKey L a.1 a.2.1 a.2.2) (wfLines_setKey hs hk hv hw)
      (fun b hb => hgood b (by simp [hb]))

theorem writeNorm_all :
    ∀ (acts : List (Line × Line × Line)) (L : List Line), WfLines L →
      (∀ a ∈ acts, goodSection a.1 = true ∧ goodKey a.2.1 = true ∧ cleanVal a.2.2 = true) →
      acts.Pairwise
        (fun a b => a.2.1.isPrefixOf b.2.1 = false ∧ b.2.1.isPrefixOf a.2.1 = false) →
      ∀ a ∈ acts, WriteNorm (applyActs L acts) a.1 a.2.1 a.2.2 := by
  intro acts
  induction acts with
  | nil =>
    intro L _ _ _ a ha
    simp at ha
  | cons a0 rest ih =>
    intro L hw hgood hpair a ha
    obtain ⟨hs0, hk0, hv0⟩ := hgood a0 (by simp)
    have hw1 : WfLines (setKey L a0.1 a0.2.1 a0.2.2) := wfLines_setKey hs0 hk0 hv0 hw
    rcases List.mem_cons.mp ha with ha | ha
    · subst ha
      have hWN : WriteNorm (setKey L a.1 a.2.1 a.2.2) a.1 a.2.1 a.2.2 :=
        writeNorm_setKey hw hs0 hk0 hv0
      show WriteNorm (applyActs (setKey L a.1 a.2.1 a.2.2) rest) a.1 a.2.1 a.2.2
      apply writeNorm_applyActs hk0 rest _ hWN (allEndNl_of_wf hw1)
      intro b hb
      obtain ⟨hsb, hkb, _⟩ := hgood b (by simp [hb])
      have hnp := (List.pairwise_cons.mp hpair).1 b hb
      exact ⟨hsb, hkb, hnp.2, hnp.1⟩
    · show WriteNorm (applyActs (setKey L a0.1 a0.2.1 a0.2.2) rest) a.1 a.2.1 a.2.2
      exact ih (setKey L a0.1 a0.2.1 a0.2.2) hw1 (fun b hb => hgood b (by simp [hb]))
        (List.pairwise_cons.mp hpair).2 a ha

theorem applyActs_id_of_writeNorm :
    ∀ (acts : List (Line × Line × Line)) (M : List Line),
      (∀ a ∈ acts, WriteNorm M a.1 a.2.1 a.2.2) → applyActs M acts = M := by
  intro acts
  induction acts with
  | nil => intro M _; rfl
  | cons a rest ih =>
    intro M hall
    show applyActs (setKey M a.1 a.2.1 a.2.2) rest = M
    rw [setKey_of_writeNorm (hall a (by simp))]
    exact ih M (fun b hb => hall b (by simp [hb]))

theorem applyUpdates_idem_lines {L : List Line} {u : UpdateSet} (hw : WfLines L)
    (hc : cleanUpdates u = true) :
    applyUpdates (applyUpdates L u) u = applyUpdates L u := by
  rw [applyUpdates_eq_fold, applyUpdates_eq_fold]
  exact applyActs_id_of_writeNorm _ _
    (writeNorm_all _ _ hw (updActions_good hc) (updActions_pairwise u))

theorem wfLines_applyUpdates {L : List Line} {u : UpdateSet} (hw : WfLines L)
    (hc : cleanUpdates u = true) : WfLines (applyUpdates L u) := by
  rw [applyUpdates_eq_fold]
  exact wfLines_applyActs _ _ hw (updActions_good hc)

/-! ## `readlines` on a newline-terminated file, and its inverse. -/

theorem splitAux_wf : ∀ (cs acc : List Char), cs.getLast? = some '\n' → '\n' ∉ acc →
    ∀ l ∈ splitAux cs acc, WfNlLine l := by
  intro cs
  induction cs with
  | nil =>
    intro acc h _
    simp at h
  | cons c rest ih =>
    intro acc hlast hacc l hl
    rw [splitAux] at hl
    by_cases hc : c = '\n'
    · rw [if_pos hc] at hl
      rcases List.mem_cons.mp hl with hl | hl
      · refine ⟨acc.reverse, ?_, ?_⟩
        · rw [hl, hc, List.reverse_cons]
        · intro hm
          exact hacc (List.mem_reverse.mp hm)
      · cases rest with
        | nil => simp [splitAux] at hl
        | cons c2 r2 =>
          apply ih [] ?_ (by simp) l hl
          rw [List.getLast?_cons_cons] at hlast
          exact hlast
    · rw [if_neg hc] at hl
      cases rest with
      | nil =>
        exfalso
        apply hc
        have h2 : ([c] : List Char).getLast? = some c := rfl
        rw [h2] at hlast
        injection hlast
      | cons c2 r2 =>
        apply ih (c :: acc) ?_ ?_ l hl
        · rw [List.getLast?_cons_cons] at hlast
          exact hlast
        · intro hm
          rcases List.mem_cons.mp hm with hm | hm
          · exact hc hm.symm
          · exact hacc hm

theorem splitAfterNl_wf {cs : List Char} (h : EndsNlC cs) : WfLines (splitAfterNl cs) := by
  rcases h with h | h
  · subst h
    intro l hl
    simp [splitAfterNl, splitAux] at hl
  · exact splitAux_wf cs [] h (by simp)

theorem splitAux_line : ∀ (b : List Char), '\n' ∉ b → ∀ (t acc : List Char),
    splitAux (b ++ '\n' :: t) acc = (acc.reverse ++ (b ++ ['\n'])) :: splitAux t [] := by
  intro b
  induction b with
  | nil =>
    intro _ t acc
    rw [List.nil_append, splitAux, if_pos rfl]
    simp
  | cons c b ih =>
    intro hnb t acc
    rw [List.cons_append, splitAux, if_neg (by intro hc; exact hnb (by rw [hc]; simp))]
    rw [ih (fun hm => hnb (by simp [hm])) t (c :: acc)]
    simp

theorem splitAfterNl_joinLines : ∀ (M : List Line), WfLines M →
    splitAfterNl (joinLines M) = M := by
  intro M
  induction M with
  | nil => intro _; rfl
  | cons l rest ih =>
    intro h
    obtain ⟨b, hb, hnb⟩ := h l (by simp)
    have hrest : WfLines rest := fun x hx => h x (by simp [hx])
    show splitAux (joinLines (l :: rest)) [] = l :: rest
    have hj : joinLines (l :: rest) = b ++ '\n' :: joinLines rest := by
      show (l :: rest).flatten = b ++ '\n' :: joinLines rest
      rw [List.flatten_cons, hb]
      simp [joinLines]
    rw [hj, splitAux_line b hnb (joinLines rest) []]
    rw [List.reverse_nil, List.nil_append, ← hb]
    show l :: splitAfterNl (joinLines rest) = l :: rest
    rw [ih hrest]

/-! ## Claims C2 and C3. -/

theorem ne_of_act_eq {a : Line × Line × Line} {s0 k0 k1 : Line} {x : UVal}
    (hax : a = (s0, k0, pyStr x)) (hne : k0 ≠ k1) : a.2.1 ≠ k1 := by
  subst hax
  simpa using hne

theorem keyLineG_preserved_of_absent {L : List Line} {u : UpdateSet} {s' k' : Line}
    (hend : AllEndNl L) (hk' : goodKey k' = true)
    (habs : ∀ a ∈ updActions u, a.2.1 ≠ k')
    (hfp : ∀ q ∈ fivePairs, q.2 ≠ k' →
      q.2.isPrefixOf k' = false ∧ k'.isPrefixOf q.2 = false) :
    keyLineG (applyUpdates L u) s' k' = keyLineG L s' k' := by
  rw [applyUpdates_eq_fold]
  apply keyLineG_applyActs s' k' hk' (updActions u) L hend
  intro a ha
  have hsk := updActions_goodSK u a ha
  have hq : (a.1, a.2.1) ∈ fivePairs := (updActions_sub u).subset (List.mem_map_of_mem _ ha)
  have hnp := hfp _ hq (habs a ha)
  exact ⟨hsk.1, hsk.2, hnp.1, hnp.2⟩

/-- C2 (amended): for a config whose lines are all newline-terminated, a write
touching other keys leaves the first matched line of every untouched
whitelisted (section, key) pair — value, comment, whitespace and newline
style — byte-identical, along with its match groups.  (As literally stated
the claim is false: when the file lacks a trailing newline, `_ensure_section`
appends one to the last line even though that line's key is not in the
update set; see the counterexample.) -/
theorem c2_frame_untouched (L : List Line) (u : UpdateSet) (hL : AllEndNl L) :
    ((∀ bu, u.base = some bu → bu.refresh = Option.none) →
      keyLineG (applyUpdates L u) baseS refreshK = keyLineG L baseS refreshK) ∧
    ((∀ bu, u.base = some bu → bu.dataRange = Option.none) →
      keyLineG (applyUpdates L u) baseS dataRangeK = keyLineG L baseS dataRangeK) ∧
    ((∀ bu, u.base = some bu → bu.baseUrl = Option.none) →
      keyLineG (applyUpdates L u) baseS baseUrlK = keyLineG L baseS baseUrlK) ∧
    ((∀ bu, u.base = some bu → bu.ticker = Option.none) →
      keyLineG (applyUpdates L u) baseS tickerK = keyLineG L baseS tickerK) ∧
    ((∀ eu, u.epd = some eu → eu.mode = Option.none) →
      keyLineG (applyUpdates L u) epdS modeK = keyLineG L epdS modeK) := by
  refine ⟨?_, ?_, ?_, ?_, ?_⟩
  · intro h
    apply keyLineG_preserved_of_absent hL (by decide) ?_ (by decide)
    intro a ha hk
    rcases updActions_source ha with ⟨bu, x, hbu, hx, hax⟩ | ⟨bu, x, hbu, hx, hax⟩ |
      ⟨bu, x, hbu, hx, hax⟩ | ⟨bu, x, hbu, hx, hax⟩ | ⟨eu, x, heu, hx, hax⟩
    · rw [h bu hbu] at hx
      cases hx
    · exact ne_of_act_eq hax (by decide) hk
    · exact ne_of_act_eq hax (by decide) hk
    · exact ne_of_act_eq hax (by decide) hk
    · exact ne_of_act_eq hax (by decide) hk
  · intro h
    apply keyLineG_preserved_of_absent hL (by decide) ?_ (by decide)
    intro a ha hk
    rcases updActions_source ha with ⟨bu, x, hbu, hx, hax⟩ | ⟨bu, x, hbu, hx, hax⟩ |
      ⟨bu, x, hbu, hx, hax⟩ | ⟨bu, x, hbu, hx, hax⟩ | ⟨eu, x, heu, hx, hax⟩
    · exact ne_of_act_eq hax (by decide) hk
    · rw [h bu hbu] at hx
      cases hx
    · exact ne_of_act_eq hax (by decide) hk
    · exact ne_of_act_eq hax (by decide) hk
    · exact ne_of_act_eq hax (by decide) hk
  · intro h
    apply keyLineG_preserved_of_absent hL (by decide) ?_ (by decide)
    intro a ha hk
    rcases updActions_source ha with ⟨bu, x, hbu, hx, hax⟩ | ⟨bu, x, hbu, hx, hax⟩ |
      ⟨bu, x, hbu, hx, hax⟩ | ⟨bu, x, hbu, hx, hax⟩ | ⟨eu, x, heu, hx, hax⟩
    · exact ne_of_act_eq hax (by decide) hk
    · exact ne_of_act_eq hax (by decide) hk
    · rw [h bu hbu] at hx
      cases hx
    · exact ne_of_act_eq hax (by decide) hk
    · exact ne_of_act_eq hax (by decide) hk
  · intro h
    apply keyLineG_preserved_of_absent hL (by decide) ?_ (by decide)
    intro a ha hk
    rcases updActions_source ha with ⟨bu, x, hbu, hx, hax⟩ | ⟨bu, x, hbu, hx, hax⟩ |
      ⟨bu, x, hbu, hx, hax⟩ | ⟨bu, x, hbu, hx, hax⟩ | ⟨eu, x, heu, hx, hax⟩
    · exact ne_of_act_eq hax (by decide) hk
    · exact ne_of_act_eq hax (by decide) hk
    · exact ne_of_act_eq hax (by decide) hk
    · rw [h bu hbu] at hx
      cases hx
    · exact ne_of_act_eq hax (by decide) hk
  · intro h
    apply keyLineG_preserved_of_absent hL (by decide) ?_ (by decide)
    intro a ha hk
    rcases updActions_source ha with ⟨bu, x, hbu, hx, hax⟩ | ⟨bu, x, hbu, hx, hax⟩ |
      ⟨bu, x, hbu, hx, hax⟩ | ⟨bu, x, hbu, hx, hax⟩ | ⟨eu, x, heu, hx, hax⟩
    · exact ne_of_act_eq hax (by decide) hk
    · exact ne_of_act_eq hax (by decide) hk
    · exact ne_of_act_eq hax (by decide) hk
    · exact ne_of_act_eq hax (by decide) hk
    · rw [h eu heu] at hx
      cases hx

/-- C2 counterexample to the claim as stated: writing only `epd2in13v3.mode`
to a file whose last line `ticker = A` lacks a trailing newline changes that
untouched key line's bytes (it gains a newline from `_ensure_section`). -/
theorem c2_counterexample :
    (keyLineG (splitAfterNl (chars "[base]\nticker = A")) baseS tickerK).map
        (fun t => t.1) = some (chars "ticker = A") ∧
    (keyLineG (splitAfterNl (writeConfigContent (some (chars "[base]\nticker = A"))
        (updMode (chars "x")))) baseS tickerK).map (fun t => t.1) =
      some (chars "ticker = A\n") := by
  decide

/-- Witness for the amended C2 at a newline-terminated file and a
mode-only update set. -/
theorem c2_witness :
    AllEndNl (splitAfterNl (chars "[base]\nticker = A\n")) ∧
    keyLineG (applyUpdates (splitAfterNl (chars "[base]\nticker = A\n"))
        (updMode (chars "x"))) baseS tickerK =
      keyLineG (splitAfterNl (chars "[base]\nticker = A\n")) baseS tickerK :=
  ⟨by unfold AllEndNl; decide,
    (c2_frame_untouched (splitAfterNl (chars "[base]\nticker = A\n"))
      (updMode (chars "x")) (by unfold AllEndNl; decide)).2.2.2.1
      (fun bu hbu => Option.noConfusion hbu)⟩

/-- C3 (amended): for a newline-terminated file content and an update set all
of whose rendered value strings are clean (nonempty, no leading whitespace,
no '#', ';' or newline characters), applying the write path twice with the
same update set yields byte-identical content to applying it once.  (As
literally stated the claim is false: a validated ticker value containing '#'
makes the second application duplicate the comment part; see the
counterexample.) -/
theorem c3_idem_clean (cs : List Char) (u : UpdateSet) (hE : EndsNlC cs)
    (hc : cleanUpdates u = true) :
    writeConfigContent (some (writeConfigContent (some cs) u)) u =
      writeConfigContent (some cs) u := by
  unfold writeConfigContent
  dsimp only
  have hwL : WfLines (splitAfterNl cs) := splitAfterNl_wf hE
  have hwM : WfLines (applyUpdates (splitAfterNl cs) u) := wfLines_applyUpdates hwL hc
  rw [splitAfterNl_joinLines _ hwM, applyUpdates_idem_lines hwL hc]

/-- C3 counterexample to the claim as stated: the validated ticker value
`#x` (nonempty after strip, so accepted) is re-parsed as a comment on the
second pass, which duplicates it. -/
theorem c3_counterexample :
    writeConfigContent (some (chars "[base]\nticker : A\n")) (updTicker (chars "#x")) =
      chars "[base]\nticker : #x\n" ∧
    writeConfigContent (some (writeConfigContent (some (chars "[base]\nticker : A\n"))
        (updTicker (chars "#x")))) (updTicker (chars "#x")) =
      chars "[base]\nticker : #x#x\n" := by
  decide

/-- Witness for the amended C3 at a newline-terminated file and a clean
ticker value. -/
theorem c3_witness :
    EndsNlC (chars "[base]\nticker : A\n") ∧
    cleanUpdates (updTicker (chars "B")) = true ∧
    writeConfigContent (some (writeConfigContent (some (chars "[base]\nticker : A\n"))
        (updTicker (chars "B")))) (updTicker (chars "B")) =
      writeConfigContent (some (chars "[base]\nticker : A\n")) (updTicker (chars "B")) :=
  ⟨by unfold EndsNlC; decide, by decide,
    c3_idem_clean (chars "[base]\nticker : A\n") (updTicker (chars "B"))
      (by unfold EndsNlC; decide) (by decide)⟩

end ZeroStock
